import Mathlib

/-!
Verification development for the TemPageR monitoring plugin.

The program polls an AVTECH TemPageR temperature sensor, repairs its
malformed quasi-JSON payload with three sequential text substitutions,
decodes the result, classifies every sensor reading against a warning and
a critical threshold, rolls the per-reading states up into a single
process exit code, and renders one of three output formats (munin graph
config, munin raw values, nagios alert summary).

Texts are modelled as `List Char`.  The three substitutions
(`re.sub` calls in `TemPageR.fetch`) are modelled as one-character-per-step
scanners so that every definition is structurally recursive and
kernel-computable.
-/

/-- The character class `[a-z]` used by the two regular expressions. -/
def isLowerAZ (c : Char) : Bool := 'a' ≤ c && c ≤ 'z'

/-- Scanner for the first substitution, `sub(r"{([a-z]*):", r'{"\1":', text)`.
The first argument is `none` while scanning ordinary text and `some acc`
after an opening brace, where `acc` holds the reversed lowercase run read
so far.  On `:` the pending `{run` is emitted with quotes inserted; on any
other non-lowercase character the pending text is emitted unchanged and
scanning resumes at that character (which may itself open a new brace),
exactly like the regex engine advancing past a failed match position. -/
def pass1go : Option (List Char) → List Char → List Char
  | none, [] => []
  | none, c :: rest =>
      if c = '\x7b' then pass1go (some []) rest
      else c :: pass1go none rest
  | some acc, [] => '\x7b' :: acc.reverse
  | some acc, c :: rest =>
      if isLowerAZ c then pass1go (some (c :: acc)) rest
      else if c = ':' then
        '\x7b' :: '\x22' :: (acc.reverse ++ '\x22' :: ':' :: pass1go none rest)
      else if c = '\x7b' then
        '\x7b' :: (acc.reverse ++ pass1go (some []) rest)
      else
        '\x7b' :: (acc.reverse ++ c :: pass1go none rest)

/-- First repair pass: quote every `{ident:` as `{"ident":`. -/
def pass1 (l : List Char) : List Char := pass1go none l

/-- Scanner for the second substitution, `sub(r",([a-z]*)", r',"\1"', text)`.
The Bool is `true` while emitting the lowercase run that follows a comma
(an opening quote has already been emitted); the closing quote is emitted
at the first non-lowercase character or at end of input.  Every comma
matches, since `[a-z]*` also matches the empty identifier. -/
def pass2go : Bool → List Char → List Char
  | false, [] => []
  | false, c :: rest =>
      if c = ',' then ',' :: '\x22' :: pass2go true rest
      else c :: pass2go false rest
  | true, [] => ['\x22']
  | true, c :: rest =>
      if isLowerAZ c then c :: pass2go true rest
      else if c = ',' then '\x22' :: ',' :: '\x22' :: pass2go true rest
      else '\x22' :: c :: pass2go false rest

/-- Second repair pass: quote every `,ident` as `,"ident"`. -/
def pass2 (l : List Char) : List Char := pass2go false l

/-- Third repair pass, `sub(',""{', ',{', text)`: replace every literal
occurrence of `,""{` (artifact of the second pass at a nested object
opener) with `,{`, scanning left to right without rescanning emitted
text. -/
def pass3 : List Char → List Char
  | c1 :: c2 :: c3 :: c4 :: rest =>
      if c1 = ',' ∧ c2 = '\x22' ∧ c3 = '\x22' ∧ c4 = '\x7b' then
        ',' :: '\x7b' :: pass3 rest
      else c1 :: pass3 (c2 :: c3 :: c4 :: rest)
  | c1 :: rest1 => c1 :: pass3 rest1
  | [] => []

/-- The full payload repair of `TemPageR.fetch`: the three substitutions
applied in source order. -/
def repair (l : List Char) : List Char := pass3 (pass2 (pass1 l))

/-! ## Structured data (model of the decoded JSON) -/

/-- JSON values as far as the device dialect needs them: objects, arrays,
strings and integer numbers. -/
inductive Json where
  | num : Int → Json
  | str : List Char → Json
  | arr : List Json → Json
  | obj : List (List Char × Json) → Json

/-- Lookup in a decoded object.  Python dict construction lets a later
duplicate key override an earlier one, so the last binding wins. -/
def jlookup : List (List Char × Json) → List Char → Option Json
  | [], _ => none
  | (k, v) :: rest, key =>
      match jlookup rest key with
      | some r => some r
      | none => if k = key then some v else none

/-- JSON whitespace. -/
def isWsChar (c : Char) : Bool := c = ' ' || c = '\t' || c = '\n' || c = '\r'

/-- Skip leading whitespace. -/
def skipWs (l : List Char) : List Char := l.dropWhile isWsChar

/-- ASCII decimal digit. -/
def isDigitAZ (c : Char) : Bool := '0' ≤ c && c ≤ '9'

/-- String body scanner: the characters up to the closing quote.  The
model covers escape-free strings only (the device dialect never emits
backslash escapes), so a backslash is rejected. -/
def parseStrBody : List Char → Option (List Char × List Char)
  | [] => none
  | c :: rest =>
      if c = '\x22' then some ([], rest)
      else if c = '\\' then none
      else match parseStrBody rest with
           | some (s, r) => some (c :: s, r)
           | none => none

/-- Split off the leading run of decimal digits. -/
def takeDigits : List Char → List Char × List Char
  | [] => ([], [])
  | c :: rest =>
      if isDigitAZ c then
        match takeDigits rest with
        | (ds, r) => (c :: ds, r)
      else ([], c :: rest)

/-- Numeric value of a digit run. -/
def digitsToNat (ds : List Char) : Nat :=
  ds.foldl (fun a c => a * 10 + (c.toNat - 48)) 0

/-- Parse a nonempty digit run into a natural number. -/
def parseNatNum (l : List Char) : Option (Nat × List Char) :=
  match takeDigits l with
  | ([], _) => none
  | (ds, r) => some (digitsToNat ds, r)

mutual

/-- Fuel-indexed JSON value reader (model of `json.loads`, restricted to
the device dialect: no `true`/`false`/`null`, integer numbers only,
escape-free strings). -/
def parseVal : Nat → List Char → Option (Json × List Char)
  | 0, _ => none
  | fuel + 1, l =>
      match skipWs l with
      | [] => none
      | c :: rest =>
          if c = '\x22' then
            match parseStrBody rest with
            | some (s, r) => some (Json.str s, r)
            | none => none
          else if c = '-' then
            match parseNatNum rest with
            | some (n, r) => some (Json.num (-(n : Int)), r)
            | none => none
          else if isDigitAZ c then
            match parseNatNum (c :: rest) with
            | some (n, r) => some (Json.num (n : Int), r)
            | none => none
          else if c = '[' then
            match skipWs rest with
            | ']' :: r => some (Json.arr [], r)
            | l2 => match parseElems fuel l2 with
                    | some (vs, r) => some (Json.arr vs, r)
                    | none => none
          else if c = '\x7b' then
            match skipWs rest with
            | '\x7d' :: r => some (Json.obj [], r)
            | l2 => match parseMembers fuel l2 with
                    | some (kvs, r) => some (Json.obj kvs, r)
                    | none => none
          else none

/-- Array elements after `[`, at least one, ending at `]`. -/
def parseElems : Nat → List Char → Option (List Json × List Char)
  | 0, _ => none
  | fuel + 1, l =>
      match parseVal fuel l with
      | none => none
      | some (v, r) =>
          match skipWs r with
          | ',' :: r2 =>
              match parseElems fuel r2 with
              | some (vs, r3) => some (v :: vs, r3)
              | none => none
          | ']' :: r2 => some ([v], r2)
          | _ => none

/-- Object members after `{`, at least one, ending at `}`. -/
def parseMembers : Nat → List Char → Option (List (List Char × Json) × List Char)
  | 0, _ => none
  | fuel + 1, l =>
      match skipWs l with
      | '\x22' :: rest =>
          match parseStrBody rest with
          | none => none
          | some (k, r) =>
              match skipWs r with
              | ':' :: r2 =>
                  match parseVal fuel r2 with
                  | none => none
                  | some (v, r3) =>
                      match skipWs r3 with
                      | ',' :: r4 =>
                          match parseMembers fuel r4 with
                          | some (kvs, r5) => some ((k, v) :: kvs, r5)
                          | none => none
                      | '\x7d' :: r4 => some ([(k, v)], r4)
                      | _ => none
              | _ => none
      | _ => none

end

/-- Model of `json.loads`: one value, then only trailing whitespace. -/
def loads (l : List Char) : Option Json :=
  match parseVal (2 * l.length + 2) l with
  | some (j, r) => if skipWs r = [] then some j else none
  | none => none

/-! ## Classification and reporting (model of the rest of `TemPageR`) -/

/-- The per-reading state strings `'OK' / 'Warning' / 'Critical'`. -/
inductive TState where
  | ok : TState
  | warning : TState
  | critical : TState
deriving DecidableEq

/-- The threshold classification in `TemPageR.fetch`:
`if temp < tempWarning: 'OK' elif temp < tempCritical: 'Warning'
else: 'Critical'`. -/
def classify (tempWarning tempCritical temp : Int) : TState :=
  if temp < tempWarning then TState.ok
  else if temp < tempCritical then TState.warning
  else TState.critical

/-- One update of `self.nagiosExitCode` (initialised to 3) by the three
`if/elif` branches in `TemPageR.fetch`. -/
def stepCode (code : Int) (s : TState) : Int :=
  match s with
  | TState.ok => if code = 3 then 0 else code
  | TState.warning => if code = 0 then 1 else code
  | TState.critical => if 0 ≤ code then 2 else code

/-- One entry of `self.temperatures`: label, active-scale temperature and
classification state. -/
structure Reading where
  label : Json
  temp : Int
  state : TState

/-- Extraction of one sensor record: `sensor['label']` and
`sensor[self.sensorTemp]` must exist and the temperature must be numeric;
a missing key or non-numeric temperature raises in Python, modelled as
`none`. -/
def extractReading (tempWarning tempCritical : Int) (sensorTemp : List Char)
    (j : Json) : Option Reading :=
  match j with
  | Json.obj kvs =>
      match jlookup kvs ("label".toList), jlookup kvs sensorTemp with
      | some lab, some (Json.num n) =>
          some ⟨lab, n, classify tempWarning tempCritical n⟩
      | _, _ => none
  | _ => none

/-- The sensor loop of `TemPageR.fetch`: each entry is classified in
sequence order while `nagiosExitCode` is updated; a failing extraction
aborts (uncaught exception). -/
def processSensors (tempWarning tempCritical : Int) (sensorTemp : List Char) :
    List Json → Int → Option (List Reading × Int)
  | [], code => some ([], code)
  | s :: rest, code =>
      match extractReading tempWarning tempCritical sensorTemp s with
      | none => none
      | some r =>
          match processSensors tempWarning tempCritical sensorTemp rest
              (stepCode code r.state) with
          | none => none
          | some (rs, c) => some (r :: rs, c)

/-- The post-decode part of `TemPageR.fetch`: a non-dict payload or a dict
without a `sensor` key yields zero readings and leaves the exit code at 3
(`temp.get('sensor', [])`); a `sensor` value that is not a sequence of
well-formed records is a crash, modelled as `none`. -/
def fetchFromJson (tempWarning tempCritical : Int) (sensorTemp : List Char)
    (j : Json) : Option (List Reading × Int) :=
  match j with
  | Json.obj kvs =>
      match jlookup kvs ("sensor".toList) with
      | some (Json.arr ss) => processSensors tempWarning tempCritical sensorTemp ss 3
      | some _ => none
      | none => some ([], 3)
  | _ => some ([], 3)

/-- Outcome of one invocation of `fetch` on a raw payload. -/
inductive FetchR where
  | parseFail : FetchR
  | fieldCrash : FetchR
  | ok : List Reading → Int → FetchR

/-- `fetch` on raw text: repair, decode (`exit(3)` with a logged error on
decode failure, before anything is printed), then the sensor loop. -/
def fetchResult (tempWarning tempCritical : Int) (sensorTemp : List Char)
    (raw : List Char) : FetchR :=
  match loads (repair raw) with
  | none => FetchR.parseFail
  | some j =>
      match fetchFromJson tempWarning tempCritical sensorTemp j with
      | none => FetchR.fieldCrash
      | some (rs, c) => FetchR.ok rs c

/-- Result of one output mode: fatal parse error (exit 3, nothing
printed), uncaught crash (nothing printed), or printed records plus the
process exit code. -/
inductive ModeOut (α : Type) where
  | parseFail : ModeOut α
  | fieldCrash : ModeOut α
  | done : List α → Int → ModeOut α

/-- One line of `printTemp`: `"temp{}.value {}".format(sId, sensor['temp'])`. -/
def tempValueLine (i : Nat) (r : Reading) : List Char :=
  ("temp".toList) ++ (toString i).toList ++ (".value ".toList) ++
    (toString r.temp).toList

/-- The body lines of `printTemp`, in `enumerate` order. -/
def tempLines (rs : List Reading) : List (List Char) :=
  rs.enum.map (fun p => tempValueLine p.1 p.2)

/-- One per-sensor record of `printConfig`: sensor id, label, warning
threshold, critical threshold (the three formatted lines). -/
def configRecords (tempWarning tempCritical : Int) (rs : List Reading) :
    List (Nat × Json × Int × Int) :=
  rs.enum.map (fun p => (p.1, p.2.label, tempWarning, tempCritical))

/-- One summary part of `nagios`: sensor id, label, state, temperature. -/
def nagiosRecords (rs : List Reading) : List (Nat × Json × TState × Int) :=
  rs.enum.map (fun p => (p.1, p.2.label, p.2.state, p.2.temp))

/-- `printTemp`: fetch, print the value lines, `exit(0)`. -/
def runTemp (tempWarning tempCritical : Int) (sensorTemp raw : List Char) :
    ModeOut (List Char) :=
  match fetchResult tempWarning tempCritical sensorTemp raw with
  | FetchR.parseFail => ModeOut.parseFail
  | FetchR.fieldCrash => ModeOut.fieldCrash
  | FetchR.ok rs _ => ModeOut.done (tempLines rs) 0

/-- `printConfig`: fetch, print header and per-sensor records, `exit(0)`. -/
def runConfig (tempWarning tempCritical : Int) (sensorTemp raw : List Char) :
    ModeOut (Nat × Json × Int × Int) :=
  match fetchResult tempWarning tempCritical sensorTemp raw with
  | FetchR.parseFail => ModeOut.parseFail
  | FetchR.fieldCrash => ModeOut.fieldCrash
  | FetchR.ok rs _ => ModeOut.done (configRecords tempWarning tempCritical rs) 0

/-- `nagios`: fetch, print the joined summary, `exit(self.nagiosExitCode)`. -/
def runNagios (tempWarning tempCritical : Int) (sensorTemp raw : List Char) :
    ModeOut (Nat × Json × TState × Int) :=
  match fetchResult tempWarning tempCritical sensorTemp raw with
  | FetchR.parseFail => ModeOut.parseFail
  | FetchR.fieldCrash => ModeOut.fieldCrash
  | FetchR.ok rs c => ModeOut.done (nagiosRecords rs) c

/-- Process exit status of a mode outcome: parse failure exits 3
(`exit(3)` in `fetch`), an uncaught exception makes the interpreter exit
1, and a completed run exits with the recorded code. -/
def exitOf {α : Type} : ModeOut α → Int
  | ModeOut.parseFail => 3
  | ModeOut.fieldCrash => 1
  | ModeOut.done _ c => c

/-- Records printed on standard output, if any: both failure outcomes
print nothing. -/
def outOf {α : Type} : ModeOut α → Option (List α)
  | ModeOut.done l _ => some l
  | _ => none

/-- Whether the decode-error branch logged the parse error
(`logging.error("Unable to parse JSON string: ...")`). -/
def logsParseError {α : Type} : ModeOut α → Bool
  | ModeOut.parseFail => true
  | _ => false

/-- The active temperature key for the Celsius configuration
(`self.sensorTemp = 'tempc'`). -/
def tempcKey : List Char := "tempc".toList

/-- Classify-and-collect over a sensor list: exactly one reading per
entry, in decode order, failing if any entry fails to extract. -/
def extractAll (tempWarning tempCritical : Int) (sensorTemp : List Char) :
    List Json → Option (List Reading)
  | [] => some []
  | s :: rest =>
      match extractReading tempWarning tempCritical sensorTemp s,
            extractAll tempWarning tempCritical sensorTemp rest with
      | some r, some rs => some (r :: rs)
      | _, _ => none

/-- A decoded payload from which `fetch` extracts nothing: not a dict, or
a dict without a `sensor` key. -/
def lacksSensor : Json → Bool
  | Json.obj kvs => (jlookup kvs ("sensor".toList)).isNone
  | _ => true

/-! ## Concrete payloads used by the claims -/

/-- Raw payload with a bare-keyed first sensor and an already-quoted
second sensor behind a nested object opener `,{`. -/
def rawNested : List Char :=
  ("\x7bsensor:[\x7blabel:\"x\"\x7d,\x7b\"label\":\"y\"\x7d]\x7d").toList

/-- The repaired form of `rawNested`. -/
def fixedNested : List Char :=
  ("\x7b\"sensor\":[\x7b\"label\":\"x\"\x7d,\x7b\"label\":\"y\"\x7d]\x7d").toList

/-- The decoded value of `fixedNested`. -/
def jsonNested : Json :=
  Json.obj [(("sensor").toList,
    Json.arr [Json.obj [(("label").toList, Json.str ("x".toList))],
              Json.obj [(("label").toList, Json.str ("y".toList))]])]

/-- Raw payload of the end-to-end scenario: two sensors at 22 and 31
degrees Celsius. -/
def rawTwoSensors : List Char :=
  ("\x7bsensor:[\x7blabel:\"Rack1\",tempc:22\x7d,\x7blabel:\"Rack2\",tempc:31\x7d]\x7d").toList

/-- Raw payload with one sensor whose temperature equals the warning
threshold 28. -/
def rawSingleWarning : List Char :=
  ("\x7bsensor:[\x7blabel:\"a\",tempc:28\x7d]\x7d").toList

/-- Raw payload with bare keys, the round-trip example. -/
def rawBareKeys : List Char := ("\x7blabel:\"x\",tempc:20\x7d").toList

/-- The well-formed equivalent of `rawBareKeys`. -/
def wellFormedKeys : List Char :=
  ("\x7b\"label\":\"x\",\"tempc\":20\x7d").toList

/-- Raw payload that decodes to a dict with one `sensor` entry missing
the temperature field. -/
def rawMissingField : List Char :=
  ("\x7b\"sensor\":[\x7b\"label\":\"x\"\x7d]\x7d").toList

/-- Raw payload with an empty `sensor` sequence. -/
def rawEmptySensors : List Char := ("\x7bsensor:[]\x7d").toList

/-- Valid JSON with a comma followed by a digit. -/
def rawDigit : List Char := ("[1,2]").toList

/-- Valid JSON with a comma followed by a double quote. -/
def rawQuote : List Char := ("[\"a\",\"b\"]").toList

/-- Valid JSON with a comma followed by an opening bracket. -/
def rawBracket : List Char := ("[[1],[2]]").toList

/-- The first character of `Y`, if any, is not a digit. -/
def headNotDigit (Y : List Char) : Prop :=
  ∀ d y, Y = d :: y → isDigitAZ d = false

/-- Scanner mode inside a string body: `n`eutral, after a `c`omma, or
inside a `b`race run. -/
inductive SMode where
  | n : SMode
  | c : SMode
  | b : SMode

/-- Whether a string body is copied unchanged by the repair (the closing
quote resolves a pending brace run; a pending comma is dirty). -/
def strOk : SMode → List Char → Bool
  | SMode.n, [] => true
  | SMode.c, [] => false
  | SMode.b, [] => true
  | SMode.n, ch :: x =>
      if ch = ',' then strOk SMode.c x
      else if ch = '\x7b' then strOk SMode.b x
      else strOk SMode.n x
  | SMode.c, ch :: x =>
      if ch = '\x7b' then strOk SMode.b x else false
  | SMode.b, ch :: x =>
      if isLowerAZ ch then strOk SMode.b x
      else if ch = ':' then false
      else if ch = '\x7b' then strOk SMode.b x
      else if ch = ',' then strOk SMode.c x
      else strOk SMode.n x

/-- A repaired string region that closes early: some quote-free,
backslash-free prefix, then a quote followed by a lowercase letter or
another quote. -/
def DirtyOut (s : List Char) : Prop :=
  ∃ pre d tail, s = pre ++ '\x22' :: d :: tail ∧
    (∀ ch ∈ pre, ¬ ch = '\x22' ∧ ¬ ch = '\\') ∧
    (isLowerAZ d = true ∨ d = '\x22')

/-- A prefix the repair copies verbatim, resuming in the neutral state. -/
def CleanPre (p : List Char) : Prop :=
  ∀ z, repair (p ++ z) = p ++ repair z

/-- A prefix the repair copies verbatim even right after a comma. -/
def CleanPreC (p : List Char) : Prop :=
  ∀ z, repair (',' :: (p ++ z)) = ',' :: (p ++ repair z)

/-- Every comma of `p` is immediately followed inside `p` by `{`. -/
def NoBad (p : List Char) : Prop :=
  (∀ u c v, p = u ++ ',' :: c :: v → c = '\x7b') ∧
  (∀ u, p = u ++ [','] → False)

/-- A remainder beginning with a lowercase letter or a quote, on which
every continuation context of the parser fails. -/
def Poison (r : List Char) : Prop :=
  ∃ d t, r = d :: t ∧ (isLowerAZ d = true ∨ d = '\x22')

/-- The consumed prefix of a clean value: copied verbatim by the repair,
free of bad commas, and replayable in any context (or the fuel runs
out). -/
def ValA (l : List Char) (j : Json) (rem : List Char) : Prop :=
  ∃ p, l = p ++ rem ∧ ¬ p = [] ∧ CleanPre p ∧
    (∀ tl, l = '\x7b' :: tl → CleanPreC p) ∧ NoBad p ∧
    ∀ g Y, headNotDigit Y →
      (parseVal g (p ++ Y) = some (j, Y) ∨ parseVal g (p ++ Y) = none)

/-- The consumed prefix of a clean element list. -/
def ElemsA (l : List Char) (vs : List Json) (rem : List Char) : Prop :=
  ∃ p, l = p ++ rem ∧ ¬ p = [] ∧ CleanPre p ∧
    (∀ tl, l = '\x7b' :: tl → CleanPreC p) ∧ NoBad p ∧
    ∀ g Y, (parseElems g (p ++ Y) = some (vs, Y) ∨ parseElems g (p ++ Y) = none)

/-- The consumed prefix of a clean member list. -/
def MembersA (l : List Char) (kvs : List (List Char × Json))
    (rem : List Char) : Prop :=
  ∃ p, l = p ++ rem ∧ ¬ p = [] ∧ CleanPre p ∧ NoBad p ∧
    ∀ g Y, (parseMembers g (p ++ Y) = some (kvs, Y) ∨
      parseMembers g (p ++ Y) = none)

/-- On the repaired text, a value parse fails or returns a poisoned
remainder. -/
def BustV (l : List Char) : Prop :=
  ∀ g, parseVal g (repair l) = none ∨
    ∃ j2 r2, parseVal g (repair l) = some (j2, r2) ∧ Poison r2

/-- On the repaired text, an element parse fails. -/
def BustE (l : List Char) : Prop := ∀ g, parseElems g (repair l) = none

/-- On the repaired text, a member parse fails. -/
def BustM (l : List Char) : Prop := ∀ g, parseMembers g (repair l) = none

/-! ## Claims -/

/-- Claim C1: with warn < crit, severity classification satisfies
`Critical ↔ temp ≥ crit`, `Warning ↔ warn ≤ temp < crit`,
`Ok ↔ temp < warn`; in particular temp = warn gives Warning and
temp = crit gives Critical. -/
theorem c1_classification_bands (w k t : Int) (h : w < k) :
    (classify w k t = TState.critical ↔ k ≤ t) ∧
    (classify w k t = TState.warning ↔ w ≤ t ∧ t < k) ∧
    (classify w k t = TState.ok ↔ t < w) ∧
    classify w k w = TState.warning ∧
    classify w k k = TState.critical := by
  have eok : ∀ u : Int, u < w → classify w k u = TState.ok := by
    intro u hu
    unfold classify
    rw [if_pos hu]
  have ewarn : ∀ u : Int, ¬ u < w → u < k → classify w k u = TState.warning := by
    intro u hu1 hu2
    unfold classify
    rw [if_neg hu1, if_pos hu2]
  have ecrit : ∀ u : Int, ¬ u < w → ¬ u < k → classify w k u = TState.critical := by
    intro u hu1 hu2
    unfold classify
    rw [if_neg hu1, if_neg hu2]
  refine ⟨⟨?_, ?_⟩, ⟨?_, ?_⟩, ⟨?_, ?_⟩, ?_, ?_⟩
  · intro hh
    rcases lt_or_le t w with h1 | h1
    · rw [eok t h1] at hh
      exact absurd hh (by decide)
    · rcases lt_or_le t k with h2 | h2
      · rw [ewarn t (by omega) h2] at hh
        exact absurd hh (by decide)
      · omega
  · intro hh
    exact ecrit t (by omega) (by omega)
  · intro hh
    rcases lt_or_le t w with h1 | h1
    · rw [eok t h1] at hh
      exact absurd hh (by decide)
    · rcases lt_or_le t k with h2 | h2
      · exact ⟨by omega, h2⟩
      · rw [ecrit t (by omega) (by omega)] at hh
        exact absurd hh (by decide)
  · intro hh
    exact ewarn t (by omega) hh.2
  · intro hh
    rcases lt_or_le t w with h1 | h1
    · exact h1
    · rcases lt_or_le t k with h2 | h2
      · rw [ewarn t (by omega) h2] at hh
        exact absurd hh (by decide)
      · rw [ecrit t (by omega) (by omega)] at hh
        exact absurd hh (by decide)
  · intro hh
    exact eok t hh
  · exact ewarn w (by omega) (by omega)
  · exact ecrit k (by omega) (by omega)

/-- Witness for C1 at warn = 28, crit = 30, temp = 29. -/
theorem c1_classification_bands_witness :
    (28 : Int) < 30 ∧
    ((classify 28 30 29 = TState.critical ↔ (30 : Int) ≤ 29) ∧
     (classify 28 30 29 = TState.warning ↔ (28 : Int) ≤ 29 ∧ (29 : Int) < 30) ∧
     (classify 28 30 29 = TState.ok ↔ (29 : Int) < 28) ∧
     classify 28 30 28 = TState.warning ∧
     classify 28 30 30 = TState.critical) :=
  ⟨by decide, c1_classification_bands 28 30 29 (by decide)⟩

/-- Claim C2 (code bug): a Warning reading never raises the aggregate out
of the initial Unknown state 3, because the Warning branch requires the
current code to be exactly 0; a single sensor at the warning threshold
therefore leaves the nagios exit code at 3 instead of 1. -/
theorem c2_warning_never_raises_unknown :
    stepCode 3 TState.warning = 3 ∧
    fetchResult 28 30 tempcKey rawSingleWarning =
      FetchR.ok [⟨Json.str ("a".toList), 28, TState.warning⟩] 3 ∧
    exitOf (runNagios 28 30 tempcKey rawSingleWarning) = 3 ∧
    ¬ exitOf (runNagios 28 30 tempcKey rawSingleWarning) = 1 :=
  ⟨rfl, rfl, rfl, by decide⟩

/-- Claim C3: the payload repair is the three passes in source order, and
a raw payload containing a nested object opener `,{` (here the literal
`,{"label":"y"}`) still decodes correctly after all three passes, the
`,""{` artifact of pass 2 having been restored to `,{` by pass 3. -/
theorem c3_pass_order_and_nested_object :
    (∀ t : List Char, repair t = pass3 (pass2 (pass1 t))) ∧
    repair rawNested = fixedNested ∧
    loads (repair rawNested) = some jsonNested :=
  ⟨fun _ => rfl, rfl, rfl⟩

/-- Claim C5: when the repaired text does not decode, every mode
terminates with exit status 3 (nonzero), logs the decode error, and
prints nothing on standard output. -/
theorem c5_parse_error_is_fatal (w k : Int) (key raw : List Char)
    (h : loads (repair raw) = none) :
    runTemp w k key raw = ModeOut.parseFail ∧
    runConfig w k key raw = ModeOut.parseFail ∧
    runNagios w k key raw = ModeOut.parseFail ∧
    exitOf (runTemp w k key raw) = 3 ∧
    exitOf (runConfig w k key raw) = 3 ∧
    exitOf (runNagios w k key raw) = 3 ∧
    ¬ (3 : Int) = 0 ∧
    outOf (runTemp w k key raw) = none ∧
    outOf (runConfig w k key raw) = none ∧
    outOf (runNagios w k key raw) = none ∧
    logsParseError (runTemp w k key raw) = true := by
  have hf : fetchResult w k key raw = FetchR.parseFail := by
    unfold fetchResult
    rw [h]
  simp [runTemp, runConfig, runNagios, hf, exitOf, outOf, logsParseError]

/-- Witness for C5 on the undecodable raw text `x`. -/
theorem c5_parse_error_is_fatal_witness :
    loads (repair ("x".toList)) = none ∧
    (runTemp 28 30 tempcKey ("x".toList) = ModeOut.parseFail ∧
     runConfig 28 30 tempcKey ("x".toList) = ModeOut.parseFail ∧
     runNagios 28 30 tempcKey ("x".toList) = ModeOut.parseFail ∧
     exitOf (runTemp 28 30 tempcKey ("x".toList)) = 3 ∧
     exitOf (runConfig 28 30 tempcKey ("x".toList)) = 3 ∧
     exitOf (runNagios 28 30 tempcKey ("x".toList)) = 3 ∧
     ¬ (3 : Int) = 0 ∧
     outOf (runTemp 28 30 tempcKey ("x".toList)) = none ∧
     outOf (runConfig 28 30 tempcKey ("x".toList)) = none ∧
     outOf (runNagios 28 30 tempcKey ("x".toList)) = none ∧
     logsParseError (runTemp 28 30 tempcKey ("x".toList)) = true) :=
  ⟨rfl, c5_parse_error_is_fatal 28 30 tempcKey ("x".toList) rfl⟩

/-- Claim C7: the two-sensor end-to-end scenario at warn = 28, crit = 30,
Celsius: raw-value mode prints `temp0.value 22` then `temp1.value 31`
and exits 0; the severities are Ok and Critical, the aggregate code is 2,
and alert-summary mode exits 2. -/
theorem c7_end_to_end_two_sensors :
    fetchResult 28 30 tempcKey rawTwoSensors =
      FetchR.ok [⟨Json.str ("Rack1".toList), 22, TState.ok⟩,
                 ⟨Json.str ("Rack2".toList), 31, TState.critical⟩] 2 ∧
    runTemp 28 30 tempcKey rawTwoSensors =
      ModeOut.done [("temp0.value 22").toList, ("temp1.value 31").toList] 0 ∧
    exitOf (runTemp 28 30 tempcKey rawTwoSensors) = 0 ∧
    exitOf (runNagios 28 30 tempcKey rawTwoSensors) = 2 :=
  ⟨rfl, rfl, rfl, rfl⟩

/-- Claim C8: the three repair passes turn the bare-keyed payload
`{label:"x",tempc:20}` into text that decodes to the same structured
value as the well-formed `{"label":"x","tempc":20}`. -/
theorem c8_round_trip_bare_keys :
    repair rawBareKeys = wellFormedKeys ∧
    loads (repair rawBareKeys) = loads wellFormedKeys ∧
    (loads wellFormedKeys).isSome = true :=
  ⟨rfl, rfl, rfl⟩

/-- The final exit code of the sensor loop is the left fold of the
`nagiosExitCode` update over the reading states. -/
theorem processSensors_code (w k : Int) (key : List Char) :
    ∀ (ss : List Json) (code : Int) (rs : List Reading) (c : Int),
      processSensors w k key ss code = some (rs, c) →
      c = (rs.map Reading.state).foldl stepCode code := by
  intro ss
  induction ss with
  | nil =>
      intro code rs c hp
      simp only [processSensors, Option.some.injEq, Prod.mk.injEq] at hp
      obtain ⟨h1, h2⟩ := hp
      subst h1
      subst h2
      simp
  | cons s rest ih =>
      intro code rs c hp
      simp only [processSensors] at hp
      cases hE : extractReading w k key s with
      | none =>
          rw [hE] at hp
          simp at hp
      | some r =>
          rw [hE] at hp
          dsimp only at hp
          cases hP : processSensors w k key rest (stepCode code r.state) with
          | none =>
              rw [hP] at hp
              simp at hp
          | some pc =>
              obtain ⟨rs0, c0⟩ := pc
              rw [hP] at hp
              dsimp only at hp
              simp only [Option.some.injEq, Prod.mk.injEq] at hp
              obtain ⟨h1, h2⟩ := hp
              subst h1
              subst h2
              have hrec := ih (stepCode code r.state) rs0 c0 hP
              simpa using hrec

/-- Each `nagiosExitCode` update stays within the code set 3, 0, 1, 2. -/
theorem stepCode_cases (code : Int) (s : TState)
    (h : code = 3 ∨ code = 0 ∨ code = 1 ∨ code = 2) :
    stepCode code s = 3 ∨ stepCode code s = 0 ∨
      stepCode code s = 1 ∨ stepCode code s = 2 := by
  rcases h with h | h | h | h <;> subst h <;> cases s <;> decide

/-- Folding the `nagiosExitCode` update stays within 3, 0, 1, 2. -/
theorem foldl_stepCode_cases :
    ∀ (sts : List TState) (code : Int),
      (code = 3 ∨ code = 0 ∨ code = 1 ∨ code = 2) →
      (sts.foldl stepCode code = 3 ∨ sts.foldl stepCode code = 0 ∨
       sts.foldl stepCode code = 1 ∨ sts.foldl stepCode code = 2) := by
  intro sts
  induction sts with
  | nil =>
      intro code h
      simpa using h
  | cons s rest ih =>
      intro code h
      rw [List.foldl_cons]
      exact ih _ (stepCode_cases code s h)

/-- The exit code produced by `fetch` on a decoded value is the fold of
the update over the reading states, started at 3. -/
theorem fetchFromJson_code (w k : Int) (key : List Char) (j : Json)
    (rs : List Reading) (c : Int)
    (h : fetchFromJson w k key j = some (rs, c)) :
    c = (rs.map Reading.state).foldl stepCode 3 := by
  cases j with
  | obj kvs =>
      simp only [fetchFromJson] at h
      cases hL : jlookup kvs ("sensor".toList) with
      | none =>
          rw [hL] at h
          simp only [Option.some.injEq, Prod.mk.injEq] at h
          obtain ⟨h1, h2⟩ := h
          subst h1
          subst h2
          simp
      | some jv =>
          rw [hL] at h
          cases jv with
          | arr ss => exact processSensors_code w k key ss 3 rs c h
          | num n => simp at h
          | str s2 => simp at h
          | obj kvs2 => simp at h
  | num n =>
      simp only [fetchFromJson, Option.some.injEq, Prod.mk.injEq] at h
      obtain ⟨h1, h2⟩ := h
      subst h1
      subst h2
      simp
  | str s2 =>
      simp only [fetchFromJson, Option.some.injEq, Prod.mk.injEq] at h
      obtain ⟨h1, h2⟩ := h
      subst h1
      subst h2
      simp
  | arr a =>
      simp only [fetchFromJson, Option.some.injEq, Prod.mk.injEq] at h
      obtain ⟨h1, h2⟩ := h
      subst h1
      subst h2
      simp

/-- Claim C4: on any successful fetch, graph-definition and raw-value
modes exit 0 (also on an empty sensor list); alert-summary mode exits
with the aggregate code, which is the rolled-up fold starting at 3
(unknown), always one of 3, 0, 1, 2, and equal to 3 with an empty
summary when no readings were found. -/
theorem c4_mode_exit_codes (w k : Int) (key raw : List Char)
    (rs : List Reading) (c : Int)
    (h : fetchResult w k key raw = FetchR.ok rs c) :
    exitOf (runTemp w k key raw) = 0 ∧
    exitOf (runConfig w k key raw) = 0 ∧
    outOf (runTemp w k key raw) = some (tempLines rs) ∧
    exitOf (runNagios w k key raw) = c ∧
    c = (rs.map Reading.state).foldl stepCode 3 ∧
    (c = 3 ∨ c = 0 ∨ c = 1 ∨ c = 2) ∧
    (rs = [] → c = 3 ∧ outOf (runNagios w k key raw) = some []) := by
  have hcode : c = (rs.map Reading.state).foldl stepCode 3 := by
    unfold fetchResult at h
    cases hL : loads (repair raw) with
    | none =>
        rw [hL] at h
        exact absurd h (by simp)
    | some j =>
        rw [hL] at h
        dsimp only at h
        cases hF : fetchFromJson w k key j with
        | none =>
            rw [hF] at h
            exact absurd h (by simp)
        | some p =>
            obtain ⟨rs0, c0⟩ := p
            rw [hF] at h
            dsimp only at h
            injection h with h1 h2
            subst h1
            subst h2
            exact fetchFromJson_code w k key j _ _ hF
  refine ⟨?_, ?_, ?_, ?_, hcode, ?_, ?_⟩
  · simp [runTemp, h, exitOf]
  · simp [runConfig, h, exitOf]
  · simp [runTemp, h, outOf]
  · simp [runNagios, h, exitOf]
  · rw [hcode]
    exact foldl_stepCode_cases _ 3 (Or.inl rfl)
  · intro he
    subst he
    simp only [List.map_nil, List.foldl_nil] at hcode
    refine ⟨hcode, ?_⟩
    simp [runNagios, h, outOf, nagiosRecords]

/-- Witness for C4 on the empty-sensor payload `{sensor:[]}`. -/
theorem c4_mode_exit_codes_witness :
    fetchResult 28 30 tempcKey rawEmptySensors = FetchR.ok [] 3 ∧
    (exitOf (runTemp 28 30 tempcKey rawEmptySensors) = 0 ∧
     exitOf (runConfig 28 30 tempcKey rawEmptySensors) = 0 ∧
     outOf (runTemp 28 30 tempcKey rawEmptySensors) = some (tempLines []) ∧
     exitOf (runNagios 28 30 tempcKey rawEmptySensors) = 3 ∧
     (3 : Int) = (List.map Reading.state []).foldl stepCode 3 ∧
     ((3 : Int) = 3 ∨ (3 : Int) = 0 ∨ (3 : Int) = 1 ∨ (3 : Int) = 2) ∧
     (([] : List Reading) = [] → (3 : Int) = 3 ∧
       outOf (runNagios 28 30 tempcKey rawEmptySensors) = some [])) :=
  ⟨rfl, c4_mode_exit_codes 28 30 tempcKey rawEmptySensors [] 3 rfl⟩

/-- When every sensor entry extracts, the loop succeeds, produces exactly
one reading per entry in order, and the final code is reached. -/
theorem extractAll_processSensors (w k : Int) (key : List Char) :
    ∀ (ss : List Json) (code : Int),
      (∀ s ∈ ss, (extractReading w k key s).isSome = true) →
      ∃ rs c, processSensors w k key ss code = some (rs, c) ∧
        extractAll w k key ss = some rs ∧ rs.length = ss.length := by
  intro ss
  induction ss with
  | nil =>
      intro code hall
      exact ⟨[], code, rfl, rfl, rfl⟩
  | cons s rest ih =>
      intro code hall
      have hs : (extractReading w k key s).isSome = true := hall s (by simp)
      obtain ⟨r, hr⟩ := Option.isSome_iff_exists.mp hs
      obtain ⟨rs0, c0, hp, he, hl⟩ :=
        ih (stepCode code r.state) (fun s2 hs2 => hall s2 (by simp [hs2]))
      refine ⟨r :: rs0, c0, ?_, ?_, ?_⟩
      · simp only [processSensors]
        rw [hr]
        dsimp only
        rw [hp]
      · simp only [extractAll]
        rw [hr, he]
      · simp [hl]

/-- Claim C6 (amended): for every decoded payload whose top level is a
mapping with a `sensor` sequence all of whose entries extract (both
required fields present, numeric temperature), fetch produces exactly one
classified reading per entry in decode order, and each mode renders one
record per reading, so every output record count equals the entry
count. -/
theorem c6_one_reading_per_entry (w k : Int) (key raw : List Char)
    (kvs : List (List Char × Json)) (ss : List Json)
    (h1 : loads (repair raw) = some (Json.obj kvs))
    (h2 : jlookup kvs ("sensor".toList) = some (Json.arr ss))
    (h3 : ∀ s ∈ ss, (extractReading w k key s).isSome = true) :
    ∃ rs c, fetchResult w k key raw = FetchR.ok rs c ∧
      extractAll w k key ss = some rs ∧
      rs.length = ss.length ∧
      outOf (runTemp w k key raw) = some (tempLines rs) ∧
      (tempLines rs).length = ss.length ∧
      outOf (runConfig w k key raw) = some (configRecords w k rs) ∧
      (configRecords w k rs).length = ss.length ∧
      outOf (runNagios w k key raw) = some (nagiosRecords rs) ∧
      (nagiosRecords rs).length = ss.length := by
  obtain ⟨rs, c, hp, he, hl⟩ := extractAll_processSensors w k key ss 3 h3
  have hf : fetchResult w k key raw = FetchR.ok rs c := by
    unfold fetchResult
    rw [h1]
    dsimp only
    simp only [fetchFromJson]
    rw [h2]
    dsimp only
    rw [hp]
  refine ⟨rs, c, hf, he, hl, ?_, ?_, ?_, ?_, ?_, ?_⟩
  · simp [runTemp, hf, outOf]
  · simp [tempLines, List.enum_length, hl]
  · simp [runConfig, hf, outOf]
  · simp [configRecords, List.enum_length, hl]
  · simp [runNagios, hf, outOf]
  · simp [nagiosRecords, List.enum_length, hl]

/-- Witness for C6 on the two-sensor payload. -/
theorem c6_one_reading_per_entry_witness :
    loads (repair rawTwoSensors) =
      some (Json.obj [(("sensor").toList, Json.arr
        [Json.obj [(("label").toList, Json.str ("Rack1".toList)),
                   (("tempc").toList, Json.num 22)],
         Json.obj [(("label").toList, Json.str ("Rack2".toList)),
                   (("tempc").toList, Json.num 31)]])]) ∧
    jlookup [(("sensor").toList, Json.arr
        [Json.obj [(("label").toList, Json.str ("Rack1".toList)),
                   (("tempc").toList, Json.num 22)],
         Json.obj [(("label").toList, Json.str ("Rack2".toList)),
                   (("tempc").toList, Json.num 31)]])] ("sensor".toList) =
      some (Json.arr
        [Json.obj [(("label").toList, Json.str ("Rack1".toList)),
                   (("tempc").toList, Json.num 22)],
         Json.obj [(("label").toList, Json.str ("Rack2".toList)),
                   (("tempc").toList, Json.num 31)]]) ∧
    (∃ rs c, fetchResult 28 30 tempcKey rawTwoSensors = FetchR.ok rs c ∧
      extractAll 28 30 tempcKey
        [Json.obj [(("label").toList, Json.str ("Rack1".toList)),
                   (("tempc").toList, Json.num 22)],
         Json.obj [(("label").toList, Json.str ("Rack2".toList)),
                   (("tempc").toList, Json.num 31)]] = some rs ∧
      rs.length =
        ([Json.obj [(("label").toList, Json.str ("Rack1".toList)),
                    (("tempc").toList, Json.num 22)],
          Json.obj [(("label").toList, Json.str ("Rack2".toList)),
                    (("tempc").toList, Json.num 31)]] : List Json).length ∧
      outOf (runTemp 28 30 tempcKey rawTwoSensors) = some (tempLines rs) ∧
      (tempLines rs).length =
        ([Json.obj [(("label").toList, Json.str ("Rack1".toList)),
                    (("tempc").toList, Json.num 22)],
          Json.obj [(("label").toList, Json.str ("Rack2".toList)),
                    (("tempc").toList, Json.num 31)]] : List Json).length ∧
      outOf (runConfig 28 30 tempcKey rawTwoSensors) =
        some (configRecords 28 30 rs) ∧
      (configRecords 28 30 rs).length =
        ([Json.obj [(("label").toList, Json.str ("Rack1".toList)),
                    (("tempc").toList, Json.num 22)],
          Json.obj [(("label").toList, Json.str ("Rack2".toList)),
                    (("tempc").toList, Json.num 31)]] : List Json).length ∧
      outOf (runNagios 28 30 tempcKey rawTwoSensors) =
        some (nagiosRecords rs) ∧
      (nagiosRecords rs).length =
        ([Json.obj [(("label").toList, Json.str ("Rack1".toList)),
                    (("tempc").toList, Json.num 22)],
          Json.obj [(("label").toList, Json.str ("Rack2".toList)),
                    (("tempc").toList, Json.num 31)]] : List Json).length) :=
  ⟨rfl, rfl, c6_one_reading_per_entry 28 30 tempcKey rawTwoSensors _ _ rfl rfl
    (by intro s hs; fin_cases hs <;> rfl)⟩

/-- Claim C6 (counterexample to the unconditional statement): a decoded
mapping with one `sensor` entry that lacks the temperature field makes
the invocation crash with no output records, so one entry yields zero
records rather than one. -/
theorem c6_missing_field_counterexample :
    loads (repair rawMissingField) =
      some (Json.obj [(("sensor").toList,
        Json.arr [Json.obj [(("label").toList, Json.str ("x".toList))]])]) ∧
    ([Json.obj [(("label").toList, Json.str ("x".toList))]] : List Json).length = 1 ∧
    extractReading 28 30 tempcKey
      (Json.obj [(("label").toList, Json.str ("x".toList))]) = none ∧
    runTemp 28 30 tempcKey rawMissingField = ModeOut.fieldCrash ∧
    outOf (runTemp 28 30 tempcKey rawMissingField) = none ∧
    outOf (runConfig 28 30 tempcKey rawMissingField) = none ∧
    outOf (runNagios 28 30 tempcKey rawMissingField) = none :=
  ⟨rfl, rfl, rfl, rfl, rfl, rfl, rfl⟩

/-- Claim C10: a decoded payload that is not a mapping, or a mapping
without a `sensor` key, silently yields zero readings: no error, empty
bodies and exit 0 in graph-definition and raw-value modes, exit 3 in
alert-summary mode, and no parse error logged. -/
theorem c10_missing_sensor_is_silent (w k : Int) (key raw : List Char)
    (j : Json) (h1 : loads (repair raw) = some j)
    (h2 : lacksSensor j = true) :
    fetchResult w k key raw = FetchR.ok [] 3 ∧
    runTemp w k key raw = ModeOut.done [] 0 ∧
    runConfig w k key raw = ModeOut.done [] 0 ∧
    runNagios w k key raw = ModeOut.done [] 3 ∧
    exitOf (runTemp w k key raw) = 0 ∧
    exitOf (runConfig w k key raw) = 0 ∧
    exitOf (runNagios w k key raw) = 3 ∧
    logsParseError (runNagios w k key raw) = false := by
  have hf : fetchResult w k key raw = FetchR.ok [] 3 := by
    unfold fetchResult
    rw [h1]
    cases j with
    | obj kvs =>
        simp only [fetchFromJson]
        unfold lacksSensor at h2
        dsimp only at h2
        cases hL : jlookup kvs ("sensor".toList) with
        | none => rfl
        | some jv =>
            rw [hL] at h2
            simp [Option.isNone] at h2
    | num n => rfl
    | str s2 => rfl
    | arr a => rfl
  refine ⟨hf, ?_, ?_, ?_, ?_, ?_, ?_, ?_⟩ <;>
    simp [runTemp, runConfig, runNagios, hf, exitOf, logsParseError,
      tempLines, configRecords, nagiosRecords]

/-! ## The spurious empty identifier of the second pass (C9) -/

/-- One-step unfolding of `pass3` on four or more characters. -/
theorem pass3_eq4 (c1 c2 c3 c4 : Char) (rest : List Char) :
    pass3 (c1 :: c2 :: c3 :: c4 :: rest) =
      if c1 = ',' ∧ c2 = '\x22' ∧ c3 = '\x22' ∧ c4 = '\x7b' then
        ',' :: '\x7b' :: pass3 rest
      else c1 :: pass3 (c2 :: c3 :: c4 :: rest) := rfl

/-- One-step unfolding of `pass1go` in the clean state. -/
theorem pass1go_none_eq (c : Char) (rest : List Char) :
    pass1go none (c :: rest) =
      if c = '\x7b' then pass1go (some []) rest
      else c :: pass1go none rest := rfl

/-- One-step unfolding of `pass1go` after an opening brace. -/
theorem pass1go_some_eq (acc : List Char) (c : Char) (rest : List Char) :
    pass1go (some acc) (c :: rest) =
      if isLowerAZ c then pass1go (some (c :: acc)) rest
      else if c = ':' then
        '\x7b' :: '\x22' :: (acc.reverse ++ '\x22' :: ':' :: pass1go none rest)
      else if c = '\x7b' then
        '\x7b' :: (acc.reverse ++ pass1go (some []) rest)
      else
        '\x7b' :: (acc.reverse ++ c :: pass1go none rest) := rfl

/-- One-step unfolding of `pass2go` outside an identifier run. -/
theorem pass2go_false_eq (c : Char) (rest : List Char) :
    pass2go false (c :: rest) =
      if c = ',' then ',' :: '\x22' :: pass2go true rest
      else c :: pass2go false rest := rfl

/-- One-step unfolding of `pass2go` inside an identifier run. -/
theorem pass2go_true_eq (c : Char) (rest : List Char) :
    pass2go true (c :: rest) =
      if isLowerAZ c then c :: pass2go true rest
      else if c = ',' then '\x22' :: ',' :: '\x22' :: pass2go true rest
      else '\x22' :: c :: pass2go false rest := rfl

/-- `pass3` leaves a character other than a comma in place when it heads
the remaining text. -/
theorem pass3_cons_ne (d : Char) (hd : ¬ d = ',') (rest : List Char) :
    pass3 (d :: rest) = d :: pass3 rest := by
  rcases rest with _ | ⟨e2, _ | ⟨e3, _ | ⟨e4, r4⟩⟩⟩
  · rfl
  · rfl
  · rfl
  · rw [pass3_eq4, if_neg (fun hh => hd hh.1)]

/-- `pass3` always keeps the first character of its input (a full match
emits the same comma it consumed). -/
theorem pass3_cons_head (c : Char) (r : List Char) :
    ∃ y, pass3 (c :: r) = c :: y := by
  by_cases hc : c = ','
  · subst hc
    rcases r with _ | ⟨e2, _ | ⟨e3, _ | ⟨e4, r4⟩⟩⟩
    · exact ⟨pass3 [], rfl⟩
    · exact ⟨pass3 [e2], rfl⟩
    · exact ⟨pass3 [e2, e3], rfl⟩
    · by_cases hcond : (',' : Char) = ',' ∧ e2 = '\x22' ∧ e3 = '\x22' ∧ e4 = '\x7b'
      · refine ⟨'\x7b' :: pass3 r4, ?_⟩
        rw [pass3_eq4, if_pos hcond]
      · refine ⟨pass3 (e2 :: e3 :: e4 :: r4), ?_⟩
        rw [pass3_eq4, if_neg hcond]
  · exact ⟨pass3 r, pass3_cons_ne c hc r⟩

/-- `pass3` does not remove the quote pair `,""` when the next character
is not an opening brace. -/
theorem pass3_bad_comma (c : Char) (hc : ¬ c = '\x7b') (r : List Char) :
    ∃ y, pass3 (',' :: '\x22' :: '\x22' :: c :: r) =
      ',' :: '\x22' :: '\x22' :: c :: y := by
  obtain ⟨y, hy⟩ := pass3_cons_head c r
  refine ⟨y, ?_⟩
  rw [pass3_eq4, if_neg (fun hh => hc hh.2.2.2)]
  rw [pass3_cons_ne '\x22' (by decide), pass3_cons_ne '\x22' (by decide), hy]

/-- Anywhere in its input, `pass3` preserves a `,""c` window whose last
character is not an opening brace. -/
theorem pass3_insert (c : Char) (hc : ¬ c = '\x7b') :
    ∀ (n : Nat) (w0 : List Char), w0.length ≤ n → ∀ (r : List Char),
      ∃ x y, pass3 (w0 ++ ',' :: '\x22' :: '\x22' :: c :: r) =
        x ++ ',' :: '\x22' :: '\x22' :: c :: y := by
  intro n
  induction n with
  | zero =>
      intro w0 hlen r
      have h0 : w0 = [] := List.eq_nil_of_length_eq_zero (Nat.le_zero.mp hlen)
      subst h0
      obtain ⟨y, hy⟩ := pass3_bad_comma c hc r
      exact ⟨[], y, hy⟩
  | succ n ih =>
      intro w0 hlen r
      rcases w0 with _ | ⟨d, w1⟩
      · obtain ⟨y, hy⟩ := pass3_bad_comma c hc r
        exact ⟨[], y, hy⟩
      · by_cases hd : d = ','
        · subst hd
          rcases w1 with _ | ⟨e2, _ | ⟨e3, _ | ⟨e4, w2⟩⟩⟩
          · obtain ⟨y, hy⟩ := pass3_bad_comma c hc r
            refine ⟨[','], y, ?_⟩
            simp only [List.cons_append, List.nil_append]
            rw [pass3_eq4, if_neg (fun hh => absurd hh.2.1 (by decide)), hy]
          · have h1 : ([e2]).length ≤ n := by
              simp only [List.length_cons, List.length_nil] at hlen ⊢
              omega
            obtain ⟨x1, y1, hxy⟩ := ih [e2] h1 r
            simp only [List.cons_append, List.nil_append] at hxy
            refine ⟨',' :: x1, y1, ?_⟩
            simp only [List.cons_append, List.nil_append]
            rw [pass3_eq4, if_neg (fun hh => absurd hh.2.2.1 (by decide)), hxy]
          · have h1 : ([e2, e3]).length ≤ n := by
              simp only [List.length_cons, List.length_nil] at hlen ⊢
              omega
            obtain ⟨x1, y1, hxy⟩ := ih [e2, e3] h1 r
            simp only [List.cons_append, List.nil_append] at hxy
            refine ⟨',' :: x1, y1, ?_⟩
            simp only [List.cons_append, List.nil_append]
            rw [pass3_eq4, if_neg (fun hh => absurd hh.2.2.2 (by decide)), hxy]
          · by_cases hcond : (',' : Char) = ',' ∧ e2 = '\x22' ∧ e3 = '\x22' ∧ e4 = '\x7b'
            · have h1 : w2.length ≤ n := by
                simp only [List.length_cons] at hlen
                omega
              obtain ⟨x1, y1, hxy⟩ := ih w2 h1 r
              refine ⟨',' :: '\x7b' :: x1, y1, ?_⟩
              simp only [List.cons_append]
              rw [pass3_eq4, if_pos hcond, hxy]
            · have h1 : (e2 :: e3 :: e4 :: w2).length ≤ n := by
                simp only [List.length_cons] at hlen ⊢
                omega
              obtain ⟨x1, y1, hxy⟩ := ih (e2 :: e3 :: e4 :: w2) h1 r
              simp only [List.cons_append] at hxy
              refine ⟨',' :: x1, y1, ?_⟩
              simp only [List.cons_append]
              rw [pass3_eq4, if_neg hcond, hxy]
        · have h1 : w1.length ≤ n := by
            simp only [List.length_cons] at hlen
            omega
          obtain ⟨x1, y1, hxy⟩ := ih w1 h1 r
          refine ⟨d :: x1, y1, ?_⟩
          rw [List.cons_append, pass3_cons_ne d hd, hxy]
          rfl

/-- The first pass never touches a comma: scanning any prefix, the text
from a comma on is processed from the clean state. -/
theorem pass1go_comma (v : List Char) :
    ∀ (u : List Char) (st : Option (List Char)),
      ∃ w, pass1go st (u ++ ',' :: v) = w ++ ',' :: pass1go none v := by
  intro u
  induction u with
  | nil =>
      intro st
      cases st with
      | none =>
          refine ⟨[], ?_⟩
          simp only [List.nil_append]
          rw [pass1go_none_eq, if_neg (by decide)]
      | some acc =>
          refine ⟨'\x7b' :: acc.reverse, ?_⟩
          simp only [List.nil_append]
          rw [pass1go_some_eq, if_neg (by decide), if_neg (by decide),
            if_neg (by decide)]
          simp
  | cons d u2 ih =>
      intro st
      cases st with
      | none =>
          by_cases hb : d = '\x7b'
          · subst hb
            obtain ⟨w, hw⟩ := ih (some [])
            refine ⟨w, ?_⟩
            simp only [List.cons_append]
            rw [pass1go_none_eq, if_pos rfl]
            exact hw
          · obtain ⟨w, hw⟩ := ih none
            refine ⟨d :: w, ?_⟩
            simp only [List.cons_append]
            rw [pass1go_none_eq, if_neg hb, hw]
      | some acc =>
          by_cases hl : isLowerAZ d
          · obtain ⟨w, hw⟩ := ih (some (d :: acc))
            refine ⟨w, ?_⟩
            simp only [List.cons_append]
            rw [pass1go_some_eq, if_pos hl]
            exact hw
          · by_cases hcol : d = ':'
            · subst hcol
              obtain ⟨w, hw⟩ := ih none
              refine ⟨'\x7b' :: '\x22' :: (acc.reverse ++ '\x22' :: ':' :: w), ?_⟩
              simp only [List.cons_append]
              rw [pass1go_some_eq, if_neg (by simpa using hl), if_pos rfl, hw]
              simp
            · by_cases hb : d = '\x7b'
              · subst hb
                obtain ⟨w, hw⟩ := ih (some [])
                refine ⟨'\x7b' :: (acc.reverse ++ w), ?_⟩
                simp only [List.cons_append]
                rw [pass1go_some_eq, if_neg (by simpa using hl),
                  if_neg (by decide), if_pos rfl, hw]
                simp
              · obtain ⟨w, hw⟩ := ih none
                refine ⟨'\x7b' :: (acc.reverse ++ d :: w), ?_⟩
                simp only [List.cons_append]
                rw [pass1go_some_eq, if_neg (by simpa using hl), if_neg hcol,
                  if_neg hb, hw]
                simp

/-- The first pass copies any non-brace head character in the clean
state. -/
theorem pass1go_none_cons (c : Char) (v : List Char) (h : ¬ c = '\x7b') :
    pass1go none (c :: v) = c :: pass1go none v := by
  rw [pass1go_none_eq, if_neg h]

/-- The second pass inserts an opening and a closing quote right after
every comma whose next character is not lowercase: the `,""c` window. -/
theorem pass2go_comma_insert (c : Char) (hc : isLowerAZ c = false) (z : List Char) :
    ∀ (u : List Char) (st : Bool),
      ∃ w y, pass2go st (u ++ ',' :: c :: z) =
        w ++ ',' :: '\x22' :: '\x22' :: c :: y := by
  have hbase : ∃ y, pass2go true (c :: z) = '\x22' :: c :: y := by
    by_cases hcc : c = ','
    · subst hcc
      refine ⟨'\x22' :: pass2go true z, ?_⟩
      rw [pass2go_true_eq, if_neg (by decide), if_pos rfl]
    · refine ⟨pass2go false z, ?_⟩
      rw [pass2go_true_eq, if_neg (by simp [hc]), if_neg hcc]
  intro u
  induction u with
  | nil =>
      intro st
      cases st with
      | false =>
          obtain ⟨y, hy⟩ := hbase
          refine ⟨[], y, ?_⟩
          simp only [List.nil_append]
          rw [pass2go_false_eq, if_pos rfl, hy]
      | true =>
          obtain ⟨y, hy⟩ := hbase
          refine ⟨['\x22'], y, ?_⟩
          simp only [List.nil_append]
          rw [pass2go_true_eq, if_neg (by decide), if_pos rfl, hy]
          rfl
  | cons d u2 ih =>
      intro st
      cases st with
      | false =>
          by_cases hd : d = ','
          · subst hd
            obtain ⟨w, y, hw⟩ := ih true
            refine ⟨',' :: '\x22' :: w, y, ?_⟩
            simp only [List.cons_append]
            rw [pass2go_false_eq, if_pos rfl, hw]
          · obtain ⟨w, y, hw⟩ := ih false
            refine ⟨d :: w, y, ?_⟩
            simp only [List.cons_append]
            rw [pass2go_false_eq, if_neg hd, hw]
      | true =>
          by_cases hl : isLowerAZ d
          · obtain ⟨w, y, hw⟩ := ih true
            refine ⟨d :: w, y, ?_⟩
            simp only [List.cons_append]
            rw [pass2go_true_eq, if_pos hl, hw]
          · by_cases hd : d = ','
            · subst hd
              obtain ⟨w, y, hw⟩ := ih true
              refine ⟨'\x22' :: ',' :: '\x22' :: w, y, ?_⟩
              simp only [List.cons_append]
              rw [pass2go_true_eq, if_neg (by decide), if_pos rfl, hw]
            · obtain ⟨w, y, hw⟩ := ih false
              refine ⟨'\x22' :: d :: w, y, ?_⟩
              simp only [List.cons_append]
              rw [pass2go_true_eq, if_neg (by simpa using hl), if_neg hd, hw]

/-- After the full repair, every comma whose next raw character is
neither lowercase nor `{` carries a spurious `""` that no pass
removed. -/
theorem repair_bad_comma (u v : List Char) (c : Char)
    (h1 : isLowerAZ c = false) (h2 : ¬ c = '\x7b') :
    ∃ x y, repair (u ++ ',' :: c :: v) =
      x ++ ',' :: '\x22' :: '\x22' :: c :: y := by
  obtain ⟨w1, hw1⟩ := pass1go_comma (c :: v) u none
  have hw1b : pass1 (u ++ ',' :: c :: v) = w1 ++ ',' :: c :: pass1go none v := by
    unfold pass1
    rw [hw1, pass1go_none_cons c v h2]
  obtain ⟨w2, y2, hw2⟩ := pass2go_comma_insert c h1 (pass1go none v) w1 false
  obtain ⟨x, y, hx⟩ := pass3_insert c h2 w2.length w2 (le_refl _) y2
  refine ⟨x, y, ?_⟩
  unfold repair pass2
  rw [hw1b, hw2]
  exact hx

/-- Witness for C10 on the non-mapping payload `[5]`. -/
theorem c10_missing_sensor_is_silent_witness :
    loads (repair ("[5]".toList)) = some (Json.arr [Json.num 5]) ∧
    lacksSensor (Json.arr [Json.num 5]) = true ∧
    (fetchResult 28 30 tempcKey ("[5]".toList) = FetchR.ok [] 3 ∧
     runTemp 28 30 tempcKey ("[5]".toList) = ModeOut.done [] 0 ∧
     runConfig 28 30 tempcKey ("[5]".toList) = ModeOut.done [] 0 ∧
     runNagios 28 30 tempcKey ("[5]".toList) = ModeOut.done [] 3 ∧
     exitOf (runTemp 28 30 tempcKey ("[5]".toList)) = 0 ∧
     exitOf (runConfig 28 30 tempcKey ("[5]".toList)) = 0 ∧
     exitOf (runNagios 28 30 tempcKey ("[5]".toList)) = 3 ∧
     logsParseError (runNagios 28 30 tempcKey ("[5]".toList)) = false) :=
  ⟨rfl, rfl, c10_missing_sensor_is_silent 28 30 tempcKey ("[5]".toList)
    (Json.arr [Json.num 5]) rfl rfl⟩

/-! ## Universal decode-failure after repair: groundwork -/

/-- `pass2` copies a comma-free block. -/
theorem pass2go_false_nocomma (z : List Char) (hz : ∀ ch ∈ z, ¬ ch = ',') :
    ∀ w, pass2go false (z ++ w) = z ++ pass2go false w := by
  induction z with
  | nil => intro w; rfl
  | cons a z2 ih =>
      intro w
      simp only [List.cons_append]
      rw [pass2go_false_eq, if_neg (hz a (by simp)), ih (fun ch hch => hz ch (by simp [hch]))]

/-- `pass3` copies a comma-free block. -/
theorem pass3_nocomma (z : List Char) (hz : ∀ ch ∈ z, ¬ ch = ',') :
    ∀ w, pass3 (z ++ w) = z ++ pass3 w := by
  induction z with
  | nil => intro w; rfl
  | cons a z2 ih =>
      intro w
      simp only [List.cons_append]
      rw [pass3_cons_ne a (hz a (by simp)), ih (fun ch hch => hz ch (by simp [hch]))]

/-- `pass1` copies a brace-free block in the clean state. -/
theorem pass1go_none_nobrace (z : List Char) (hz : ∀ ch ∈ z, ¬ ch = '\x7b') :
    ∀ w, pass1go none (z ++ w) = z ++ pass1go none w := by
  induction z with
  | nil => intro w; rfl
  | cons a z2 ih =>
      intro w
      simp only [List.cons_append]
      rw [pass1go_none_cons a _ (hz a (by simp)), ih (fun ch hch => hz ch (by simp [hch]))]

/-- The repair copies any character other than a comma or an opening
brace. -/
theorem repair_nc (c : Char) (h1 : ¬ c = ',') (h2 : ¬ c = '\x7b') (z : List Char) :
    repair (c :: z) = c :: repair z := by
  unfold repair pass2 pass1
  rw [pass1go_none_cons c _ h2, pass2go_false_eq, if_neg h1, pass3_cons_ne c h1]

/-- The repair copies any block of characters free of commas and opening
braces. -/
theorem repair_ncrun (w : List Char) (h : ∀ ch ∈ w, ¬ ch = ',' ∧ ¬ ch = '\x7b') :
    ∀ z, repair (w ++ z) = w ++ repair z := by
  induction w with
  | nil => intro z; rfl
  | cons a w2 ih =>
      intro z
      simp only [List.cons_append]
      rw [repair_nc a (h a (by simp)).1 (h a (by simp)).2,
        ih (fun ch hch => h ch (by simp [hch]))]

/-- The repair copies an opening brace resolved by a character that is
not lowercase, not a colon, not a brace and not a comma. -/
theorem repair_brace (e : Char) (h1 : isLowerAZ e = false) (h2 : ¬ e = ':')
    (h3 : ¬ e = '\x7b') (h4 : ¬ e = ',') (z : List Char) :
    repair ('\x7b' :: e :: z) = '\x7b' :: e :: repair z := by
  unfold repair pass2 pass1
  rw [pass1go_none_eq, if_pos rfl, pass1go_some_eq,
    if_neg (by simp [h1]), if_neg h2, if_neg h3]
  simp only [List.reverse_nil, List.nil_append]
  rw [pass2go_false_eq, if_neg (by decide), pass2go_false_eq, if_neg h4]
  rw [pass3_cons_ne '\x7b' (by decide), pass3_cons_ne e h4]

/-- The repair restores a clean separator `,{` whose object starts with a
plain resolution character. -/
theorem repair_comma_brace (e : Char) (h1 : isLowerAZ e = false) (h2 : ¬ e = ':')
    (h3 : ¬ e = '\x7b') (h4 : ¬ e = ',') (z : List Char) :
    repair (',' :: '\x7b' :: e :: z) = ',' :: '\x7b' :: e :: repair z := by
  unfold repair pass2 pass1
  rw [pass1go_none_eq, if_neg (by decide), pass1go_none_eq, if_pos rfl,
    pass1go_some_eq, if_neg (by simp [h1]), if_neg h2, if_neg h3]
  simp only [List.reverse_nil, List.nil_append]
  rw [pass2go_false_eq, if_pos rfl, pass2go_true_eq, if_neg (by decide),
    if_neg (by decide), pass2go_false_eq, if_neg h4]
  rw [pass3_eq4, if_pos ⟨rfl, rfl, rfl, rfl⟩, pass3_cons_ne e h4]

/-- A dirty separator: the repair turns `,c` into `,""c` when `c` is not
lowercase, not a comma and not an opening brace. -/
theorem repair_bad_sep (c0 : Char) (h1 : isLowerAZ c0 = false) (h2 : ¬ c0 = ',')
    (h3 : ¬ c0 = '\x7b') (z : List Char) :
    repair (',' :: c0 :: z) = ',' :: '\x22' :: '\x22' :: c0 :: repair z := by
  unfold repair pass2 pass1
  rw [pass1go_none_eq, if_neg (by decide), pass1go_none_cons c0 _ h3,
    pass2go_false_eq, if_pos rfl, pass2go_true_eq, if_neg (by simp [h1]),
    if_neg h2]
  rw [pass3_eq4, if_neg (fun hh => h3 hh.2.2.2),
    pass3_cons_ne '\x22' (by decide), pass3_cons_ne '\x22' (by decide),
    pass3_cons_ne c0 h2]

/-- Skipping whitespace ignores an all-whitespace block. -/
theorem skipWs_ws (w : List Char) (h : ∀ ch ∈ w, isWsChar ch = true) :
    ∀ z, skipWs (w ++ z) = skipWs z := by
  induction w with
  | nil => intro z; rfl
  | cons a w2 ih =>
      intro z
      simp only [List.cons_append]
      unfold skipWs
      rw [List.dropWhile_cons, if_pos (by simp [h a (by simp)])]
      exact ih (fun ch hch => h ch (by simp [hch])) z

/-- Skipping whitespace stops at a non-whitespace head. -/
theorem skipWs_cons_neg (c : Char) (z : List Char) (h : isWsChar c = false) :
    skipWs (c :: z) = c :: z := by
  unfold skipWs
  rw [List.dropWhile_cons, if_neg (by simp [h])]

/-- Any text splits into its whitespace prefix and the rest. -/
theorem skipWs_decomp (l : List Char) :
    ∃ w, l = w ++ skipWs l ∧ ∀ ch ∈ w, isWsChar ch = true := by
  refine ⟨l.takeWhile isWsChar, ?_, ?_⟩
  · exact (List.takeWhile_append_dropWhile isWsChar l).symm
  · intro ch hch
    exact List.mem_takeWhile_imp hch

/-- A successful string-body scan splits the input at the closing quote,
with quote-free and backslash-free content. -/
theorem parseStrBody_split :
    ∀ (s k r : List Char), parseStrBody s = some (k, r) →
      s = k ++ '\x22' :: r ∧ (∀ ch ∈ k, ¬ ch = '\x22' ∧ ¬ ch = '\\') := by
  intro s
  induction s with
  | nil => intro k r h; simp [parseStrBody] at h
  | cons c s2 ih =>
      intro k r h
      rw [parseStrBody] at h
      by_cases hq : c = '\x22'
      · rw [if_pos hq] at h
        simp only [Option.some.injEq, Prod.mk.injEq] at h
        obtain ⟨h1, h2⟩ := h
        subst h1
        subst h2
        subst hq
        exact ⟨rfl, by simp⟩
      · rw [if_neg hq] at h
        by_cases hb : c = '\\'
        · rw [if_pos hb] at h
          simp at h
        · rw [if_neg hb] at h
          cases hrec : parseStrBody s2 with
          | none => rw [hrec] at h; simp at h
          | some p =>
              obtain ⟨k2, r2⟩ := p
              rw [hrec] at h
              simp only [Option.some.injEq, Prod.mk.injEq] at h
              obtain ⟨h1, h2⟩ := h
              subst h2
              obtain ⟨hs, hmem⟩ := ih k2 r2 hrec
              subst hs
              refine ⟨by rw [← h1]; rfl, ?_⟩
              intro ch hch
              rw [← h1] at hch
              rcases List.mem_cons.mp hch with hh | hh
              · subst hh; exact ⟨hq, hb⟩
              · exact hmem ch hh

/-- Replaying a string-body scan on quote-free, backslash-free content. -/
theorem parseStrBody_replay (k : List Char)
    (h : ∀ ch ∈ k, ¬ ch = '\x22' ∧ ¬ ch = '\\') :
    ∀ Y, parseStrBody (k ++ '\x22' :: Y) = some (k, Y) := by
  induction k with
  | nil =>
      intro Y
      rw [List.nil_append, parseStrBody, if_pos rfl]
  | cons c k2 ih =>
      intro Y
      simp only [List.cons_append]
      rw [parseStrBody, if_neg (h c (by simp)).1, if_neg (h c (by simp)).2,
        ih (fun ch hch => h ch (by simp [hch])) Y]

/-- A digit-run split: the consumed digits and the non-digit boundary. -/
theorem takeDigits_split :
    ∀ (l ds r : List Char), takeDigits l = (ds, r) →
      l = ds ++ r ∧ (∀ ch ∈ ds, isDigitAZ ch = true) ∧ headNotDigit r := by
  intro l
  induction l with
  | nil =>
      intro ds r h
      simp only [takeDigits, Prod.mk.injEq] at h
      obtain ⟨h1, h2⟩ := h
      subst h1
      subst h2
      exact ⟨rfl, by simp, fun d y hh => by simp at hh⟩
  | cons c l2 ih =>
      intro ds r h
      rw [takeDigits] at h
      by_cases hd : isDigitAZ c = true
      · rw [if_pos hd] at h
        cases hrec : takeDigits l2 with
        | mk ds2 r2 =>
            rw [hrec] at h
            simp only [Prod.mk.injEq] at h
            obtain ⟨h1, h2⟩ := h
            subst h2
            obtain ⟨hs, hall, hhead⟩ := ih ds2 r2 hrec
            subst hs
            rw [← h1]
            refine ⟨rfl, ?_, hhead⟩
            intro ch hch
            rcases List.mem_cons.mp hch with hh | hh
            · subst hh; exact hd
            · exact hall ch hh
      · rw [if_neg hd] at h
        simp only [Prod.mk.injEq] at h
        obtain ⟨h1, h2⟩ := h
        subst h1
        subst h2
        refine ⟨rfl, by simp, ?_⟩
        intro d y hh
        rw [List.cons.injEq] at hh
        rw [← hh.1]
        exact Bool.eq_false_iff.mpr hd

/-- Replaying a digit-run scan. -/
theorem takeDigits_replay (ds : List Char) (h : ∀ ch ∈ ds, isDigitAZ ch = true) :
    ∀ Y, headNotDigit Y → takeDigits (ds ++ Y) = (ds, Y) := by
  induction ds with
  | nil =>
      intro Y hY
      cases Y with
      | nil => rfl
      | cons d y =>
          rw [List.nil_append, takeDigits, if_neg (by simp [hY d y rfl])]
  | cons c ds2 ih =>
      intro Y hY
      simp only [List.cons_append]
      rw [takeDigits, if_pos (h c (by simp)), ih (fun ch hch => h ch (by simp [hch])) Y hY]

/-- A successful number scan splits the input after a nonempty digit
run. -/
theorem parseNatNum_split (l : List Char) (n : Nat) (r : List Char)
    (h : parseNatNum l = some (n, r)) :
    ∃ ds, l = ds ++ r ∧ ¬ ds = [] ∧ (∀ ch ∈ ds, isDigitAZ ch = true) ∧
      digitsToNat ds = n ∧ headNotDigit r := by
  unfold parseNatNum at h
  cases htd : takeDigits l with
  | mk ds r2 =>
      rw [htd] at h
      cases ds with
      | nil => simp at h
      | cons d ds2 =>
          simp only [Option.some.injEq, Prod.mk.injEq] at h
          obtain ⟨h1, h2⟩ := h
          subst h2
          obtain ⟨hs, hall, hhead⟩ := takeDigits_split l (d :: ds2) r2 htd
          exact ⟨d :: ds2, hs, by simp, hall, h1, hhead⟩

/-- Replaying a number scan on a nonempty digit run. -/
theorem parseNatNum_replay (ds : List Char) (h1 : ¬ ds = [])
    (h2 : ∀ ch ∈ ds, isDigitAZ ch = true) (Y : List Char) (hY : headNotDigit Y) :
    parseNatNum (ds ++ Y) = some (digitsToNat ds, Y) := by
  unfold parseNatNum
  rw [takeDigits_replay ds h2 Y hY]
  cases ds with
  | nil => exact absurd rfl h1
  | cons d ds2 => rfl

/-- A lowercase letter is none of the special characters. -/
theorem lower_ne (ch : Char) (h : isLowerAZ ch = true) :
    ¬ ch = ',' ∧ ¬ ch = '\x7b' ∧ ¬ ch = '\x22' ∧ ¬ ch = ':' := by
  refine ⟨?_, ?_, ?_, ?_⟩ <;> intro hh <;> subst hh <;> exact absurd h (by decide)

/-! ## String-content scan modes -/

/-- One-step unfolding of `strOk`, neutral mode. -/
theorem strOk_n_eq (ch : Char) (x : List Char) :
    strOk SMode.n (ch :: x) =
      if ch = ',' then strOk SMode.c x
      else if ch = '\x7b' then strOk SMode.b x
      else strOk SMode.n x := rfl

/-- One-step unfolding of `strOk`, comma mode. -/
theorem strOk_c_eq (ch : Char) (x : List Char) :
    strOk SMode.c (ch :: x) =
      if ch = '\x7b' then strOk SMode.b x else false := rfl

/-- One-step unfolding of `strOk`, brace mode. -/
theorem strOk_b_eq (ch : Char) (x : List Char) :
    strOk SMode.b (ch :: x) =
      if isLowerAZ ch then strOk SMode.b x
      else if ch = ':' then false
      else if ch = '\x7b' then strOk SMode.b x
      else if ch = ',' then strOk SMode.c x
      else strOk SMode.n x := rfl

/-- `repair` unfolded to the three scanners. -/
theorem repair_def2 (z : List Char) :
    repair z = pass3 (pass2go false (pass1go none z)) := rfl

/-- No comma occurs in a pending brace run. -/
theorem nocomma_brace_acc (acc : List Char)
    (hacc : ∀ ch ∈ acc, isLowerAZ ch = true) :
    ∀ ch ∈ '\x7b' :: acc.reverse, ¬ ch = ',' := by
  intro ch hch
  rcases List.mem_cons.mp hch with hh | hh
  · subst hh; decide
  · exact (lower_ne ch (hacc ch (List.mem_reverse.mp hh))).1

/-- No comma occurs in a reversed lowercase run. -/
theorem nocomma_acc (acc : List Char)
    (hacc : ∀ ch ∈ acc, isLowerAZ ch = true) :
    ∀ ch ∈ acc.reverse, ¬ ch = ',' := by
  intro ch hch
  exact (lower_ne ch (hacc ch (List.mem_reverse.mp hch))).1

/-- Clean string bodies are copied verbatim by the three scanners, with
a pending brace run flushed by the closing quote and scanning resuming
in the clean state after it. -/
theorem strClean_fold : ∀ (x : List Char),
    (strOk SMode.n x = true → ∀ rest,
       pass3 (pass2go false (pass1go none (x ++ '\x22' :: rest))) =
         x ++ '\x22' :: repair rest) ∧
    (strOk SMode.c x = true → ∀ rest,
       pass3 (',' :: '\x22' :: pass2go true (pass1go none (x ++ '\x22' :: rest))) =
         ',' :: x ++ '\x22' :: repair rest) ∧
    (strOk SMode.b x = true → ∀ (acc : List Char),
       (∀ ch ∈ acc, isLowerAZ ch = true) → ∀ rest,
       pass3 (pass2go false (pass1go (some acc) (x ++ '\x22' :: rest))) =
         '\x7b' :: acc.reverse ++ x ++ '\x22' :: repair rest) ∧
    (strOk SMode.b x = true → ∀ (acc : List Char),
       (∀ ch ∈ acc, isLowerAZ ch = true) → ∀ rest,
       pass3 (',' :: '\x22' :: pass2go true (pass1go (some acc) (x ++ '\x22' :: rest))) =
         ',' :: '\x7b' :: acc.reverse ++ x ++ '\x22' :: repair rest) := by
  intro x
  induction x with
  | nil =>
      refine ⟨?_, ?_, ?_, ?_⟩
      · intro _ rest
        simp only [List.nil_append]
        rw [pass1go_none_cons '\x22' _ (by decide), pass2go_false_eq,
          if_neg (by decide), pass3_cons_ne '\x22' (by decide), ← repair_def2]
      · intro hok
        simp [strOk] at hok
      · intro _ acc hacc rest
        simp only [List.nil_append]
        rw [pass1go_some_eq, if_neg (by decide), if_neg (by decide),
          if_neg (by decide), pass2go_false_eq, if_neg (by decide),
          pass2go_false_nocomma _ (nocomma_acc acc hacc),
          pass2go_false_eq, if_neg (by decide),
          pass3_cons_ne '\x7b' (by decide),
          pass3_nocomma _ (nocomma_acc acc hacc),
          pass3_cons_ne '\x22' (by decide), ← repair_def2]
        simp
      · intro _ acc hacc rest
        simp only [List.nil_append]
        rw [pass1go_some_eq, if_neg (by decide), if_neg (by decide),
          if_neg (by decide), pass2go_true_eq, if_neg (by decide),
          if_neg (by decide),
          pass2go_false_nocomma _ (nocomma_acc acc hacc),
          pass2go_false_eq, if_neg (by decide),
          pass3_eq4, if_pos ⟨rfl, rfl, rfl, rfl⟩,
          pass3_nocomma _ (nocomma_acc acc hacc),
          pass3_cons_ne '\x22' (by decide), ← repair_def2]
        simp
  | cons ch x2 ih =>
      obtain ⟨ihn, ihc, ihbn, ihbc⟩ := ih
      refine ⟨?_, ?_, ?_, ?_⟩
      · intro hok rest
        rw [strOk_n_eq] at hok
        by_cases h1 : ch = ','
        · subst h1
          rw [if_pos rfl] at hok
          simp only [List.cons_append]
          rw [pass1go_none_cons ',' _ (by decide), pass2go_false_eq,
            if_pos rfl, ihc hok rest]
          simp
        · by_cases h2 : ch = '\x7b'
          · subst h2
            rw [if_neg h1, if_pos rfl] at hok
            simp only [List.cons_append]
            rw [pass1go_none_eq, if_pos rfl, ihbn hok [] (by simp) rest]
            simp
          · rw [if_neg h1, if_neg h2] at hok
            simp only [List.cons_append]
            rw [pass1go_none_cons ch _ h2, pass2go_false_eq, if_neg h1,
              pass3_cons_ne ch h1, ihn hok rest]
      · intro hok rest
        rw [strOk_c_eq] at hok
        by_cases h2 : ch = '\x7b'
        · subst h2
          rw [if_pos rfl] at hok
          simp only [List.cons_append]
          rw [pass1go_none_eq, if_pos rfl, ihbc hok [] (by simp) rest]
          simp
        · rw [if_neg h2] at hok
          simp at hok
      · intro hok acc hacc rest
        rw [strOk_b_eq] at hok
        by_cases hl : isLowerAZ ch
        · rw [if_pos hl] at hok
          simp only [List.cons_append]
          rw [pass1go_some_eq, if_pos hl,
            ihbn hok (ch :: acc) (by
              intro c2 hc2
              cases List.mem_cons.mp hc2 with
              | inl hh => subst hh; exact hl
              | inr hh => exact hacc c2 hh) rest]
          simp
        · by_cases hcol : ch = ':'
          · subst hcol
            rw [if_neg hl, if_pos rfl] at hok
            simp at hok
          · by_cases hbr : ch = '\x7b'
            · subst hbr
              rw [if_neg hl, if_neg (by decide), if_pos rfl] at hok
              simp only [List.cons_append]
              rw [pass1go_some_eq, if_neg hl, if_neg (by decide), if_pos rfl,
                pass2go_false_eq, if_neg (by decide),
                pass2go_false_nocomma _ (nocomma_acc acc hacc),
                pass3_cons_ne '\x7b' (by decide),
                pass3_nocomma _ (nocomma_acc acc hacc),
                ihbn hok [] (by simp) rest]
              simp
            · by_cases hcm : ch = ','
              · subst hcm
                rw [if_neg hl, if_neg (by decide), if_neg (by decide),
                  if_pos rfl] at hok
                simp only [List.cons_append]
                rw [pass1go_some_eq, if_neg hl, if_neg (by decide),
                  if_neg (by decide),
                  pass2go_false_eq, if_neg (by decide),
                  pass2go_false_nocomma _ (nocomma_acc acc hacc),
                  pass2go_false_eq, if_pos rfl,
                  pass3_cons_ne '\x7b' (by decide),
                  pass3_nocomma _ (nocomma_acc acc hacc),
                  ihc hok rest]
                simp
              · rw [if_neg hl, if_neg hcol, if_neg hbr, if_neg hcm] at hok
                simp only [List.cons_append]
                rw [pass1go_some_eq, if_neg hl, if_neg hcol, if_neg hbr,
                  pass2go_false_eq, if_neg (by decide),
                  pass2go_false_nocomma _ (nocomma_acc acc hacc),
                  pass2go_false_eq, if_neg hcm,
                  pass3_cons_ne '\x7b' (by decide),
                  pass3_nocomma _ (nocomma_acc acc hacc),
                  pass3_cons_ne ch hcm,
                  ihn hok rest]
                simp
      · intro hok acc hacc rest
        rw [strOk_b_eq] at hok
        by_cases hl : isLowerAZ ch
        · rw [if_pos hl] at hok
          simp only [List.cons_append]
          rw [pass1go_some_eq, if_pos hl,
            ihbc hok (ch :: acc) (by
              intro c2 hc2
              cases List.mem_cons.mp hc2 with
              | inl hh => subst hh; exact hl
              | inr hh => exact hacc c2 hh) rest]
          simp
        · by_cases hcol : ch = ':'
          · subst hcol
            rw [if_neg hl, if_pos rfl] at hok
            simp at hok
          · by_cases hbr : ch = '\x7b'
            · subst hbr
              rw [if_neg hl, if_neg (by decide), if_pos rfl] at hok
              simp only [List.cons_append]
              rw [pass1go_some_eq, if_neg hl, if_neg (by decide), if_pos rfl,
                pass2go_true_eq, if_neg (by decide), if_neg (by decide),
                pass2go_false_nocomma _ (nocomma_acc acc hacc),
                pass3_eq4, if_pos ⟨rfl, rfl, rfl, rfl⟩,
                pass3_nocomma _ (nocomma_acc acc hacc),
                ihbn hok [] (by simp) rest]
              simp
            · by_cases hcm : ch = ','
              · subst hcm
                rw [if_neg hl, if_neg (by decide), if_neg (by decide),
                  if_pos rfl] at hok
                simp only [List.cons_append]
                rw [pass1go_some_eq, if_neg hl, if_neg (by decide),
                  if_neg (by decide),
                  pass2go_true_eq, if_neg (by decide), if_neg (by decide),
                  pass2go_false_nocomma _ (nocomma_acc acc hacc),
                  pass2go_false_eq, if_pos rfl,
                  pass3_eq4, if_pos ⟨rfl, rfl, rfl, rfl⟩,
                  pass3_nocomma _ (nocomma_acc acc hacc),
                  ihc hok rest]
                simp
              · rw [if_neg hl, if_neg hcol, if_neg hbr, if_neg hcm] at hok
                simp only [List.cons_append]
                rw [pass1go_some_eq, if_neg hl, if_neg hcol, if_neg hbr,
                  pass2go_true_eq, if_neg (by decide), if_neg (by decide),
                  pass2go_false_nocomma _ (nocomma_acc acc hacc),
                  pass2go_false_eq, if_neg hcm,
                  pass3_eq4, if_pos ⟨rfl, rfl, rfl, rfl⟩,
                  pass3_nocomma _ (nocomma_acc acc hacc),
                  pass3_cons_ne ch hcm,
                  ihn hok rest]
                simp

/-- Prefixing clean characters preserves the early-close shape. -/
theorem dirtyOut_prepend (w s : List Char)
    (hw : ∀ ch ∈ w, ¬ ch = '\x22' ∧ ¬ ch = '\\') (hs : DirtyOut s) :
    DirtyOut (w ++ s) := by
  obtain ⟨pre, d, tail, h1, h2, h3⟩ := hs
  refine ⟨w ++ pre, d, tail, by rw [h1, List.append_assoc], ?_, h3⟩
  intro ch hch
  rcases List.mem_append.mp hch with hh | hh
  · exact hw ch hh
  · exact h2 ch hh

/-- An early close at a flushed brace run: brace, quote, the reversed
run, then the real closing quote. -/
theorem dirtyOut_quote_accrev (P : List Char)
    (hP : ∀ ch ∈ P, ¬ ch = '\x22' ∧ ¬ ch = '\\')
    (acc : List Char) (hacc : ∀ ch ∈ acc, isLowerAZ ch = true)
    (w : List Char) :
    DirtyOut (P ++ '\x22' :: (acc.reverse ++ '\x22' :: w)) := by
  cases hr : acc.reverse with
  | nil =>
      refine ⟨P, '\x22', w, by simp, hP, Or.inr rfl⟩
  | cons a0 r2 =>
      refine ⟨P, a0, r2 ++ '\x22' :: w, by simp, hP, ?_⟩
      left
      exact hacc a0 (List.mem_reverse.mp (by rw [hr]; simp))

/-- A flushed brace run contains no quote and no backslash. -/
theorem accrev_clean (acc : List Char)
    (hacc : ∀ ch ∈ acc, isLowerAZ ch = true) :
    ∀ ch ∈ '\x7b' :: acc.reverse, ¬ ch = '\x22' ∧ ¬ ch = '\\' := by
  intro ch hch
  rcases List.mem_cons.mp hch with hh | hh
  · subst hh; exact ⟨by decide, by decide⟩
  · have hl2 := hacc ch (List.mem_reverse.mp hh)
    refine ⟨(lower_ne ch hl2).2.2.1, ?_⟩
    intro hb
    subst hb
    exact absurd hl2 (by decide)

/-- `pass3` steps over `,"c` when `c` is neither a quote nor a comma. -/
theorem pass3_cq (ch : Char) (h1 : ¬ ch = '\x22') (h2 : ¬ ch = ',') :
    ∀ S, pass3 (',' :: '\x22' :: ch :: S) = ',' :: '\x22' :: ch :: pass3 S := by
  intro S
  cases S with
  | nil => rfl
  | cons s4 S2 =>
      rw [pass3_eq4, if_neg (fun hh => h1 hh.2.2.1), pass3_cons_ne '\x22' (by decide),
        pass3_cons_ne ch h2]

/-- `pass3` steps over `,""` when a comma follows. -/
theorem pass3_cqqc :
    ∀ X, pass3 (',' :: '\x22' :: '\x22' :: ',' :: X) =
      ',' :: '\x22' :: '\x22' :: pass3 (',' :: X) := by
  intro X
  rw [pass3_eq4, if_neg (by intro hh; exact absurd hh.2.2.2 (by decide)),
    pass3_cons_ne '\x22' (by decide), pass3_cons_ne '\x22' (by decide)]

/-- `pass3` steps over `,""c` when `c` is not an opening brace. -/
theorem pass3_cqqx (ch : Char) (h : ¬ ch = '\x7b') :
    ∀ S, pass3 (',' :: '\x22' :: '\x22' :: ch :: S) =
      ',' :: '\x22' :: '\x22' :: pass3 (ch :: S) := by
  intro S
  rw [pass3_eq4, if_neg (fun hh => h hh.2.2.2), pass3_cons_ne '\x22' (by decide),
    pass3_cons_ne '\x22' (by decide)]

/-- Dirty string bodies always close the string token early: the three
scanners emit a quote-free prefix, then a quote whose follower is
lowercase or another quote. -/
theorem strDirty_fold : ∀ (x : List Char),
    (strOk SMode.n x = false → (∀ ch ∈ x, ¬ ch = '\x22' ∧ ¬ ch = '\\') → ∀ rest,
       DirtyOut (pass3 (pass2go false (pass1go none (x ++ '\x22' :: rest))))) ∧
    (strOk SMode.c x = false → (∀ ch ∈ x, ¬ ch = '\x22' ∧ ¬ ch = '\\') → ∀ rest,
       DirtyOut (pass3 (',' :: '\x22' ::
         pass2go true (pass1go none (x ++ '\x22' :: rest))))) ∧
    (strOk SMode.b x = false → (∀ ch ∈ x, ¬ ch = '\x22' ∧ ¬ ch = '\\') →
       ∀ (acc : List Char), (∀ ch ∈ acc, isLowerAZ ch = true) → ∀ rest,
       DirtyOut (pass3 (pass2go false (pass1go (some acc) (x ++ '\x22' :: rest))))) ∧
    (strOk SMode.b x = false → (∀ ch ∈ x, ¬ ch = '\x22' ∧ ¬ ch = '\\') →
       ∀ (acc : List Char), (∀ ch ∈ acc, isLowerAZ ch = true) → ∀ rest,
       DirtyOut (pass3 (',' :: '\x22' ::
         pass2go true (pass1go (some acc) (x ++ '\x22' :: rest))))) := by
  intro x
  induction x with
  | nil =>
      refine ⟨?_, ?_, ?_, ?_⟩
      · intro hok
        simp [strOk] at hok
      · intro _ _ rest
        simp only [List.nil_append]
        rw [pass1go_none_cons '\x22' _ (by decide), pass2go_true_eq,
          if_neg (by decide), if_neg (by decide),
          pass3_cqqx '\x22' (by decide), pass3_cons_ne '\x22' (by decide)]
        exact ⟨[','], '\x22', '\x22' :: pass3 (pass2go false (pass1go none rest)),
          rfl, by simp, Or.inr rfl⟩
      · intro hok
        simp [strOk] at hok
      · intro hok
        simp [strOk] at hok
  | cons ch x2 ih =>
      obtain ⟨ihn, ihc, ihbn, ihbc⟩ := ih
      refine ⟨?_, ?_, ?_, ?_⟩
      · intro hok hx rest
        have hxr : ∀ c2 ∈ x2, ¬ c2 = '\x22' ∧ ¬ c2 = '\\' :=
          fun c2 hc2 => hx c2 (by simp [hc2])
        rw [strOk_n_eq] at hok
        by_cases h1 : ch = ','
        · subst h1
          rw [if_pos rfl] at hok
          simp only [List.cons_append]
          rw [pass1go_none_cons ',' _ (by decide), pass2go_false_eq, if_pos rfl]
          exact ihc hok hxr rest
        · by_cases h2 : ch = '\x7b'
          · subst h2
            rw [if_neg h1, if_pos rfl] at hok
            simp only [List.cons_append]
            rw [pass1go_none_eq, if_pos rfl]
            exact ihbn hok hxr [] (by simp) rest
          · rw [if_neg h1, if_neg h2] at hok
            simp only [List.cons_append]
            rw [pass1go_none_cons ch _ h2, pass2go_false_eq, if_neg h1,
              pass3_cons_ne ch h1]
            exact dirtyOut_prepend [ch] _
              (fun c2 hc2 => hx c2 (by
                rw [List.mem_singleton] at hc2
                simp [hc2]))
              (ihn hok hxr rest)
      · intro hok hx rest
        have hxr : ∀ c2 ∈ x2, ¬ c2 = '\x22' ∧ ¬ c2 = '\\' :=
          fun c2 hc2 => hx c2 (by simp [hc2])
        rw [strOk_c_eq] at hok
        by_cases h2 : ch = '\x7b'
        · subst h2
          rw [if_pos rfl] at hok
          simp only [List.cons_append]
          rw [pass1go_none_eq, if_pos rfl]
          exact ihbc hok hxr [] (by simp) rest
        · simp only [List.cons_append]
          rw [pass1go_none_cons ch _ h2]
          by_cases hl : isLowerAZ ch
          · rw [pass2go_true_eq, if_pos hl,
              pass3_cq ch (hx ch (by simp)).1 (lower_ne ch hl).1]
            exact ⟨[','], ch,
              pass3 (pass2go true (pass1go none (x2 ++ '\x22' :: rest))),
              rfl, by simp, Or.inl hl⟩
          · by_cases hcm : ch = ','
            · subst hcm
              rw [pass2go_true_eq, if_neg hl, if_pos rfl, pass3_cqqc]
              exact ⟨[','], '\x22',
                pass3 (',' :: '\x22' ::
                  pass2go true (pass1go none (x2 ++ '\x22' :: rest))),
                rfl, by simp, Or.inr rfl⟩
            · rw [pass2go_true_eq, if_neg hl, if_neg hcm,
                pass3_cqqx ch h2]
              exact ⟨[','], '\x22',
                pass3 (ch :: pass2go false (pass1go none (x2 ++ '\x22' :: rest))),
                rfl, by simp, Or.inr rfl⟩
      · intro hok hx acc hacc rest
        have hxr : ∀ c2 ∈ x2, ¬ c2 = '\x22' ∧ ¬ c2 = '\\' :=
          fun c2 hc2 => hx c2 (by simp [hc2])
        rw [strOk_b_eq] at hok
        by_cases hl : isLowerAZ ch
        · rw [if_pos hl] at hok
          simp only [List.cons_append]
          rw [pass1go_some_eq, if_pos hl]
          exact ihbn hok hxr (ch :: acc) (by
            intro c2 hc2
            cases List.mem_cons.mp hc2 with
            | inl hh => subst hh; exact hl
            | inr hh => exact hacc c2 hh) rest
        · by_cases hcol : ch = ':'
          · subst hcol
            simp only [List.cons_append]
            rw [pass1go_some_eq, if_neg hl, if_pos rfl,
              pass2go_false_eq, if_neg (by decide),
              pass2go_false_eq, if_neg (by decide),
              pass2go_false_nocomma _ (nocomma_acc acc hacc),
              pass2go_false_eq, if_neg (by decide),
              pass2go_false_eq, if_neg (by decide),
              pass3_cons_ne '\x7b' (by decide),
              pass3_cons_ne '\x22' (by decide),
              pass3_nocomma _ (nocomma_acc acc hacc),
              pass3_cons_ne '\x22' (by decide),
              pass3_cons_ne ':' (by decide)]
            exact dirtyOut_quote_accrev ['\x7b'] (by simp) acc hacc
              (':' :: pass3 (pass2go false (pass1go none (x2 ++ '\x22' :: rest))))
          · by_cases hbr : ch = '\x7b'
            · subst hbr
              rw [if_neg hl, if_neg (by decide), if_pos rfl] at hok
              simp only [List.cons_append]
              rw [pass1go_some_eq, if_neg hl, if_neg (by decide), if_pos rfl,
                pass2go_false_eq, if_neg (by decide),
                pass2go_false_nocomma _ (nocomma_acc acc hacc),
                pass3_cons_ne '\x7b' (by decide),
                pass3_nocomma _ (nocomma_acc acc hacc)]
              exact dirtyOut_prepend ('\x7b' :: acc.reverse) _
                (accrev_clean acc hacc)
                (ihbn hok hxr [] (by simp) rest)
            · by_cases hcm : ch = ','
              · subst hcm
                rw [if_neg hl, if_neg (by decide), if_neg (by decide),
                  if_pos rfl] at hok
                simp only [List.cons_append]
                rw [pass1go_some_eq, if_neg hl, if_neg (by decide),
                  if_neg (by decide),
                  pass2go_false_eq, if_neg (by decide),
                  pass2go_false_nocomma _ (nocomma_acc acc hacc),
                  pass2go_false_eq, if_pos rfl,
                  pass3_cons_ne '\x7b' (by decide),
                  pass3_nocomma _ (nocomma_acc acc hacc)]
                exact dirtyOut_prepend ('\x7b' :: acc.reverse) _
                  (accrev_clean acc hacc)
                  (ihc hok hxr rest)
              · rw [if_neg hl, if_neg hcol, if_neg hbr, if_neg hcm] at hok
                simp only [List.cons_append]
                rw [pass1go_some_eq, if_neg hl, if_neg hcol, if_neg hbr,
                  pass2go_false_eq, if_neg (by decide),
                  pass2go_false_nocomma _ (nocomma_acc acc hacc),
                  pass2go_false_eq, if_neg hcm,
                  pass3_cons_ne '\x7b' (by decide),
                  pass3_nocomma _ (nocomma_acc acc hacc),
                  pass3_cons_ne ch hcm]
                have hD := dirtyOut_prepend ('\x7b' :: (acc.reverse ++ [ch])) _
                  (by
                    intro c2 hc2
                    cases List.mem_cons.mp hc2 with
                    | inl hh => subst hh; exact ⟨by decide, by decide⟩
                    | inr hh =>
                        rcases List.mem_append.mp hh with hh2 | hh2
                        · exact accrev_clean acc hacc c2 (by simp [hh2])
                        · rw [List.mem_singleton] at hh2
                          exact hx c2 (by simp [hh2]))
                  (ihn hok hxr rest)
                simpa [List.append_assoc] using hD
      · intro hok hx acc hacc rest
        have hxr : ∀ c2 ∈ x2, ¬ c2 = '\x22' ∧ ¬ c2 = '\\' :=
          fun c2 hc2 => hx c2 (by simp [hc2])
        rw [strOk_b_eq] at hok
        by_cases hl : isLowerAZ ch
        · rw [if_pos hl] at hok
          simp only [List.cons_append]
          rw [pass1go_some_eq, if_pos hl]
          exact ihbc hok hxr (ch :: acc) (by
            intro c2 hc2
            cases List.mem_cons.mp hc2 with
            | inl hh => subst hh; exact hl
            | inr hh => exact hacc c2 hh) rest
        · by_cases hcol : ch = ':'
          · subst hcol
            simp only [List.cons_append]
            rw [pass1go_some_eq, if_neg hl, if_pos rfl,
              pass2go_true_eq, if_neg (by decide), if_neg (by decide),
              pass2go_false_eq, if_neg (by decide),
              pass2go_false_nocomma _ (nocomma_acc acc hacc),
              pass2go_false_eq, if_neg (by decide),
              pass2go_false_eq, if_neg (by decide),
              pass3_eq4, if_pos ⟨rfl, rfl, rfl, rfl⟩,
              pass3_cons_ne '\x22' (by decide),
              pass3_nocomma _ (nocomma_acc acc hacc),
              pass3_cons_ne '\x22' (by decide),
              pass3_cons_ne ':' (by decide)]
            exact dirtyOut_quote_accrev [',', '\x7b'] (by simp) acc hacc
              (':' :: pass3 (pass2go false (pass1go none (x2 ++ '\x22' :: rest))))
          · by_cases hbr : ch = '\x7b'
            · subst hbr
              rw [if_neg hl, if_neg (by decide), if_pos rfl] at hok
              simp only [List.cons_append]
              rw [pass1go_some_eq, if_neg hl, if_neg (by decide), if_pos rfl,
                pass2go_true_eq, if_neg (by decide), if_neg (by decide),
                pass2go_false_nocomma _ (nocomma_acc acc hacc),
                pass3_eq4, if_pos ⟨rfl, rfl, rfl, rfl⟩,
                pass3_nocomma _ (nocomma_acc acc hacc)]
              have hD := dirtyOut_prepend (',' :: '\x7b' :: acc.reverse) _
                (by
                  intro c2 hc2
                  rcases List.mem_cons.mp hc2 with hh | hh
                  · subst hh; exact ⟨by decide, by decide⟩
                  · exact accrev_clean acc hacc c2 hh)
                (ihbn hok hxr [] (by simp) rest)
              simpa [List.append_assoc] using hD
            · by_cases hcm : ch = ','
              · subst hcm
                rw [if_neg hl, if_neg (by decide), if_neg (by decide),
                  if_pos rfl] at hok
                simp only [List.cons_append]
                rw [pass1go_some_eq, if_neg hl, if_neg (by decide),
                  if_neg (by decide),
                  pass2go_true_eq, if_neg (by decide), if_neg (by decide),
                  pass2go_false_nocomma _ (nocomma_acc acc hacc),
                  pass2go_false_eq, if_pos rfl,
                  pass3_eq4, if_pos ⟨rfl, rfl, rfl, rfl⟩,
                  pass3_nocomma _ (nocomma_acc acc hacc)]
                have hD := dirtyOut_prepend (',' :: '\x7b' :: acc.reverse) _
                  (by
                    intro c2 hc2
                    rcases List.mem_cons.mp hc2 with hh | hh
                    · subst hh; exact ⟨by decide, by decide⟩
                    · exact accrev_clean acc hacc c2 hh)
                  (ihc hok hxr rest)
                simpa [List.append_assoc] using hD
              · rw [if_neg hl, if_neg hcol, if_neg hbr, if_neg hcm] at hok
                simp only [List.cons_append]
                rw [pass1go_some_eq, if_neg hl, if_neg hcol, if_neg hbr,
                  pass2go_true_eq, if_neg (by decide), if_neg (by decide),
                  pass2go_false_nocomma _ (nocomma_acc acc hacc),
                  pass2go_false_eq, if_neg hcm,
                  pass3_eq4, if_pos ⟨rfl, rfl, rfl, rfl⟩,
                  pass3_nocomma _ (nocomma_acc acc hacc),
                  pass3_cons_ne ch hcm]
                have hD := dirtyOut_prepend
                  (',' :: '\x7b' :: (acc.reverse ++ [ch])) _
                  (by
                    intro c2 hc2
                    rcases List.mem_cons.mp hc2 with hh | hh
                    · subst hh; exact ⟨by decide, by decide⟩
                    · rcases List.mem_cons.mp hh with hh2 | hh2
                      · subst hh2; exact ⟨by decide, by decide⟩
                      · rcases List.mem_append.mp hh2 with hh3 | hh3
                        · exact accrev_clean acc hacc c2 (by simp [hh3])
                        · rw [List.mem_singleton] at hh3
                          exact hx c2 (by simp [hh3]))
                  (ihn hok hxr rest)
                simpa [List.append_assoc] using hD

/-! ## Character classes and whitespace facts -/

/-- A whitespace character is none of the syntax characters. -/
theorem ws_ne (ch : Char) (h : isWsChar ch = true) :
    ¬ ch = ',' ∧ ¬ ch = '\x7b' ∧ ¬ ch = '\x22' ∧ ¬ ch = '\\' ∧
      ¬ ch = ':' ∧ ¬ ch = ']' ∧ ¬ ch = '\x7d' ∧
      isDigitAZ ch = false ∧ isLowerAZ ch = false := by
  simp only [isWsChar, Bool.or_eq_true, decide_eq_true_eq] at h
  rcases h with ((h | h) | h) | h <;> subst h <;> exact ⟨by decide, by decide,
    by decide, by decide, by decide, by decide, by decide, by decide, by decide⟩

/-- A digit is none of the syntax characters and not whitespace. -/
theorem digit_ne (ch : Char) (h : isDigitAZ ch = true) :
    ¬ ch = ',' ∧ ¬ ch = '\x7b' ∧ ¬ ch = '\x22' ∧ ¬ ch = '-' ∧
      ¬ ch = '[' ∧ ¬ ch = ']' ∧ ¬ ch = '\x7d' ∧ ¬ ch = ':' ∧
      isWsChar ch = false ∧ isLowerAZ ch = false := by
  simp only [isDigitAZ, Bool.and_eq_true, decide_eq_true_eq] at h
  obtain ⟨h1, h2⟩ := h
  have hlo : 48 ≤ ch.toNat := h1
  have hhi : ch.toNat ≤ 57 := h2
  refine ⟨?_, ?_, ?_, ?_, ?_, ?_, ?_, ?_, ?_, ?_⟩
  · intro hh; subst hh; exact absurd hlo (by decide)
  · intro hh; subst hh; exact absurd hhi (by decide)
  · intro hh; subst hh; exact absurd hlo (by decide)
  · intro hh; subst hh; exact absurd hlo (by decide)
  · intro hh; subst hh; exact absurd hhi (by decide)
  · intro hh; subst hh; exact absurd hhi (by decide)
  · intro hh; subst hh; exact absurd hhi (by decide)
  · intro hh; subst hh; exact absurd hhi (by decide)
  · simp only [isWsChar, Bool.or_eq_false_iff, decide_eq_false_iff_not]
    refine ⟨⟨⟨?_, ?_⟩, ?_⟩, ?_⟩ <;> intro hh <;> subst hh
    · exact absurd hlo (by decide)
    · exact absurd hlo (by decide)
    · exact absurd hlo (by decide)
    · exact absurd hlo (by decide)
  · simp only [isLowerAZ, Bool.and_eq_false_iff, decide_eq_false_iff_not]
    left
    intro hh
    have h97 : 97 ≤ ch.toNat := hh
    omega

/-- Skipping whitespace is idempotent. -/
theorem skipWs_skipWs (l : List Char) : skipWs (skipWs l) = skipWs l := by
  induction l with
  | nil => rfl
  | cons a l2 ih =>
      by_cases ha : isWsChar a = true
      · rw [show skipWs (a :: l2) = skipWs l2 from by
          unfold skipWs; rw [List.dropWhile_cons, if_pos (by simp [ha])]]
        exact ih
      · rw [skipWs_cons_neg a l2 (by simpa using ha),
          skipWs_cons_neg a l2 (by simpa using ha)]

/-- An all-whitespace tail is exactly one whose skip is empty. -/
theorem skipWs_eq_nil (l : List Char) (h : skipWs l = []) :
    ∀ ch ∈ l, isWsChar ch = true := by
  intro ch hch
  have := List.dropWhile_eq_nil_iff.mp h
  simpa using this ch hch

/-- A cons whose head is not a digit has no leading digit. -/
theorem headNotDigit_cons (c : Char) (t : List Char) (h : isDigitAZ c = false) :
    headNotDigit (c :: t) := by
  intro d y hh
  rw [List.cons.injEq] at hh
  rw [← hh.1]
  exact h

/-- The empty tail has no leading digit. -/
theorem headNotDigit_nil : headNotDigit ([] : List Char) := by
  intro d y hh
  simp at hh

/-- A whitespace run followed by a non-digit has no leading digit. -/
theorem headNotDigit_ws (w : List Char) (hw : ∀ ch ∈ w, isWsChar ch = true)
    (c : Char) (hc : isDigitAZ c = false) (t : List Char) :
    headNotDigit (w ++ c :: t) := by
  cases w with
  | nil => exact headNotDigit_cons c t hc
  | cons a w2 =>
      exact headNotDigit_cons a _ (ws_ne a (hw a (by simp))).2.2.2.2.2.2.2.1

/-! ## Clean prefixes, poisoned remainders -/

/-- Clean prefixes compose. -/
theorem cleanPre_append (p q : List Char) (hp : CleanPre p) (hq : CleanPre q) :
    CleanPre (p ++ q) := by
  intro z
  rw [List.append_assoc, hp (q ++ z), hq z, List.append_assoc]

/-- A single neutral character is a clean prefix. -/
theorem cleanPre_nc (c : Char) (h1 : ¬ c = ',') (h2 : ¬ c = '\x7b') :
    CleanPre [c] := by
  intro z
  exact repair_nc c h1 h2 z

/-- A run free of commas and braces is a clean prefix. -/
theorem cleanPre_run (w : List Char)
    (h : ∀ ch ∈ w, ¬ ch = ',' ∧ ¬ ch = '\x7b') : CleanPre w := by
  intro z
  exact repair_ncrun w h z

/-- Dropping a leading neutral character preserves cleanliness. -/
theorem cleanPre_uncons (c : Char) (p : List Char) (h1 : ¬ c = ',')
    (h2 : ¬ c = '\x7b') (h : CleanPre (c :: p)) : CleanPre p := by
  intro z
  have h3 := h z
  rw [List.cons_append, repair_nc c h1 h2 (p ++ z), List.cons_append] at h3
  exact (List.cons.injEq _ _ _ _).mp h3 |>.2

/-- The empty prefix has no bad comma. -/
theorem noBad_nil : NoBad ([] : List Char) := by
  constructor
  · intro u c v h
    exact absurd h (by simp)
  · intro u h
    exact absurd h (by simp)

/-- Extending with a non-comma head preserves absence of bad commas. -/
theorem noBad_cons (c : Char) (p : List Char) (hc : ¬ c = ',')
    (hp : NoBad p) : NoBad (c :: p) := by
  constructor
  · intro u c2 v h
    cases u with
    | nil =>
        rw [List.nil_append, List.cons.injEq] at h
        exact absurd h.1 hc
    | cons a u2 =>
        rw [List.cons_append, List.cons.injEq] at h
        exact hp.1 u2 c2 v h.2
  · intro u h
    cases u with
    | nil =>
        rw [List.nil_append, List.cons.injEq] at h
        exact absurd h.1 hc
    | cons a u2 =>
        rw [List.cons_append, List.cons.injEq] at h
        exact hp.2 u2 h.2

/-- A comma directly followed by `{` is never a bad comma. -/
theorem noBad_comma (p : List Char) (tl : List Char) (hhd : p = '\x7b' :: tl)
    (hp : NoBad p) : NoBad (',' :: p) := by
  constructor
  · intro u c2 v h
    cases u with
    | nil =>
        rw [List.nil_append, List.cons.injEq] at h
        rw [hhd, List.cons.injEq] at h
        exact h.2.1.symm
    | cons a u2 =>
        rw [List.cons_append, List.cons.injEq] at h
        exact hp.1 u2 c2 v h.2
  · intro u h
    cases u with
    | nil =>
        rw [List.nil_append, List.cons.injEq] at h
        rw [h.2] at hhd
        exact absurd hhd (by simp)
    | cons a u2 =>
        rw [List.cons_append, List.cons.injEq] at h
        exact hp.2 u2 h.2

/-- Catenation of comma-clean prefixes is comma-clean. -/
theorem noBad_append (p q : List Char) (hp : NoBad p) (hq : NoBad q) :
    NoBad (p ++ q) := by
  induction p with
  | nil => exact hq
  | cons a p2 ih =>
      by_cases ha : a = ','
      · subst ha
        cases p2 with
        | nil => exact (hp.2 [] rfl).elim
        | cons c p3 =>
            have hc : c = '\x7b' := hp.1 [] c p3 rfl
            have hp2 : NoBad (c :: p3) := by
              constructor
              · intro u c2 v h
                exact hp.1 (',' :: u) c2 v (by simp [h])
              · intro u h
                exact hp.2 (',' :: u) (by simp [h])
            rw [List.cons_append]
            exact noBad_comma ((c :: p3) ++ q) (p3 ++ q)
              (by rw [hc]; rfl) (ih hp2)
      · have hp2 : NoBad p2 := by
          constructor
          · intro u c2 v h
            exact hp.1 (a :: u) c2 v (by simp [h])
          · intro u h
            exact hp.2 (a :: u) (by simp [h])
        rw [List.cons_append]
        exact noBad_cons a (p2 ++ q) ha (ih hp2)

/-- A comma-free run has no bad comma. -/
theorem noBad_run (w : List Char) (h : ∀ ch ∈ w, ¬ ch = ',') : NoBad w := by
  induction w with
  | nil => exact noBad_nil
  | cons a w2 ih =>
      exact noBad_cons a w2 (h a (by simp))
        (ih (fun ch hch => h ch (by simp [hch])))

/-- A clean string body has no bad comma; in comma mode it must open
with a brace. -/
theorem strOk_noBad : ∀ x,
    (strOk SMode.n x = true → NoBad x) ∧
    (strOk SMode.c x = true → (∃ tl, x = '\x7b' :: tl) ∧ NoBad x) ∧
    (strOk SMode.b x = true → NoBad x) := by
  intro x
  induction x with
  | nil =>
      refine ⟨fun _ => noBad_nil, fun h => by simp [strOk] at h,
        fun _ => noBad_nil⟩
  | cons ch x2 ih =>
      obtain ⟨ihn, ihc, ihb⟩ := ih
      refine ⟨?_, ?_, ?_⟩
      · intro h
        rw [strOk_n_eq] at h
        by_cases h1 : ch = ','
        · subst h1
          rw [if_pos rfl] at h
          obtain ⟨⟨tl, htl⟩, nb⟩ := ihc h
          exact noBad_comma x2 tl htl nb
        · by_cases h2 : ch = '\x7b'
          · subst h2
            rw [if_neg h1, if_pos rfl] at h
            exact noBad_cons _ _ (by decide) (ihb h)
          · rw [if_neg h1, if_neg h2] at h
            exact noBad_cons _ _ h1 (ihn h)
      · intro h
        rw [strOk_c_eq] at h
        by_cases h2 : ch = '\x7b'
        · subst h2
          rw [if_pos rfl] at h
          exact ⟨⟨x2, rfl⟩, noBad_cons _ _ (by decide) (ihb h)⟩
        · rw [if_neg h2] at h
          simp at h
      · intro h
        rw [strOk_b_eq] at h
        by_cases hl : isLowerAZ ch
        · rw [if_pos hl] at h
          exact noBad_cons _ _ (lower_ne ch hl).1 (ihb h)
        · by_cases hcol : ch = ':'
          · subst hcol
            rw [if_neg hl, if_pos rfl] at h
            simp at h
          · by_cases hbr : ch = '\x7b'
            · subst hbr
              rw [if_neg hl, if_neg (by decide), if_pos rfl] at h
              exact noBad_cons _ _ (by decide) (ihb h)
            · by_cases hcm : ch = ','
              · subst hcm
                rw [if_neg hl, if_neg (by decide), if_neg (by decide),
                  if_pos rfl] at h
                obtain ⟨⟨tl, htl⟩, nb⟩ := ihc h
                exact noBad_comma x2 tl htl nb
              · rw [if_neg hl, if_neg hcol, if_neg hbr, if_neg hcm] at h
                exact noBad_cons _ _ hcm (ihn h)

/-- A clean quoted string token is a clean prefix. -/
theorem cleanPre_str (k : List Char) (hok : strOk SMode.n k = true) :
    CleanPre ('\x22' :: (k ++ ['\x22'])) := by
  intro z
  have hs : ('\x22' :: (k ++ ['\x22'])) ++ z = '\x22' :: (k ++ '\x22' :: z) := by
    simp
  rw [hs, repair_nc '\x22' (by decide) (by decide), repair_def2,
    (strClean_fold k).1 hok z]
  simp

/-- A clean quoted string token has no bad comma. -/
theorem noBad_str (k : List Char) (hok : strOk SMode.n k = true) :
    NoBad ('\x22' :: (k ++ ['\x22'])) := by
  refine noBad_cons _ _ (by decide)
    (noBad_append k ['\x22'] ((strOk_noBad k).1 hok) (noBad_run ['\x22'] ?_))
  intro ch hch
  rw [List.mem_singleton] at hch
  subst hch
  decide

/-- The repair copies an opening brace, a whitespace run, and a plain
resolution character. -/
theorem repair_brace_ws (w1 : List Char) (hw1 : ∀ ch ∈ w1, isWsChar ch = true)
    (e : Char) (he : isLowerAZ e = false) (h2 : ¬ e = ':') (h3 : ¬ e = '\x7b')
    (h4 : ¬ e = ',') (t : List Char) :
    repair ('\x7b' :: (w1 ++ e :: t)) = '\x7b' :: (w1 ++ e :: repair t) := by
  cases w1 with
  | nil =>
      simpa using repair_brace e he h2 h3 h4 t
  | cons a w1b =>
      obtain ⟨hna, hnb, _, _, hnc, _, _, _, hnl⟩ := ws_ne a (hw1 a (by simp))
      have hrun : ∀ ch ∈ w1b, ¬ ch = ',' ∧ ¬ ch = '\x7b' := by
        intro ch hch
        obtain ⟨x1, x2, _⟩ := ws_ne ch (hw1 ch (by simp [hch]))
        exact ⟨x1, x2⟩
      rw [show '\x7b' :: ((a :: w1b) ++ e :: t) = '\x7b' :: a :: (w1b ++ e :: t)
          from rfl,
        repair_brace a hnl hnc hnb hna,
        repair_ncrun w1b hrun, repair_nc e h4 h3]
      rfl

/-- The repair restores `,{` before a whitespace run and a plain
resolution character. -/
theorem repair_comma_brace_ws (w1 : List Char)
    (hw1 : ∀ ch ∈ w1, isWsChar ch = true)
    (e : Char) (he : isLowerAZ e = false) (h2 : ¬ e = ':') (h3 : ¬ e = '\x7b')
    (h4 : ¬ e = ',') (t : List Char) :
    repair (',' :: '\x7b' :: (w1 ++ e :: t)) =
      ',' :: '\x7b' :: (w1 ++ e :: repair t) := by
  cases w1 with
  | nil =>
      simpa using repair_comma_brace e he h2 h3 h4 t
  | cons a w1b =>
      obtain ⟨hna, hnb, _, _, hnc, _, _, _, hnl⟩ := ws_ne a (hw1 a (by simp))
      have hrun : ∀ ch ∈ w1b, ¬ ch = ',' ∧ ¬ ch = '\x7b' := by
        intro ch hch
        obtain ⟨x1, x2, _⟩ := ws_ne ch (hw1 ch (by simp [hch]))
        exact ⟨x1, x2⟩
      rw [show ',' :: '\x7b' :: ((a :: w1b) ++ e :: t) =
          ',' :: '\x7b' :: a :: (w1b ++ e :: t) from rfl,
        repair_comma_brace a hnl hnc hnb hna,
        repair_ncrun w1b hrun, repair_nc e h4 h3]
      rfl

/-- The first pass always re-emits the pending opening brace first. -/
theorem pass1go_some_head : ∀ (rest acc : List Char),
    ∃ T, pass1go (some acc) rest = '\x7b' :: T := by
  intro rest
  induction rest with
  | nil => intro acc; exact ⟨acc.reverse, rfl⟩
  | cons c r ih =>
      intro acc
      rw [pass1go_some_eq]
      by_cases hl : isLowerAZ c
      · rw [if_pos hl]
        exact ih (c :: acc)
      · by_cases hcol : c = ':'
        · rw [if_neg hl, if_pos hcol]
          exact ⟨_, rfl⟩
        · by_cases hbr : c = '\x7b'
          · rw [if_neg hl, if_neg hcol, if_pos hbr]
            exact ⟨_, rfl⟩
          · rw [if_neg hl, if_neg hcol, if_neg hbr]
            exact ⟨_, rfl⟩

/-- The repair never changes the first character when it is not a
comma. -/
theorem repair_head (d : Char) (hd : ¬ d = ',') (r : List Char) :
    ∃ T, repair (d :: r) = d :: T := by
  by_cases hbr : d = '\x7b'
  · subst hbr
    obtain ⟨T1, hT1⟩ := pass1go_some_head r []
    refine ⟨pass3 (pass2go false T1), ?_⟩
    unfold repair pass2 pass1
    rw [pass1go_none_eq, if_pos rfl, hT1, pass2go_false_eq,
      if_neg (by decide), pass3_cons_ne '\x7b' (by decide)]
  · exact ⟨repair r, repair_nc d hd hbr r⟩

/-- The head after `skipWs` fails the whitespace test. -/
theorem skipWs_head (l : List Char) (c : Char) (t : List Char)
    (h : skipWs l = c :: t) : isWsChar c = false := by
  induction l with
  | nil => simp [skipWs] at h
  | cons a l2 ih =>
      by_cases ha : isWsChar a = true
      · rw [show skipWs (a :: l2) = skipWs l2 from by
          unfold skipWs; rw [List.dropWhile_cons, if_pos (by simp [ha])]] at h
        exact ih h
      · rw [skipWs_cons_neg a l2 (by simpa using ha)] at h
        rw [List.cons.injEq] at h
        rw [← h.1]
        simpa using ha

/-- A successful value parse starts at a value-opening character. -/
theorem parseVal_head (f : Nat) (l : List Char) (j : Json) (rem : List Char)
    (h : parseVal f l = some (j, rem)) :
    ∃ d t, skipWs l = d :: t ∧ isWsChar d = false ∧
      (d = '\x22' ∨ d = '-' ∨ isDigitAZ d = true ∨ d = '[' ∨ d = '\x7b') := by
  cases f with
  | zero => exact absurd h (by simp [parseVal])
  | succ f2 =>
      simp only [parseVal] at h
      split at h
      · exact absurd h (by simp)
      · next c rest heq =>
          refine ⟨c, rest, heq, skipWs_head l c rest heq, ?_⟩
          by_cases h1 : c = '\x22'
          · exact Or.inl h1
          · rw [if_neg h1] at h
            by_cases h2 : c = '-'
            · exact Or.inr (Or.inl h2)
            · rw [if_neg h2] at h
              by_cases h3 : isDigitAZ c = true
              · exact Or.inr (Or.inr (Or.inl h3))
              · rw [if_neg (by simpa using h3)] at h
                by_cases h4 : c = '['
                · exact Or.inr (Or.inr (Or.inr (Or.inl h4)))
                · rw [if_neg h4] at h
                  by_cases h5 : c = '\x7b'
                  · exact Or.inr (Or.inr (Or.inr (Or.inr h5)))
                  · rw [if_neg h5] at h
                    exact absurd h (by simp)

/-- A successful member parse starts at a double quote. -/
theorem parseMembers_head (f : Nat) (l : List Char)
    (kvs : List (List Char × Json)) (rem : List Char)
    (h : parseMembers f l = some (kvs, rem)) :
    ∃ t, skipWs l = '\x22' :: t := by
  cases f with
  | zero => exact absurd h (by simp [parseMembers])
  | succ f2 =>
      simp only [parseMembers] at h
      split at h
      · next rest heq => exact ⟨rest, heq⟩
      · exact absurd h (by simp)

/-- A successful element parse embeds a first value parse at one lower
fuel. -/
theorem parseElems_val (f : Nat) (l : List Char) (vs : List Json)
    (rem : List Char) (h : parseElems f l = some (vs, rem)) :
    ∃ f2 v r, f = f2 + 1 ∧ parseVal f2 l = some (v, r) := by
  cases f with
  | zero => exact absurd h (by simp [parseElems])
  | succ f2 =>
      simp only [parseElems] at h
      split at h
      · exact absurd h (by simp)
      · next v r heq => exact ⟨f2, v, r, rfl, heq⟩

/-- Fuel-indexed parsers all fail at fuel zero. -/
theorem parseVal_zero (l : List Char) : parseVal 0 l = none := rfl

/-- Element parsing fails at fuel zero. -/
theorem parseElems_zero (l : List Char) : parseElems 0 l = none := rfl

/-- Member parsing fails at fuel zero. -/
theorem parseMembers_zero (l : List Char) : parseMembers 0 l = none := rfl

/-- A value parse ignores leading whitespace. -/
theorem parseVal_ws (f : Nat) (w : List Char)
    (hw : ∀ ch ∈ w, isWsChar ch = true) (X : List Char) :
    parseVal f (w ++ X) = parseVal f X := by
  cases f with
  | zero => rfl
  | succ f2 =>
      simp only [parseVal]
      rw [skipWs_ws w hw X]

/-- A lowercase letter is none of the syntax characters, a digit, or
whitespace. -/
theorem lower_ne2 (ch : Char) (h : isLowerAZ ch = true) :
    ¬ ch = ',' ∧ ¬ ch = '\x7b' ∧ ¬ ch = '\x22' ∧ ¬ ch = ':' ∧
      ¬ ch = ']' ∧ ¬ ch = '\x7d' ∧ ¬ ch = '[' ∧ ¬ ch = '-' ∧
      isWsChar ch = false ∧ isDigitAZ ch = false := by
  simp only [isLowerAZ, Bool.and_eq_true, decide_eq_true_eq] at h
  obtain ⟨h1, h2⟩ := h
  have hlo : 97 ≤ ch.toNat := h1
  have hhi : ch.toNat ≤ 122 := h2
  refine ⟨?_, ?_, ?_, ?_, ?_, ?_, ?_, ?_, ?_, ?_⟩
  · intro hh; subst hh; exact absurd hlo (by decide)
  · intro hh; subst hh; exact absurd hhi (by decide)
  · intro hh; subst hh; exact absurd hlo (by decide)
  · intro hh; subst hh; exact absurd hlo (by decide)
  · intro hh; subst hh; exact absurd hlo (by decide)
  · intro hh; subst hh; exact absurd hhi (by decide)
  · intro hh; subst hh; exact absurd hlo (by decide)
  · intro hh; subst hh; exact absurd hlo (by decide)
  · simp only [isWsChar, Bool.or_eq_false_iff, decide_eq_false_iff_not]
    refine ⟨⟨⟨?_, ?_⟩, ?_⟩, ?_⟩ <;> intro hh <;> subst hh <;>
      exact absurd hlo (by decide)
  · simp only [isDigitAZ, Bool.and_eq_false_iff]
    right
    simp only [decide_eq_false_iff_not]
    intro hh
    have h57 : ch.toNat ≤ 57 := hh
    omega

/-- A value-opening character is not a separator, a closer, a colon,
whitespace or a lowercase letter. -/
theorem valuestart_ne (d : Char)
    (h : d = '\x22' ∨ d = '-' ∨ isDigitAZ d = true ∨ d = '[' ∨ d = '\x7b') :
    ¬ d = ',' ∧ ¬ d = ']' ∧ ¬ d = '\x7d' ∧ ¬ d = ':' ∧
      isWsChar d = false ∧ isLowerAZ d = false := by
  rcases h with h | h | h | h | h
  · subst h; exact ⟨by decide, by decide, by decide, by decide, rfl, rfl⟩
  · subst h; exact ⟨by decide, by decide, by decide, by decide, rfl, rfl⟩
  · obtain ⟨x1, _, _, _, _, x6, x7, x8, x9, x10⟩ := digit_ne d h
    exact ⟨x1, x6, x7, x8, x9, x10⟩
  · subst h; exact ⟨by decide, by decide, by decide, by decide, rfl, rfl⟩
  · subst h; exact ⟨by decide, by decide, by decide, by decide, rfl, rfl⟩

/-- A poisoned remainder survives whitespace skipping and matches no
separator, closer, or colon. -/
theorem poison_head (r : List Char) (h : Poison r) :
    ∃ d t, r = d :: t ∧ skipWs r = d :: t ∧ ¬ d = ',' ∧ ¬ d = ']' ∧
      ¬ d = '\x7d' ∧ ¬ d = ':' := by
  obtain ⟨d, t, hr, hd⟩ := h
  subst hr
  rcases hd with hd | hd
  · obtain ⟨x1, _, _, x4, x5, x6, _, _, x9, _⟩ := lower_ne2 d hd
    exact ⟨d, t, rfl, skipWs_cons_neg d t x9, x1, x5, x6, x4⟩
  · subst hd
    exact ⟨'\x22', t, rfl, skipWs_cons_neg _ t (by decide), by decide,
      by decide, by decide, by decide⟩

/-- After a bad separator, the repaired tail still starts (after
whitespace) with the original value-opening character. -/
theorem repair_tail_head (cb : Char) (vb : List Char) (d : Char)
    (t : List Char) (hsw : skipWs (cb :: vb) = d :: t) (hdc : ¬ d = ',') :
    ∃ T2, skipWs (cb :: repair vb) = d :: T2 := by
  have hdw : isWsChar d = false := skipWs_head _ d t hsw
  by_cases hcb : isWsChar cb = true
  · have h1 : skipWs (cb :: vb) = skipWs vb := by
      unfold skipWs
      rw [List.dropWhile_cons, if_pos (by simp [hcb])]
    rw [h1] at hsw
    obtain ⟨w5, hw5a, hw5b⟩ := skipWs_decomp vb
    rw [hsw] at hw5a
    obtain ⟨T, hT⟩ := repair_head d hdc t
    have hrep : repair vb = w5 ++ (d :: T) := by
      rw [hw5a, repair_ncrun w5 (by
        intro ch hch
        obtain ⟨x1, x2, _⟩ := ws_ne ch (hw5b ch hch)
        exact ⟨x1, x2⟩), hT]
    refine ⟨T, ?_⟩
    rw [hrep, show skipWs (cb :: (w5 ++ d :: T)) = skipWs (w5 ++ d :: T) from by
      unfold skipWs; rw [List.dropWhile_cons, if_pos (by simp [hcb])],
      skipWs_ws w5 hw5b, skipWs_cons_neg d T hdw]
  · rw [skipWs_cons_neg cb vb (by simpa using hcb)] at hsw
    rw [List.cons.injEq] at hsw
    refine ⟨repair vb, ?_⟩
    rw [← hsw.1, skipWs_cons_neg cb _ (by simpa using hcb)]

/-- A value parse of a braced region exposes a whitespace run and a
plain resolution character after the opening brace. -/
theorem parseVal_brace_shape (f : Nat) (t2 : List Char)
    (x : Json × List Char) (h : parseVal f ('\x7b' :: t2) = some x) :
    ∃ w4 e t4, t2 = w4 ++ e :: t4 ∧ (∀ ch ∈ w4, isWsChar ch = true) ∧
      isLowerAZ e = false ∧ ¬ e = ':' ∧ ¬ e = '\x7b' ∧ ¬ e = ',' := by
  cases f with
  | zero => exact absurd h (by simp [parseVal])
  | succ f2 =>
      simp only [parseVal] at h
      rw [skipWs_cons_neg '\x7b' t2 (by decide)] at h
      dsimp only at h
      rw [if_neg (by decide), if_neg (by decide), if_neg (by decide),
        if_neg (by decide), if_pos rfl] at h
      split at h
      · next r heq =>
          obtain ⟨w4, hd1, hd2⟩ := skipWs_decomp t2
          rw [heq] at hd1
          exact ⟨w4, '\x7d', r, hd1, hd2, by decide, by decide, by decide,
            by decide⟩
      · next l2 heq =>
          split at h
          · next kvs r heqM =>
              obtain ⟨tk, htk⟩ := parseMembers_head f2 _ kvs r heqM
              rw [skipWs_skipWs t2] at htk
              obtain ⟨w4, hd1, hd2⟩ := skipWs_decomp t2
              rw [htk] at hd1
              exact ⟨w4, '\x22', tk, hd1, hd2, by decide, by decide,
                by decide, by decide⟩
          · exact absurd h (by simp)

/-- Replaying a clean string token as a value. -/
theorem parseVal_str_replay (g : Nat) (w : List Char)
    (hw : ∀ ch ∈ w, isWsChar ch = true) (k : List Char)
    (hk : ∀ ch ∈ k, ¬ ch = '\x22' ∧ ¬ ch = '\\') (Y : List Char) :
    parseVal (g + 1) (w ++ '\x22' :: (k ++ '\x22' :: Y)) =
      some (Json.str k, Y) := by
  simp only [parseVal]
  rw [skipWs_ws w hw, skipWs_cons_neg '\x22' _ (by decide)]
  dsimp only
  rw [if_pos rfl, parseStrBody_replay k hk Y]

/-- Replaying a digit run as a value. -/
theorem parseVal_num_replay (g : Nat) (w : List Char)
    (hw : ∀ ch ∈ w, isWsChar ch = true) (ds : List Char) (h1 : ¬ ds = [])
    (h2 : ∀ ch ∈ ds, isDigitAZ ch = true) (Y : List Char)
    (hY : headNotDigit Y) :
    parseVal (g + 1) (w ++ (ds ++ Y)) =
      some (Json.num (digitsToNat ds : Nat), Y) := by
  cases ds with
  | nil => exact absurd rfl h1
  | cons d0 ds2 =>
      have hd0 : isDigitAZ d0 = true := h2 d0 (by simp)
      obtain ⟨_, _, x3, x4, _, _, _, _, x9, _⟩ := digit_ne d0 hd0
      simp only [parseVal]
      rw [skipWs_ws w hw, List.cons_append, skipWs_cons_neg d0 _ x9]
      dsimp only
      rw [if_neg x3, if_neg x4, if_pos hd0, ← List.cons_append,
        parseNatNum_replay (d0 :: ds2) h1 h2 Y hY]

/-- Replaying a negative number as a value. -/
theorem parseVal_negnum_replay (g : Nat) (w : List Char)
    (hw : ∀ ch ∈ w, isWsChar ch = true) (ds : List Char) (h1 : ¬ ds = [])
    (h2 : ∀ ch ∈ ds, isDigitAZ ch = true) (Y : List Char)
    (hY : headNotDigit Y) :
    parseVal (g + 1) (w ++ '-' :: (ds ++ Y)) =
      some (Json.num (-(digitsToNat ds : Nat) : Int), Y) := by
  simp only [parseVal]
  rw [skipWs_ws w hw, skipWs_cons_neg '-' _ (by decide)]
  dsimp only
  rw [if_neg (by decide), if_pos rfl,
    parseNatNum_replay ds h1 h2 Y hY]

/-- Replaying an empty array. -/
theorem parseVal_emptyarr_replay (g : Nat) (w : List Char)
    (hw : ∀ ch ∈ w, isWsChar ch = true) (w1 : List Char)
    (hw1 : ∀ ch ∈ w1, isWsChar ch = true) (Y : List Char) :
    parseVal (g + 1) (w ++ '[' :: (w1 ++ ']' :: Y)) =
      some (Json.arr [], Y) := by
  simp only [parseVal]
  rw [skipWs_ws w hw, skipWs_cons_neg '[' _ (by decide)]
  dsimp only
  rw [if_neg (by decide), if_neg (by decide), if_neg (by decide),
    if_pos rfl, skipWs_ws w1 hw1, skipWs_cons_neg ']' _ (by decide)]
  rfl

/-- Replaying an empty object. -/
theorem parseVal_emptyobj_replay (g : Nat) (w : List Char)
    (hw : ∀ ch ∈ w, isWsChar ch = true) (w1 : List Char)
    (hw1 : ∀ ch ∈ w1, isWsChar ch = true) (Y : List Char) :
    parseVal (g + 1) (w ++ '\x7b' :: (w1 ++ '\x7d' :: Y)) =
      some (Json.obj [], Y) := by
  simp only [parseVal]
  rw [skipWs_ws w hw, skipWs_cons_neg '\x7b' _ (by decide)]
  dsimp only
  rw [if_neg (by decide), if_neg (by decide), if_neg (by decide),
    if_neg (by decide), if_pos rfl, skipWs_ws w1 hw1,
    skipWs_cons_neg '\x7d' _ (by decide)]
  rfl

/-- Stepping a value parse into a nonempty array body. -/
theorem parseVal_arr_step (g : Nat) (w : List Char)
    (hw : ∀ ch ∈ w, isWsChar ch = true) (w1 : List Char)
    (hw1 : ∀ ch ∈ w1, isWsChar ch = true) (e0 : Char) (t : List Char)
    (hws : isWsChar e0 = false) (hne : ¬ e0 = ']') :
    parseVal (g + 1) (w ++ '[' :: (w1 ++ e0 :: t)) =
      (match parseElems g (e0 :: t) with
       | some (vs, r) => some (Json.arr vs, r)
       | none => none) := by
  simp only [parseVal]
  rw [skipWs_ws w hw, skipWs_cons_neg '[' _ (by decide)]
  dsimp only
  rw [if_neg (by decide), if_neg (by decide), if_neg (by decide),
    if_pos rfl, skipWs_ws w1 hw1, skipWs_cons_neg e0 t hws]
  split
  · next r heq =>
      rw [List.cons.injEq] at heq
      exact absurd heq.1 hne
  · rfl

/-- Stepping a value parse into a nonempty object body. -/
theorem parseVal_obj_step (g : Nat) (w : List Char)
    (hw : ∀ ch ∈ w, isWsChar ch = true) (w1 : List Char)
    (hw1 : ∀ ch ∈ w1, isWsChar ch = true) (e0 : Char) (t : List Char)
    (hws : isWsChar e0 = false) (hne : ¬ e0 = '\x7d') :
    parseVal (g + 1) (w ++ '\x7b' :: (w1 ++ e0 :: t)) =
      (match parseMembers g (e0 :: t) with
       | some (kvs, r) => some (Json.obj kvs, r)
       | none => none) := by
  simp only [parseVal]
  rw [skipWs_ws w hw, skipWs_cons_neg '\x7b' _ (by decide)]
  dsimp only
  rw [if_neg (by decide), if_neg (by decide), if_neg (by decide),
    if_neg (by decide), if_pos rfl, skipWs_ws w1 hw1,
    skipWs_cons_neg e0 t hws]
  split
  · next r heq =>
      rw [List.cons.injEq] at heq
      exact absurd heq.1 hne
  · rfl

/-- Stepping a member parse through a clean key and its colon. -/
theorem parseMembers_key_step (g : Nat) (w0 : List Char)
    (hw0 : ∀ ch ∈ w0, isWsChar ch = true) (k : List Char)
    (hk : ∀ ch ∈ k, ¬ ch = '\x22' ∧ ¬ ch = '\\') (w1 : List Char)
    (hw1 : ∀ ch ∈ w1, isWsChar ch = true) (X : List Char) :
    parseMembers (g + 1) (w0 ++ '\x22' :: (k ++ '\x22' :: (w1 ++ ':' :: X))) =
      (match parseVal g X with
       | none => none
       | some (v, r3) =>
           match skipWs r3 with
           | ',' :: r4 =>
               match parseMembers g r4 with
               | some (kvs, r5) => some ((k, v) :: kvs, r5)
               | none => none
           | '\x7d' :: r4 => some ([(k, v)], r4)
           | _ => none) := by
  simp only [parseMembers]
  rw [skipWs_ws w0 hw0, skipWs_cons_neg '\x22' _ (by decide)]
  split
  · next rest heq =>
      rw [List.cons.injEq] at heq
      rw [← heq.2, parseStrBody_replay k hk]
      dsimp only
      rw [skipWs_ws w1 hw1, skipWs_cons_neg ':' X (by decide)]
      rfl
  · next hne => exact absurd rfl (hne _)

/-! ## The clean/bust simulation of the parser on repaired text -/

/-- A busted first value busts the whole element list. -/
theorem bustV_to_bustE (l : List Char) (h : BustV l) : BustE l := by
  intro g
  cases g with
  | zero => rfl
  | succ g2 =>
      simp only [parseElems]
      rcases h g2 with hN | ⟨j2, r2, hS, hP⟩
      · rw [hN]
      · rw [hS]
        obtain ⟨d, t, hr, hsw, hd1, hd2, hd3, hd4⟩ := poison_head r2 hP
        dsimp only
        rw [hsw]
        split
        · next r3 heq =>
            rw [List.cons.injEq] at heq
            exact absurd heq.1 hd1
        · next r3 heq =>
            rw [List.cons.injEq] at heq
            exact absurd heq.1 hd2
        · rfl

/-- The spurious empty string after a repaired bad separator poisons the
element context. -/
theorem elems_insert_none (g : Nat) (cb : Char) (vb : List Char) (D : Char)
    (T2 : List Char) (hsw : skipWs (cb :: repair vb) = D :: T2)
    (h1 : ¬ D = ',') (h2 : ¬ D = ']') :
    parseElems g ('\x22' :: '\x22' :: cb :: repair vb) = none := by
  cases g with
  | zero => rfl
  | succ g2 =>
      cases g2 with
      | zero => rfl
      | succ g3 =>
          simp only [parseElems]
          have hv := parseVal_str_replay g3 [] (by simp) [] (by simp)
            (cb :: repair vb)
          simp only [List.nil_append] at hv
          rw [hv]
          dsimp only
          rw [hsw]
          split
          · next r3 heq =>
              rw [List.cons.injEq] at heq
              exact absurd heq.1 h1
          · next r3 heq =>
              rw [List.cons.injEq] at heq
              exact absurd heq.1 h2
          · rfl

/-- The spurious empty string after a repaired bad separator poisons the
member context. -/
theorem members_insert_none (g : Nat) (cb : Char) (vb : List Char) (D : Char)
    (T2 : List Char) (hsw : skipWs (cb :: repair vb) = D :: T2)
    (h4 : ¬ D = ':') :
    parseMembers g ('\x22' :: '\x22' :: cb :: repair vb) = none := by
  cases g with
  | zero => rfl
  | succ g2 =>
      simp only [parseMembers]
      rw [skipWs_cons_neg '\x22' _ (by decide)]
      split
      · next rest heq =>
          rw [List.cons.injEq] at heq
          rw [← heq.2,
            show parseStrBody ('\x22' :: cb :: repair vb) =
              some ([], cb :: repair vb) from rfl]
          dsimp only
          rw [hsw]
          split
          · next r2 heq2 =>
              rw [List.cons.injEq] at heq2
              exact absurd heq2.1 h4
          · rfl
      · next hne => exact absurd rfl (hne _)

/-- A dirty key closes early and misses its colon: the member parse of
the repaired text fails. -/
theorem bustM_dirty_key (l w0 k rk : List Char)
    (hl : l = w0 ++ '\x22' :: (k ++ '\x22' :: rk))
    (hw0 : ∀ ch ∈ w0, isWsChar ch = true)
    (hk : ∀ ch ∈ k, ¬ ch = '\x22' ∧ ¬ ch = '\\')
    (hdirty : strOk SMode.n k = false) :
    ∀ g, parseMembers g (repair l) = none := by
  have hrep : repair l = w0 ++ '\x22' ::
      pass3 (pass2go false (pass1go none (k ++ '\x22' :: rk))) := by
    rw [hl, repair_ncrun w0 (by
      intro ch hch
      obtain ⟨x1, x2, _⟩ := ws_ne ch (hw0 ch hch)
      exact ⟨x1, x2⟩), repair_nc '\x22' (by decide) (by decide), repair_def2]
  obtain ⟨pre, d, tail, hDeq, hpre, hd⟩ := (strDirty_fold k).1 hdirty hk rk
  intro g
  cases g with
  | zero => rfl
  | succ g2 =>
      simp only [parseMembers]
      rw [hrep, hDeq, skipWs_ws w0 hw0, skipWs_cons_neg '\x22' _ (by decide)]
      split
      · next rest heq =>
          rw [List.cons.injEq] at heq
          rw [← heq.2, parseStrBody_replay pre hpre]
          dsimp only
          have hdw : isWsChar d = false := by
            rcases hd with hd | hd
            · exact (lower_ne2 d hd).2.2.2.2.2.2.2.2.1
            · subst hd; decide
          rw [skipWs_cons_neg d tail hdw]
          split
          · next r2 heq2 =>
              rw [List.cons.injEq] at heq2
              rcases hd with hd | hd
              · exact absurd heq2.1 (lower_ne2 d hd).2.2.2.1
              · rw [hd] at heq2
                exact absurd heq2.1 (by decide)
          · rfl
      · next hne => exact absurd rfl (hne _)

/-- The comma-context clause holds vacuously when the input does not
start with a brace. -/
theorem cleanPreC_vac (p w : List Char) (hw : ∀ ch ∈ w, isWsChar ch = true)
    (c : Char) (hc : ¬ c = '\x7b') (t l : List Char)
    (hl : l = w ++ c :: t) : ∀ tl, l = '\x7b' :: tl → CleanPreC p := by
  intro tl htl
  exfalso
  rw [hl] at htl
  cases w with
  | nil =>
      rw [List.nil_append, List.cons.injEq] at htl
      exact hc htl.1
  | cons a w2 =>
      rw [List.cons_append, List.cons.injEq] at htl
      exact (ws_ne a (hw a (by simp))).2.1 htl.1

/-- A whitespace run is free of commas and braces. -/
theorem ws_ncrun (w : List Char) (hw : ∀ ch ∈ w, isWsChar ch = true) :
    ∀ ch ∈ w, ¬ ch = ',' ∧ ¬ ch = '\x7b' := by
  intro ch hch
  obtain ⟨x1, x2, _⟩ := ws_ne ch (hw ch hch)
  exact ⟨x1, x2⟩

/-- A clean string value with its surrounding text. -/
theorem valA_str (w : List Char) (hw : ∀ ch ∈ w, isWsChar ch = true)
    (s : List Char) (hs : ∀ ch ∈ s, ¬ ch = '\x22' ∧ ¬ ch = '\\')
    (hok : strOk SMode.n s = true) (r : List Char) :
    ValA (w ++ '\x22' :: (s ++ '\x22' :: r)) (Json.str s) r := by
  refine ⟨w ++ '\x22' :: (s ++ ['\x22']), by simp, by simp, ?_, ?_, ?_, ?_⟩
  · exact cleanPre_append w _ (cleanPre_run w (ws_ncrun w hw))
      (cleanPre_str s hok)
  · exact cleanPreC_vac _ w hw '\x22' (by decide) (s ++ '\x22' :: r) _ rfl
  · exact noBad_append w _ (noBad_run w (fun ch hch => (ws_ne ch (hw ch hch)).1))
      (noBad_str s hok)
  · intro g Y hY
    cases g with
    | zero => exact Or.inr rfl
    | succ g2 =>
        left
        rw [show (w ++ '\x22' :: (s ++ ['\x22'])) ++ Y =
          w ++ '\x22' :: (s ++ '\x22' :: Y) from by simp]
        exact parseVal_str_replay g2 w hw s hs Y

/-- A dirty string value busts the parse of the repaired text. -/
theorem bustV_str (w : List Char) (hw : ∀ ch ∈ w, isWsChar ch = true)
    (s : List Char) (hs : ∀ ch ∈ s, ¬ ch = '\x22' ∧ ¬ ch = '\\')
    (hok : strOk SMode.n s = false) (r : List Char) :
    BustV (w ++ '\x22' :: (s ++ '\x22' :: r)) := by
  have hrep : repair (w ++ '\x22' :: (s ++ '\x22' :: r)) = w ++ '\x22' ::
      pass3 (pass2go false (pass1go none (s ++ '\x22' :: r))) := by
    rw [repair_ncrun w (ws_ncrun w hw), repair_nc '\x22' (by decide) (by decide),
      repair_def2]
  obtain ⟨pre, d, tail, hDeq, hpre, hd⟩ := (strDirty_fold s).1 hok hs r
  intro g
  cases g with
  | zero => exact Or.inl rfl
  | succ g2 =>
      right
      refine ⟨Json.str pre, d :: tail, ?_, d, tail, rfl, hd⟩
      rw [hrep, hDeq]
      exact parseVal_str_replay g2 w hw pre hpre (d :: tail)

/-- A number value with its surrounding text. -/
theorem valA_num (w : List Char) (hw : ∀ ch ∈ w, isWsChar ch = true)
    (ds : List Char) (h1 : ¬ ds = []) (h2 : ∀ ch ∈ ds, isDigitAZ ch = true)
    (r : List Char) (hr : headNotDigit r) :
    ValA (w ++ (ds ++ r)) (Json.num (digitsToNat ds : Nat)) r := by
  have hds : ∀ ch ∈ ds, ¬ ch = ',' ∧ ¬ ch = '\x7b' := by
    intro ch hch
    obtain ⟨x1, x2, _⟩ := digit_ne ch (h2 ch hch)
    exact ⟨x1, x2⟩
  refine ⟨w ++ ds, by simp, ?_, ?_, ?_, ?_, ?_⟩
  · intro hh
    rw [List.append_eq_nil] at hh
    exact h1 hh.2
  · exact cleanPre_append w ds (cleanPre_run w (ws_ncrun w hw))
      (cleanPre_run ds hds)
  · cases ds with
    | nil => exact absurd rfl h1
    | cons d0 ds2 =>
        exact cleanPreC_vac _ w hw d0 (digit_ne d0 (h2 d0 (by simp))).2.1
          (ds2 ++ r) _ (by simp)
  · exact noBad_append w ds
      (noBad_run w (fun ch hch => (ws_ne ch (hw ch hch)).1))
      (noBad_run ds (fun ch hch => (hds ch hch).1))
  · intro g Y hY
    cases g with
    | zero => exact Or.inr rfl
    | succ g2 =>
        left
        rw [show (w ++ ds) ++ Y = w ++ (ds ++ Y) from by simp]
        exact parseVal_num_replay g2 w hw ds h1 h2 Y hY

/-- A negative number value with its surrounding text. -/
theorem valA_negnum (w : List Char) (hw : ∀ ch ∈ w, isWsChar ch = true)
    (ds : List Char) (h1 : ¬ ds = []) (h2 : ∀ ch ∈ ds, isDigitAZ ch = true)
    (r : List Char) (hr : headNotDigit r) :
    ValA (w ++ '-' :: (ds ++ r)) (Json.num (-(digitsToNat ds : Nat) : Int))
      r := by
  have hds : ∀ ch ∈ ds, ¬ ch = ',' ∧ ¬ ch = '\x7b' := by
    intro ch hch
    obtain ⟨x1, x2, _⟩ := digit_ne ch (h2 ch hch)
    exact ⟨x1, x2⟩
  refine ⟨w ++ '-' :: ds, by simp, by simp, ?_, ?_, ?_, ?_⟩
  · exact cleanPre_append w _ (cleanPre_run w (ws_ncrun w hw))
      (cleanPre_run ('-' :: ds) (by
        intro ch hch
        rcases List.mem_cons.mp hch with hh | hh
        · subst hh; exact ⟨by decide, by decide⟩
        · exact hds ch hh))
  · exact cleanPreC_vac _ w hw '-' (by decide) (ds ++ r) _ rfl
  · refine noBad_append w _
      (noBad_run w (fun ch hch => (ws_ne ch (hw ch hch)).1))
      (noBad_run ('-' :: ds) ?_)
    intro ch hch
    rcases List.mem_cons.mp hch with hh | hh
    · subst hh; decide
    · exact (hds ch hh).1
  · intro g Y hY
    cases g with
    | zero => exact Or.inr rfl
    | succ g2 =>
        left
        rw [show (w ++ '-' :: ds) ++ Y = w ++ '-' :: (ds ++ Y) from by simp]
        exact parseVal_negnum_replay g2 w hw ds h1 h2 Y hY

/-- An empty array value with its surrounding text. -/
theorem valA_emptyarr (w : List Char) (hw : ∀ ch ∈ w, isWsChar ch = true)
    (w1 : List Char) (hw1 : ∀ ch ∈ w1, isWsChar ch = true) (r : List Char) :
    ValA (w ++ '[' :: (w1 ++ ']' :: r)) (Json.arr []) r := by
  have hall : ∀ ch ∈ w ++ '[' :: (w1 ++ [']']), ¬ ch = ',' ∧ ¬ ch = '\x7b' := by
    intro ch hch
    rcases List.mem_append.mp hch with hh | hh
    · exact ws_ncrun w hw ch hh
    · rcases List.mem_cons.mp hh with hh2 | hh2
      · subst hh2; exact ⟨by decide, by decide⟩
      · rcases List.mem_append.mp hh2 with hh3 | hh3
        · exact ws_ncrun w1 hw1 ch hh3
        · rw [List.mem_singleton] at hh3
          subst hh3; exact ⟨by decide, by decide⟩
  refine ⟨w ++ '[' :: (w1 ++ [']']), by simp, by simp,
    cleanPre_run _ hall, ?_, noBad_run _ (fun ch hch => (hall ch hch).1), ?_⟩
  · exact cleanPreC_vac _ w hw '[' (by decide) (w1 ++ ']' :: r) _ rfl
  · intro g Y hY
    cases g with
    | zero => exact Or.inr rfl
    | succ g2 =>
        left
        rw [show (w ++ '[' :: (w1 ++ [']'])) ++ Y =
          w ++ '[' :: (w1 ++ ']' :: Y) from by simp]
        exact parseVal_emptyarr_replay g2 w hw w1 hw1 Y

/-- An empty object value with its surrounding text. -/
theorem valA_emptyobj (w : List Char) (hw : ∀ ch ∈ w, isWsChar ch = true)
    (w1 : List Char) (hw1 : ∀ ch ∈ w1, isWsChar ch = true) (r : List Char) :
    ValA (w ++ '\x7b' :: (w1 ++ '\x7d' :: r)) (Json.obj []) r := by
  refine ⟨w ++ '\x7b' :: (w1 ++ ['\x7d']), by simp, by simp, ?_, ?_, ?_, ?_⟩
  · intro z
    rw [show (w ++ '\x7b' :: (w1 ++ ['\x7d'])) ++ z =
      w ++ ('\x7b' :: (w1 ++ '\x7d' :: z)) from by simp]
    rw [repair_ncrun w (ws_ncrun w hw),
      repair_brace_ws w1 hw1 '\x7d' (by decide) (by decide) (by decide)
        (by decide) z]
    simp
  · intro tl htl
    cases w with
    | cons a w2 =>
        exfalso
        rw [List.cons_append, List.cons.injEq] at htl
        exact (ws_ne a (hw a (by simp))).2.1 htl.1
    | nil =>
        intro z
        simp only [List.nil_append]
        rw [show (('\x7b' :: (w1 ++ ['\x7d'])) : List Char) ++ z =
          '\x7b' :: (w1 ++ '\x7d' :: z) from by simp]
        rw [repair_comma_brace_ws w1 hw1 '\x7d' (by decide) (by decide)
          (by decide) (by decide) z]
        simp
  · refine noBad_append w _
      (noBad_run w (fun ch hch => (ws_ne ch (hw ch hch)).1)) (noBad_run _ ?_)
    intro ch hch
    rcases List.mem_cons.mp hch with hh | hh
    · subst hh; decide
    · rcases List.mem_append.mp hh with hh2 | hh2
      · exact (ws_ne ch (hw1 ch hh2)).1
      · rw [List.mem_singleton] at hh2
        subst hh2; decide
  · intro g Y hY
    cases g with
    | zero => exact Or.inr rfl
    | succ g2 =>
        left
        rw [show (w ++ '\x7b' :: (w1 ++ ['\x7d'])) ++ Y =
          w ++ '\x7b' :: (w1 ++ '\x7d' :: Y) from by simp]
        exact parseVal_emptyobj_replay g2 w hw w1 hw1 Y

/-- A nonempty array value built from a clean element list. -/
theorem valA_arr (w : List Char) (hw : ∀ ch ∈ w, isWsChar ch = true)
    (w1 : List Char) (hw1 : ∀ ch ∈ w1, isWsChar ch = true)
    (l2 : List Char) (vs : List Json) (r : List Char)
    (hE : ElemsA l2 vs r) (e0 : Char) (t : List Char) (hl2 : l2 = e0 :: t)
    (hews : isWsChar e0 = false) (hne : ¬ e0 = ']') :
    ValA (w ++ '[' :: (w1 ++ l2)) (Json.arr vs) r := by
  obtain ⟨p_e, hsplitE, hneE, hcleanE, _, hnbE, hreplayE⟩ := hE
  obtain ⟨p', hpe⟩ : ∃ p', p_e = e0 :: p' := by
    cases p_e with
    | nil => exact absurd rfl hneE
    | cons b p' =>
        rw [hl2, List.cons_append, List.cons.injEq] at hsplitE
        exact ⟨p', by rw [hsplitE.1]⟩
  refine ⟨w ++ '[' :: (w1 ++ p_e), by rw [hsplitE]; simp, by simp, ?_, ?_,
    ?_, ?_⟩
  · exact cleanPre_append w _ (cleanPre_run w (ws_ncrun w hw))
      (cleanPre_append ['['] _ (cleanPre_nc '[' (by decide) (by decide))
        (cleanPre_append w1 _ (cleanPre_run w1 (ws_ncrun w1 hw1)) hcleanE))
  · exact cleanPreC_vac _ w hw '[' (by decide) (w1 ++ l2) _ rfl
  · refine noBad_append w _
      (noBad_run w (fun ch hch => (ws_ne ch (hw ch hch)).1))
      (noBad_cons '[' _ (by decide)
        (noBad_append w1 _
          (noBad_run w1 (fun ch hch => (ws_ne ch (hw1 ch hch)).1)) hnbE))
  · intro g Y hY
    cases g with
    | zero => exact Or.inr rfl
    | succ g2 =>
        rw [show (w ++ '[' :: (w1 ++ p_e)) ++ Y =
          w ++ '[' :: (w1 ++ (e0 :: (p' ++ Y))) from by rw [hpe]; simp]
        rw [parseVal_arr_step g2 w hw w1 hw1 e0 (p' ++ Y) hews hne]
        have h3 : parseElems g2 (e0 :: (p' ++ Y)) = parseElems g2 (p_e ++ Y) := by
          rw [hpe]
          rfl
        rw [h3]
        rcases hreplayE g2 Y with hc | hc
        · rw [hc]
          exact Or.inl rfl
        · rw [hc]
          exact Or.inr rfl

/-- A busted element list busts the enclosing array value. -/
theorem bustV_arr (w : List Char) (hw : ∀ ch ∈ w, isWsChar ch = true)
    (w1 : List Char) (hw1 : ∀ ch ∈ w1, isWsChar ch = true)
    (l2 : List Char) (hB : BustE l2) (e0 : Char) (t : List Char)
    (hl2 : l2 = e0 :: t) (hews : isWsChar e0 = false) (hne : ¬ e0 = ']')
    (hnc : ¬ e0 = ',') :
    BustV (w ++ '[' :: (w1 ++ l2)) := by
  intro g
  left
  obtain ⟨T, hT⟩ := repair_head e0 hnc t
  have hrep : repair (w ++ '[' :: (w1 ++ l2)) =
      w ++ '[' :: (w1 ++ repair l2) := by
    rw [repair_ncrun w (ws_ncrun w hw), repair_nc '[' (by decide) (by decide),
      repair_ncrun w1 (ws_ncrun w1 hw1)]
  cases g with
  | zero => rfl
  | succ g2 =>
      rw [hrep, hl2, hT, parseVal_arr_step g2 w hw w1 hw1 e0 T hews hne]
      have hb2 := hB g2
      rw [hl2, hT] at hb2
      rw [hb2]

/-- A nonempty object value built from a clean member list. -/
theorem valA_obj (w : List Char) (hw : ∀ ch ∈ w, isWsChar ch = true)
    (w1 : List Char) (hw1 : ∀ ch ∈ w1, isWsChar ch = true)
    (l2 : List Char) (kvs : List (List Char × Json)) (r : List Char)
    (hM : MembersA l2 kvs r) (tk : List Char) (hl2 : l2 = '\x22' :: tk) :
    ValA (w ++ '\x7b' :: (w1 ++ l2)) (Json.obj kvs) r := by
  obtain ⟨p_m, hsplitM, hneM, hcleanM, hnbM, hreplayM⟩ := hM
  obtain ⟨p', hpm⟩ : ∃ p', p_m = '\x22' :: p' := by
    cases p_m with
    | nil => exact absurd rfl hneM
    | cons b p' =>
        rw [hl2, List.cons_append, List.cons.injEq] at hsplitM
        exact ⟨p', by rw [hsplitM.1]⟩
  have hclean' : CleanPre p' := by
    refine cleanPre_uncons '\x22' p' (by decide) (by decide) ?_
    rw [← hpm]
    exact hcleanM
  refine ⟨w ++ '\x7b' :: (w1 ++ p_m), by rw [hsplitM]; simp, by simp, ?_, ?_,
    ?_, ?_⟩
  · intro z
    rw [show (w ++ '\x7b' :: (w1 ++ p_m)) ++ z =
      w ++ ('\x7b' :: (w1 ++ '\x22' :: (p' ++ z))) from by rw [hpm]; simp]
    rw [repair_ncrun w (ws_ncrun w hw),
      repair_brace_ws w1 hw1 '\x22' (by decide) (by decide) (by decide)
        (by decide) (p' ++ z),
      hclean' z]
    rw [hpm]
    simp
  · intro tl htl
    cases w with
    | cons a w2 =>
        exfalso
        rw [List.cons_append, List.cons.injEq] at htl
        exact (ws_ne a (hw a (by simp))).2.1 htl.1
    | nil =>
        intro z
        simp only [List.nil_append]
        rw [show (('\x7b' :: (w1 ++ p_m)) : List Char) ++ z =
          '\x7b' :: (w1 ++ '\x22' :: (p' ++ z)) from by rw [hpm]; simp]
        rw [repair_comma_brace_ws w1 hw1 '\x22' (by decide) (by decide)
          (by decide) (by decide) (p' ++ z),
          hclean' z]
        rw [hpm]
        simp
  · refine noBad_append w _
      (noBad_run w (fun ch hch => (ws_ne ch (hw ch hch)).1))
      (noBad_cons '\x7b' _ (by decide)
        (noBad_append w1 _
          (noBad_run w1 (fun ch hch => (ws_ne ch (hw1 ch hch)).1)) hnbM))
  · intro g Y hY
    cases g with
    | zero => exact Or.inr rfl
    | succ g2 =>
        rw [show (w ++ '\x7b' :: (w1 ++ p_m)) ++ Y =
          w ++ '\x7b' :: (w1 ++ ('\x22' :: (p' ++ Y))) from by rw [hpm]; simp]
        rw [parseVal_obj_step g2 w hw w1 hw1 '\x22' (p' ++ Y) (by decide)
          (by decide)]
        have h3 : parseMembers g2 ('\x22' :: (p' ++ Y)) =
            parseMembers g2 (p_m ++ Y) := by
          rw [hpm]
          rfl
        rw [h3]
        rcases hreplayM g2 Y with hc | hc
        · rw [hc]
          exact Or.inl rfl
        · rw [hc]
          exact Or.inr rfl

/-- A busted member list busts the enclosing object value. -/
theorem bustV_obj (w : List Char) (hw : ∀ ch ∈ w, isWsChar ch = true)
    (w1 : List Char) (hw1 : ∀ ch ∈ w1, isWsChar ch = true)
    (l2 : List Char) (hB : BustM l2) (tk : List Char)
    (hl2 : l2 = '\x22' :: tk) :
    BustV (w ++ '\x7b' :: (w1 ++ l2)) := by
  intro g
  left
  have hrep : repair (w ++ '\x7b' :: (w1 ++ l2)) =
      w ++ '\x7b' :: (w1 ++ repair l2) := by
    rw [hl2, repair_ncrun w (ws_ncrun w hw),
      repair_brace_ws w1 hw1 '\x22' (by decide) (by decide) (by decide)
        (by decide) tk,
      ← repair_nc '\x22' (by decide) (by decide) tk]
  cases g with
  | zero => rfl
  | succ g2 =>
      have hT : repair l2 = '\x22' :: repair tk := by
        rw [hl2]
        exact repair_nc '\x22' (by decide) (by decide) tk
      rw [hrep, hT, parseVal_obj_step g2 w hw w1 hw1 '\x22' (repair tk)
        (by decide) (by decide)]
      have hb2 := hB g2
      rw [hT] at hb2
      rw [hb2]

/-- A single clean element closed by `]`. -/
theorem elemsA_end (l : List Char) (v : Json) (r : List Char)
    (hV : ValA l v r) (w2 : List Char)
    (hw2 : ∀ ch ∈ w2, isWsChar ch = true) (r2 : List Char)
    (hr : r = w2 ++ ']' :: r2) :
    ElemsA l [v] r2 := by
  obtain ⟨p_v, hsplitV, hneV, hcleanV, hcleanCV, hnbV, hreplayV⟩ := hV
  refine ⟨p_v ++ (w2 ++ [']']), ?_, by simp, ?_, ?_, ?_, ?_⟩
  · rw [hsplitV, hr]
    simp
  · refine cleanPre_append _ _ hcleanV (cleanPre_run _ ?_)
    intro ch hch
    rcases List.mem_append.mp hch with hh | hh
    · exact ws_ncrun w2 hw2 ch hh
    · rw [List.mem_singleton] at hh
      subst hh
      exact ⟨by decide, by decide⟩
  · intro tl htl
    have hCv := hcleanCV tl htl
    intro z
    rw [show (p_v ++ (w2 ++ [']'])) ++ z = p_v ++ (w2 ++ ']' :: z) from by
      simp]
    rw [hCv (w2 ++ ']' :: z), repair_ncrun w2 (ws_ncrun w2 hw2),
      repair_nc ']' (by decide) (by decide)]
    simp
  · refine noBad_append _ _ hnbV (noBad_run _ ?_)
    intro ch hch
    rcases List.mem_append.mp hch with hh | hh
    · exact (ws_ne ch (hw2 ch hh)).1
    · rw [List.mem_singleton] at hh
      subst hh
      decide
  · intro g Y
    cases g with
    | zero => exact Or.inr rfl
    | succ g2 =>
        simp only [parseElems]
        rw [show (p_v ++ (w2 ++ [']'])) ++ Y = p_v ++ (w2 ++ ']' :: Y) from by
          simp]
        rcases hreplayV g2 (w2 ++ ']' :: Y)
            (headNotDigit_ws w2 hw2 ']' (by decide) Y) with hc | hc
        · rw [hc]
          dsimp only
          rw [skipWs_ws w2 hw2, skipWs_cons_neg ']' Y (by decide)]
          left
          rfl
        · rw [hc]
          exact Or.inr rfl

/-- A clean element followed by a clean separator and a clean tail of
elements. -/
theorem elemsA_cons (l : List Char) (v : Json) (r : List Char)
    (hV : ValA l v r) (w2 : List Char)
    (hw2 : ∀ ch ∈ w2, isWsChar ch = true) (r2 : List Char)
    (hr : r = w2 ++ ',' :: r2) (t : List Char) (hl2 : r2 = '\x7b' :: t)
    (vs : List Json) (r3 : List Char) (hE : ElemsA r2 vs r3) :
    ElemsA l (v :: vs) r3 := by
  obtain ⟨p_v, hsplitV, hneV, hcleanV, hcleanCV, hnbV, hreplayV⟩ := hV
  obtain ⟨p_2, hsplit2, hne2, hclean2, hcleanC2, hnb2, hreplay2⟩ := hE
  have hC2 : CleanPreC p_2 := hcleanC2 t hl2
  obtain ⟨p2b, hp2b⟩ : ∃ p2b, p_2 = '\x7b' :: p2b := by
    cases p_2 with
    | nil => exact absurd rfl hne2
    | cons b pb =>
        rw [hl2, List.cons_append, List.cons.injEq] at hsplit2
        exact ⟨pb, by rw [hsplit2.1]⟩
  refine ⟨p_v ++ (w2 ++ ',' :: p_2), ?_, by simp, ?_, ?_, ?_, ?_⟩
  · rw [hsplitV, hr, hsplit2]
    simp
  · refine cleanPre_append _ _ hcleanV ?_
    intro z
    rw [show (w2 ++ ',' :: p_2) ++ z = w2 ++ (',' :: (p_2 ++ z)) from by simp]
    rw [repair_ncrun w2 (ws_ncrun w2 hw2), hC2 z]
    simp
  · intro tl htl
    have hCv := hcleanCV tl htl
    intro z
    rw [show (p_v ++ (w2 ++ ',' :: p_2)) ++ z =
      p_v ++ (w2 ++ ',' :: (p_2 ++ z)) from by simp]
    rw [hCv (w2 ++ ',' :: (p_2 ++ z)), repair_ncrun w2 (ws_ncrun w2 hw2),
      hC2 z]
    simp
  · refine noBad_append _ _ hnbV
      (noBad_append w2 _
        (noBad_run w2 (fun ch hch => (ws_ne ch (hw2 ch hch)).1)) ?_)
    exact noBad_comma p_2 p2b hp2b hnb2
  · intro g Y
    cases g with
    | zero => exact Or.inr rfl
    | succ g2 =>
        simp only [parseElems]
        rw [show (p_v ++ (w2 ++ ',' :: p_2)) ++ Y =
          p_v ++ (w2 ++ ',' :: (p_2 ++ Y)) from by simp]
        rcases hreplayV g2 (w2 ++ ',' :: (p_2 ++ Y))
            (headNotDigit_ws w2 hw2 ',' (by decide) _) with hc | hc
        · rw [hc]
          dsimp only
          rw [skipWs_ws w2 hw2, skipWs_cons_neg ',' _ (by decide)]
          rcases hreplay2 g2 Y with hc2 | hc2
          · left
            show (match parseElems g2 (p_2 ++ Y) with
              | some (vs2, r4) => some (v :: vs2, r4)
              | none => none) = some (v :: vs, Y)
            rw [hc2]
          · right
            show (match parseElems g2 (p_2 ++ Y) with
              | some (vs2, r4) => some (v :: vs2, r4)
              | none => none) = none
            rw [hc2]
        · rw [hc]
          exact Or.inr rfl

/-- A bad separator after a clean first element busts the element
list. -/
theorem bustE_badsep (l : List Char) (v : Json) (r : List Char)
    (hV : ValA l v r) (w2 : List Char)
    (hw2 : ∀ ch ∈ w2, isWsChar ch = true) (cb : Char) (vb : List Char)
    (hr : r = w2 ++ ',' :: (cb :: vb)) (d : Char) (t2 : List Char)
    (hsw : skipWs (cb :: vb) = d :: t2)
    (hvs : d = '\x22' ∨ d = '-' ∨ isDigitAZ d = true ∨ d = '[' ∨ d = '\x7b')
    (hbad : ¬ cb = '\x7b') :
    BustE l := by
  obtain ⟨p_v, hsplitV, hneV, hcleanV, _, _, hreplayV⟩ := hV
  obtain ⟨hd1, hd2, hd3, hd4, hd5, hd6⟩ := valuestart_ne d hvs
  have hcb : isLowerAZ cb = false ∧ ¬ cb = ',' := by
    by_cases hws : isWsChar cb = true
    · obtain ⟨x1, _, _, _, _, _, _, _, x9⟩ := ws_ne cb hws
      exact ⟨x9, x1⟩
    · have hfix : skipWs (cb :: vb) = cb :: vb :=
        skipWs_cons_neg cb vb (by simpa using hws)
      rw [hfix, List.cons.injEq] at hsw
      exact ⟨by rw [hsw.1]; exact hd6, by rw [hsw.1]; exact hd1⟩
  obtain ⟨T2, hT2⟩ := repair_tail_head cb vb d t2 hsw hd1
  have hrep : repair l =
      p_v ++ (w2 ++ (',' :: '\x22' :: '\x22' :: cb :: repair vb)) := by
    rw [hsplitV, hr, hcleanV, repair_ncrun w2 (ws_ncrun w2 hw2),
      repair_bad_sep cb hcb.1 hcb.2 hbad]
  intro g
  cases g with
  | zero => rfl
  | succ g2 =>
      simp only [parseElems]
      rw [hrep]
      rcases hreplayV g2 (w2 ++ (',' :: '\x22' :: '\x22' :: cb :: repair vb))
          (headNotDigit_ws w2 hw2 ',' (by decide) _) with hc | hc
      · rw [hc]
        dsimp only
        rw [skipWs_ws w2 hw2, skipWs_cons_neg ',' _ (by decide)]
        show (match parseElems g2 ('\x22' :: '\x22' :: cb :: repair vb) with
          | some (vs2, r3) => some (v :: vs2, r3)
          | none => none) = none
        rw [elems_insert_none g2 cb vb d T2 hT2 hd1 hd2]
      · rw [hc]

/-- A busted element tail after a good separator busts the element
list. -/
theorem bustE_goodsep (l : List Char) (v : Json) (r : List Char)
    (hV : ValA l v r) (w2 : List Char)
    (hw2 : ∀ ch ∈ w2, isWsChar ch = true) (r2 t : List Char)
    (hr : r = w2 ++ ',' :: r2) (hl2 : r2 = '\x7b' :: t) (hB : BustE r2)
    (w4 : List Char) (e : Char) (t4 : List Char) (ht : t = w4 ++ e :: t4)
    (hw4 : ∀ ch ∈ w4, isWsChar ch = true) (he1 : isLowerAZ e = false)
    (he2 : ¬ e = ':') (he3 : ¬ e = '\x7b') (he4 : ¬ e = ',') :
    BustE l := by
  obtain ⟨p_v, hsplitV, _, hcleanV, _, _, hreplayV⟩ := hV
  have hcr : repair (',' :: r2) = ',' :: repair r2 := by
    rw [hl2, ht, repair_comma_brace_ws w4 hw4 e he1 he2 he3 he4 t4,
      ← repair_brace_ws w4 hw4 e he1 he2 he3 he4 t4]
  have hrep : repair l = p_v ++ (w2 ++ (',' :: repair r2)) := by
    rw [hsplitV, hr, hcleanV, repair_ncrun w2 (ws_ncrun w2 hw2), hcr]
  intro g
  cases g with
  | zero => rfl
  | succ g2 =>
      simp only [parseElems]
      rw [hrep]
      rcases hreplayV g2 (w2 ++ (',' :: repair r2))
          (headNotDigit_ws w2 hw2 ',' (by decide) _) with hc | hc
      · rw [hc]
        dsimp only
        rw [skipWs_ws w2 hw2, skipWs_cons_neg ',' _ (by decide)]
        show (match parseElems g2 (repair r2) with
          | some (vs2, r3) => some (v :: vs2, r3)
          | none => none) = none
        rw [hB g2]
      · rw [hc]

/-- A single clean member closed by the object brace. -/
theorem membersA_end (w0 : List Char) (hw0 : ∀ ch ∈ w0, isWsChar ch = true)
    (k : List Char) (hk : ∀ ch ∈ k, ¬ ch = '\x22' ∧ ¬ ch = '\\')
    (hok : strOk SMode.n k = true) (w1 : List Char)
    (hw1 : ∀ ch ∈ w1, isWsChar ch = true) (r2 : List Char) (v : Json)
    (r3 : List Char) (hV : ValA r2 v r3) (w2 : List Char)
    (hw2 : ∀ ch ∈ w2, isWsChar ch = true) (r4 : List Char)
    (hr3 : r3 = w2 ++ '\x7d' :: r4) :
    MembersA (w0 ++ '\x22' :: (k ++ '\x22' :: (w1 ++ ':' :: r2))) [(k, v)]
      r4 := by
  obtain ⟨p_v, hsplitV, hneV, hcleanV, _, hnbV, hreplayV⟩ := hV
  refine ⟨w0 ++ (('\x22' :: (k ++ ['\x22'])) ++
    (w1 ++ ([':'] ++ (p_v ++ (w2 ++ ['\x7d']))))), ?_, by simp, ?_, ?_, ?_⟩
  · rw [hsplitV, hr3]
    simp
  · exact cleanPre_append w0 _ (cleanPre_run w0 (ws_ncrun w0 hw0))
      (cleanPre_append _ _ (cleanPre_str k hok)
        (cleanPre_append w1 _ (cleanPre_run w1 (ws_ncrun w1 hw1))
          (cleanPre_append [':'] _ (cleanPre_nc ':' (by decide) (by decide))
            (cleanPre_append _ _ hcleanV (cleanPre_run _ (by
              intro ch hch
              rcases List.mem_append.mp hch with hh | hh
              · exact ws_ncrun w2 hw2 ch hh
              · rw [List.mem_singleton] at hh
                subst hh
                exact ⟨by decide, by decide⟩))))))
  · refine noBad_append w0 _
      (noBad_run w0 (fun ch hch => (ws_ne ch (hw0 ch hch)).1))
      (noBad_append _ _ (noBad_str k hok)
        (noBad_append w1 _
          (noBad_run w1 (fun ch hch => (ws_ne ch (hw1 ch hch)).1))
          (noBad_append [':'] _ (noBad_run [':'] (by
              intro ch hch
              rw [List.mem_singleton] at hch
              subst hch
              decide))
            (noBad_append _ _ hnbV (noBad_run _ (by
              intro ch hch
              rcases List.mem_append.mp hch with hh | hh
              · exact (ws_ne ch (hw2 ch hh)).1
              · rw [List.mem_singleton] at hh
                subst hh
                decide))))))
  · intro g Y
    cases g with
    | zero => exact Or.inr rfl
    | succ g2 =>
        rw [show (w0 ++ (('\x22' :: (k ++ ['\x22'])) ++
            (w1 ++ ([':'] ++ (p_v ++ (w2 ++ ['\x7d'])))))) ++ Y =
          w0 ++ '\x22' :: (k ++ '\x22' ::
            (w1 ++ ':' :: (p_v ++ (w2 ++ '\x7d' :: Y)))) from by simp]
        rw [parseMembers_key_step g2 w0 hw0 k hk w1 hw1
          (p_v ++ (w2 ++ '\x7d' :: Y))]
        rcases hreplayV g2 (w2 ++ '\x7d' :: Y)
            (headNotDigit_ws w2 hw2 '\x7d' (by decide) Y) with hc | hc
        · rw [hc]
          dsimp only
          rw [skipWs_ws w2 hw2, skipWs_cons_neg '\x7d' Y (by decide)]
          left
          rfl
        · rw [hc]
          exact Or.inr rfl

/-- A busted member value busts the member list. -/
theorem bustM_valbust (l w0 k rk w1 r2 : List Char)
    (hl : l = w0 ++ '\x22' :: (k ++ '\x22' :: rk))
    (hrk : rk = w1 ++ ':' :: r2)
    (hw0 : ∀ ch ∈ w0, isWsChar ch = true)
    (hk : ∀ ch ∈ k, ¬ ch = '\x22' ∧ ¬ ch = '\\')
    (hok : strOk SMode.n k = true)
    (hw1 : ∀ ch ∈ w1, isWsChar ch = true) (hB : BustV r2) : BustM l := by
  have hrep : repair l =
      w0 ++ '\x22' :: (k ++ '\x22' :: (w1 ++ ':' :: repair r2)) := by
    rw [hl, hrk, repair_ncrun w0 (ws_ncrun w0 hw0),
      show ('\x22' :: (k ++ '\x22' :: (w1 ++ ':' :: r2)) : List Char) =
        ('\x22' :: (k ++ ['\x22'])) ++ (w1 ++ ':' :: r2) from by simp,
      cleanPre_str k hok (w1 ++ ':' :: r2),
      repair_ncrun w1 (ws_ncrun w1 hw1),
      repair_nc ':' (by decide) (by decide)]
    simp
  intro g
  cases g with
  | zero => rfl
  | succ g2 =>
      rw [hrep, parseMembers_key_step g2 w0 hw0 k hk w1 hw1 (repair r2)]
      rcases hB g2 with hN | ⟨j2, r2b, hS, hP⟩
      · rw [hN]
      · rw [hS]
        dsimp only
        obtain ⟨d, t, hr2b, hsw, hdc, hde, hdb, hdcol⟩ := poison_head r2b hP
        rw [hsw]
        split
        · next r5 heq =>
            rw [List.cons.injEq] at heq
            exact absurd heq.1 hdc
        · next r5 heq =>
            rw [List.cons.injEq] at heq
            exact absurd heq.1 hdb
        · rfl

/-- A member separator is always bad: the repaired text fails in the
key position of the next member. -/
theorem bustM_badsep (l w0 k rk w1 r2 : List Char)
    (hl : l = w0 ++ '\x22' :: (k ++ '\x22' :: rk))
    (hrk : rk = w1 ++ ':' :: r2)
    (hw0 : ∀ ch ∈ w0, isWsChar ch = true)
    (hk : ∀ ch ∈ k, ¬ ch = '\x22' ∧ ¬ ch = '\\')
    (hok : strOk SMode.n k = true)
    (hw1 : ∀ ch ∈ w1, isWsChar ch = true) (v : Json) (r3 : List Char)
    (hV : ValA r2 v r3) (w2 : List Char)
    (hw2 : ∀ ch ∈ w2, isWsChar ch = true) (cb : Char) (vb : List Char)
    (hr3 : r3 = w2 ++ ',' :: (cb :: vb)) (t2 : List Char)
    (hsw : skipWs (cb :: vb) = '\x22' :: t2) : BustM l := by
  have hcb : isLowerAZ cb = false ∧ ¬ cb = ',' ∧ ¬ cb = '\x7b' := by
    by_cases hws : isWsChar cb = true
    · obtain ⟨x1, x2, _, _, _, _, _, _, x9⟩ := ws_ne cb hws
      exact ⟨x9, x1, x2⟩
    · have hfix : skipWs (cb :: vb) = cb :: vb :=
        skipWs_cons_neg cb vb (by simpa using hws)
      rw [hfix, List.cons.injEq] at hsw
      rw [hsw.1]
      exact ⟨rfl, by decide, by decide⟩
  obtain ⟨T2, hT2⟩ := repair_tail_head cb vb '\x22' t2 hsw (by decide)
  obtain ⟨p_v, hsplitV, _, hcleanV, _, _, hreplayV⟩ := hV
  have hrep : repair l = w0 ++ '\x22' :: (k ++ '\x22' :: (w1 ++ ':' ::
      (p_v ++ (w2 ++ (',' :: '\x22' :: '\x22' :: cb :: repair vb))))) := by
    rw [hl, hrk, hsplitV, hr3, repair_ncrun w0 (ws_ncrun w0 hw0),
      show ('\x22' :: (k ++ '\x22' :: (w1 ++ ':' ::
          (p_v ++ (w2 ++ ',' :: (cb :: vb))))) : List Char) =
        ('\x22' :: (k ++ ['\x22'])) ++
          (w1 ++ ':' :: (p_v ++ (w2 ++ ',' :: (cb :: vb)))) from by simp,
      cleanPre_str k hok _, repair_ncrun w1 (ws_ncrun w1 hw1),
      repair_nc ':' (by decide) (by decide), hcleanV,
      repair_ncrun w2 (ws_ncrun w2 hw2),
      repair_bad_sep cb hcb.1 hcb.2.1 hcb.2.2]
    simp
  intro g
  cases g with
  | zero => rfl
  | succ g2 =>
      rw [hrep, parseMembers_key_step g2 w0 hw0 k hk w1 hw1
        (p_v ++ (w2 ++ (',' :: '\x22' :: '\x22' :: cb :: repair vb)))]
      rcases hreplayV g2 (w2 ++ (',' :: '\x22' :: '\x22' :: cb :: repair vb))
          (headNotDigit_ws w2 hw2 ',' (by decide) _) with hc | hc
      · rw [hc]
        dsimp only
        rw [skipWs_ws w2 hw2, skipWs_cons_neg ',' _ (by decide)]
        show (match parseMembers g2 ('\x22' :: '\x22' :: cb :: repair vb) with
          | some (kvs2, r5) => some ((k, v) :: kvs2, r5)
          | none => none) = none
        rw [members_insert_none g2 cb vb '\x22' T2 hT2 (by decide)]
      · rw [hc]

/-- The simulation: every successful parse of the original text either
consumed a clean prefix (copied verbatim by the repair, with no bad
comma, replayable in any context) or the parse of the repaired text is
busted. -/
theorem sim : ∀ fuel : Nat,
    (∀ l j rem, parseVal fuel l = some (j, rem) → ValA l j rem ∨ BustV l) ∧
    (∀ l vs rem, parseElems fuel l = some (vs, rem) →
      ElemsA l vs rem ∨ BustE l) ∧
    (∀ l kvs rem, parseMembers fuel l = some (kvs, rem) →
      MembersA l kvs rem ∨ BustM l) := by
  intro fuel
  induction fuel with
  | zero =>
      refine ⟨?_, ?_, ?_⟩ <;> intro l a rem h <;>
        exact absurd h (by simp [parseVal, parseElems, parseMembers])
  | succ n ih =>
      obtain ⟨ihV, ihE, ihM⟩ := ih
      refine ⟨?_, ?_, ?_⟩
      · -- values
        intro l j rem h
        simp only [parseVal] at h
        split at h
        · exact absurd h (by simp)
        · next c rest heq =>
            obtain ⟨w, hdec, hwws⟩ := skipWs_decomp l
            rw [heq] at hdec
            by_cases h1 : c = '\x22'
            · subst h1
              rw [if_pos rfl] at h
              split at h
              · next s r heqS =>
                  rw [Option.some.injEq, Prod.mk.injEq] at h
                  obtain ⟨hj, hrem⟩ := h
                  subst hj
                  subst hrem
                  obtain ⟨hrest, hsclean⟩ := parseStrBody_split rest s r heqS
                  rw [hrest] at hdec
                  by_cases hok : strOk SMode.n s = true
                  · left
                    rw [hdec]
                    exact valA_str w hwws s hsclean hok r
                  · right
                    rw [hdec]
                    exact bustV_str w hwws s hsclean (by simpa using hok) r
              · exact absurd h (by simp)
            · rw [if_neg h1] at h
              by_cases h2 : c = '-'
              · subst h2
                rw [if_pos rfl] at h
                split at h
                · next n2 r heqN =>
                    rw [Option.some.injEq, Prod.mk.injEq] at h
                    obtain ⟨hj, hrem⟩ := h
                    subst hj
                    subst hrem
                    obtain ⟨ds, hsp, hdne, hdall, hdval, hhead⟩ :=
                      parseNatNum_split rest n2 r heqN
                    rw [hsp] at hdec
                    left
                    rw [hdec, ← hdval]
                    exact valA_negnum w hwws ds hdne hdall r hhead
                · exact absurd h (by simp)
              · rw [if_neg h2] at h
                by_cases h3 : isDigitAZ c = true
                · rw [if_pos h3] at h
                  split at h
                  · next n2 r heqN =>
                      rw [Option.some.injEq, Prod.mk.injEq] at h
                      obtain ⟨hj, hrem⟩ := h
                      subst hj
                      subst hrem
                      obtain ⟨ds, hsp, hdne, hdall, hdval, hhead⟩ :=
                        parseNatNum_split (c :: rest) n2 r heqN
                      rw [hsp] at hdec
                      left
                      rw [hdec, ← hdval]
                      exact valA_num w hwws ds hdne hdall r hhead
                  · exact absurd h (by simp)
                · rw [if_neg (by simpa using h3)] at h
                  by_cases h4 : c = '['
                  · subst h4
                    rw [if_pos rfl] at h
                    split at h
                    · next r heqB =>
                        rw [Option.some.injEq, Prod.mk.injEq] at h
                        obtain ⟨hj, hrem⟩ := h
                        subst hj
                        subst hrem
                        obtain ⟨w1, hdec1, hw1ws⟩ := skipWs_decomp rest
                        rw [heqB] at hdec1
                        rw [hdec1] at hdec
                        left
                        rw [hdec]
                        exact valA_emptyarr w hwws w1 hw1ws r
                    · next l2 heq2 =>
                        split at h
                        · next vs r heqE =>
                            rw [Option.some.injEq, Prod.mk.injEq] at h
                            obtain ⟨hj, hrem⟩ := h
                            subst hj
                            subst hrem
                            obtain ⟨n2, v0, r0, hn2, hv0⟩ :=
                              parseElems_val n (skipWs rest) vs r heqE
                            obtain ⟨d, t, hswl2, hdw, hdvs⟩ :=
                              parseVal_head n2 (skipWs rest) v0 r0 hv0
                            rw [skipWs_skipWs rest] at hswl2
                            obtain ⟨w1, hdec1, hw1ws⟩ := skipWs_decomp rest
                            rw [hdec1] at hdec
                            obtain ⟨hne1, hne2, hne3, hne4, _, _⟩ :=
                              valuestart_ne d hdvs
                            rcases ihE (skipWs rest) vs r heqE with hEA | hEB
                            · left
                              rw [hdec]
                              exact valA_arr w hwws w1 hw1ws (skipWs rest)
                                vs r hEA d t hswl2 hdw hne2
                            · right
                              rw [hdec]
                              exact bustV_arr w hwws w1 hw1ws (skipWs rest)
                                hEB d t hswl2 hdw hne2 hne1
                        · exact absurd h (by simp)
                  · rw [if_neg h4] at h
                    by_cases h5 : c = '\x7b'
                    · subst h5
                      rw [if_pos rfl] at h
                      split at h
                      · next r heqB =>
                          rw [Option.some.injEq, Prod.mk.injEq] at h
                          obtain ⟨hj, hrem⟩ := h
                          subst hj
                          subst hrem
                          obtain ⟨w1, hdec1, hw1ws⟩ := skipWs_decomp rest
                          rw [heqB] at hdec1
                          rw [hdec1] at hdec
                          left
                          rw [hdec]
                          exact valA_emptyobj w hwws w1 hw1ws r
                      · next l2 heq2 =>
                          split at h
                          · next kvs r heqM =>
                              rw [Option.some.injEq, Prod.mk.injEq] at h
                              obtain ⟨hj, hrem⟩ := h
                              subst hj
                              subst hrem
                              obtain ⟨tk, hswl2⟩ :=
                                parseMembers_head n (skipWs rest) kvs r heqM
                              rw [skipWs_skipWs rest] at hswl2
                              obtain ⟨w1, hdec1, hw1ws⟩ := skipWs_decomp rest
                              rw [hdec1] at hdec
                              rcases ihM (skipWs rest) kvs r heqM with hMA | hMB
                              · left
                                rw [hdec]
                                exact valA_obj w hwws w1 hw1ws (skipWs rest)
                                  kvs r hMA tk hswl2
                              · right
                                rw [hdec]
                                exact bustV_obj w hwws w1 hw1ws (skipWs rest)
                                  hMB tk hswl2
                          · exact absurd h (by simp)
                    · rw [if_neg h5] at h
                      exact absurd h (by simp)
      · -- elements
        intro l vs rem h
        simp only [parseElems] at h
        split at h
        · exact absurd h (by simp)
        · next v r heqV =>
            split at h
            · next r2 heqS =>
                split at h
                · next vs2 r3 heqE2 =>
                    rw [Option.some.injEq, Prod.mk.injEq] at h
                    obtain ⟨hvs, hrem⟩ := h
                    subst hvs
                    subst hrem
                    obtain ⟨w2, hdec2, hw2⟩ := skipWs_decomp r
                    rw [heqS] at hdec2
                    obtain ⟨n2, v0, r0, hn2, hv0⟩ :=
                      parseElems_val n r2 vs2 r3 heqE2
                    obtain ⟨d, t, hswr2, hdw, hdvs⟩ :=
                      parseVal_head n2 r2 v0 r0 hv0
                    cases r2 with
                    | nil => simp [skipWs] at hswr2
                    | cons cb vb =>
                        by_cases hgood : cb = '\x7b'
                        · subst hgood
                          rcases ihV l v r heqV with hVA | hVB
                          · rcases ihE ('\x7b' :: vb) vs2 r3 heqE2 with
                              hEA | hEB
                            · left
                              exact elemsA_cons l v r hVA w2 hw2 _ hdec2 vb
                                rfl vs2 r3 hEA
                            · right
                              obtain ⟨w4, e, t4, hbs1, hbs2, hbs3, hbs4,
                                hbs5, hbs6⟩ :=
                                parseVal_brace_shape n2 vb (v0, r0) hv0
                              exact bustE_goodsep l v r hVA w2 hw2 _ vb hdec2
                                rfl hEB w4 e t4 hbs1 hbs2 hbs3 hbs4 hbs5 hbs6
                          · right
                            exact bustV_to_bustE l hVB
                        · rcases ihV l v r heqV with hVA | hVB
                          · right
                            exact bustE_badsep l v r hVA w2 hw2 cb vb hdec2
                              d t hswr2 hdvs hgood
                          · right
                            exact bustV_to_bustE l hVB
                · exact absurd h (by simp)
            · next r2 heqS =>
                rw [Option.some.injEq, Prod.mk.injEq] at h
                obtain ⟨hvs, hrem⟩ := h
                subst hvs
                subst hrem
                obtain ⟨w2, hdec2, hw2⟩ := skipWs_decomp r
                rw [heqS] at hdec2
                rcases ihV l v r heqV with hVA | hVB
                · left
                  exact elemsA_end l v r hVA w2 hw2 r2 hdec2
                · right
                  exact bustV_to_bustE l hVB
            · exact absurd h (by simp)
      · -- members
        intro l kvs rem h
        simp only [parseMembers] at h
        split at h
        · next restk heqK =>
            split at h
            · exact absurd h (by simp)
            · next k rk heqSB =>
                split at h
                · next r2 heqC =>
                    split at h
                    · exact absurd h (by simp)
                    · next v r3 heqV2 =>
                        split at h
                        · next r4 heqS2 =>
                            split at h
                            · next kvs2 r5 heqM2 =>
                                rw [Option.some.injEq, Prod.mk.injEq] at h
                                obtain ⟨hkv, hrem⟩ := h
                                subst hkv
                                subst hrem
                                right
                                obtain ⟨w0, hdec0, hw0⟩ := skipWs_decomp l
                                rw [heqK] at hdec0
                                obtain ⟨hrestk, hkclean⟩ :=
                                  parseStrBody_split restk k rk heqSB
                                rw [hrestk] at hdec0
                                obtain ⟨w1, hdec1, hw1⟩ := skipWs_decomp rk
                                rw [heqC] at hdec1
                                by_cases hok : strOk SMode.n k = true
                                · obtain ⟨w2, hdec2, hw2⟩ := skipWs_decomp r3
                                  rw [heqS2] at hdec2
                                  obtain ⟨tk4, hswr4⟩ :=
                                    parseMembers_head n r4 kvs2 r5 heqM2
                                  cases r4 with
                                  | nil => simp [skipWs] at hswr4
                                  | cons cb vb =>
                                      rcases ihV r2 v r3 heqV2 with hVA | hVB
                                      · exact bustM_badsep l w0 k rk w1 r2
                                          hdec0 hdec1 hw0 hkclean hok hw1 v r3
                                          hVA w2 hw2 cb vb hdec2 tk4 hswr4
                                      · exact bustM_valbust l w0 k rk w1 r2
                                          hdec0 hdec1 hw0 hkclean hok hw1 hVB
                                · exact bustM_dirty_key l w0 k rk hdec0 hw0
                                    hkclean (by simpa using hok)
                            · exact absurd h (by simp)
                        · next r4 heqS2 =>
                            rw [Option.some.injEq, Prod.mk.injEq] at h
                            obtain ⟨hkv, hrem⟩ := h
                            subst hkv
                            subst hrem
                            obtain ⟨w0, hdec0, hw0⟩ := skipWs_decomp l
                            rw [heqK] at hdec0
                            obtain ⟨hrestk, hkclean⟩ :=
                              parseStrBody_split restk k rk heqSB
                            rw [hrestk] at hdec0
                            obtain ⟨w1, hdec1, hw1⟩ := skipWs_decomp rk
                            rw [heqC] at hdec1
                            by_cases hok : strOk SMode.n k = true
                            · rcases ihV r2 v r3 heqV2 with hVA | hVB
                              · left
                                obtain ⟨w2, hdec2, hw2⟩ := skipWs_decomp r3
                                rw [heqS2] at hdec2
                                rw [hdec0, hdec1]
                                exact membersA_end w0 hw0 k hkclean hok w1 hw1
                                  r2 v r3 hVA w2 hw2 r4 hdec2
                              · right
                                exact bustM_valbust l w0 k rk w1 r2 hdec0
                                  hdec1 hw0 hkclean hok hw1 hVB
                            · right
                              exact bustM_dirty_key l w0 k rk hdec0 hw0
                                hkclean (by simpa using hok)
                        · exact absurd h (by simp)
                · exact absurd h (by simp)
        · exact absurd h (by simp)

/-- Any decodable text with a comma followed by a character that is
neither lowercase nor `{` fails to decode after the repair. -/
theorem loads_bad_comma (t : List Char) (j : Json) (u v : List Char)
    (c : Char) (hload : loads t = some j) (hbc : t = u ++ ',' :: c :: v)
    (h1 : isLowerAZ c = false) (h2 : ¬ c = '\x7b') :
    loads (repair t) = none := by
  unfold loads at hload
  cases hpv : parseVal (2 * t.length + 2) t with
  | none =>
      rw [hpv] at hload
      exact absurd hload (by simp)
  | some pr =>
      obtain ⟨j0, rem⟩ := pr
      rw [hpv] at hload
      dsimp only at hload
      by_cases hre : skipWs rem = []
      · rcases (sim (2 * t.length + 2)).1 t j0 rem hpv with hA | hB
        · exfalso
          obtain ⟨p, hps, hne, _, _, hnb, _⟩ := hA
          have hrem_ws : ∀ ch ∈ rem, isWsChar ch = true := skipWs_eq_nil rem hre
          have hcomma_ws : ¬ (',' ∈ rem) := by
            intro hmem
            exact absurd (hrem_ws ',' hmem) (by decide)
          have heq : p ++ rem = u ++ (',' :: c :: v) := hps.symm.trans hbc
          rcases List.append_eq_append_iff.mp heq with ⟨k, hk1, hk2⟩ |
            ⟨k, hk1, hk2⟩
          · -- the comma would sit inside the all-whitespace leftover
            exact hcomma_ws (by rw [hk2]; simp)
          · -- the comma sits inside the clean prefix or at its boundary
            cases k with
            | nil =>
                rw [List.nil_append] at hk2
                exact hcomma_ws (by rw [← hk2]; simp)
            | cons k0 kr =>
                rw [List.cons_append, List.cons.injEq] at hk2
                obtain ⟨hka, hkb⟩ := hk2
                cases kr with
                | nil =>
                    rw [← hka] at hk1
                    exact hnb.2 u hk1
                | cons k1 kr2 =>
                    rw [List.cons_append, List.cons.injEq] at hkb
                    obtain ⟨hkc, hkd⟩ := hkb
                    rw [← hka, ← hkc] at hk1
                    exact h2 (hnb.1 u c kr2 hk1)
        · unfold loads
          rcases hB (2 * (repair t).length + 2) with hN | ⟨j2, r2, hS, hP⟩
          · rw [hN]
          · rw [hS]
            dsimp only
            obtain ⟨d, t2, hr2, hsw, _, _, _, _⟩ := poison_head r2 hP
            rw [if_neg (by rw [hsw]; simp)]
      · rw [if_neg hre] at hload
        exact absurd hload (by simp)

/-- A failed decode sends the temperature mode into the parse-error
path with exit code 3. -/
theorem parse_fail_path (w k : Int) (key t : List Char)
    (h : loads (repair t) = none) :
    runTemp w k key t = ModeOut.parseFail ∧
      exitOf (runTemp w k key t) = 3 := by
  have hf : fetchResult w k key t = FetchR.parseFail := by
    unfold fetchResult
    rw [h]
  constructor
  · unfold runTemp
    rw [hf]
  · unfold runTemp
    rw [hf]
    rfl

/-- Claim C9: the pattern `,([a-z]*)` also matches the empty identifier,
so for every input text with a comma immediately followed by a character
that is neither lowercase nor `{`, the repair inserts `""` right after
that comma and no later step removes it; every otherwise-valid text of
that shape (for example with the comma before a digit, a double quote,
or `[`) therefore fails to decode, and the invocation ends in the
parse-error path. -/
theorem c9_spurious_empty_identifier :
    (∀ (u v : List Char) (c : Char), isLowerAZ c = false → ¬ c = '\x7b' →
      ∃ x y, repair (u ++ ',' :: c :: v) =
        x ++ ',' :: '\x22' :: '\x22' :: c :: y) ∧
    (∀ (t : List Char) (j : Json) (u v : List Char) (c : Char),
      loads t = some j → t = u ++ ',' :: c :: v → isLowerAZ c = false →
      ¬ c = '\x7b' →
      loads (repair t) = none ∧
      ∀ (w k : Int) (key : List Char),
        runTemp w k key t = ModeOut.parseFail ∧
        exitOf (runTemp w k key t) = 3) ∧
    (loads rawDigit).isSome = true ∧ loads (repair rawDigit) = none ∧
    runTemp 28 30 tempcKey rawDigit = ModeOut.parseFail ∧
    exitOf (runTemp 28 30 tempcKey rawDigit) = 3 ∧
    (loads rawQuote).isSome = true ∧ loads (repair rawQuote) = none ∧
    runTemp 28 30 tempcKey rawQuote = ModeOut.parseFail ∧
    (loads rawBracket).isSome = true ∧ loads (repair rawBracket) = none ∧
    runTemp 28 30 tempcKey rawBracket = ModeOut.parseFail :=
  ⟨fun u v c h1 h2 => repair_bad_comma u v c h1 h2,
   fun t j u v c hl hs h1 h2 =>
     ⟨loads_bad_comma t j u v c hl hs h1 h2,
      fun w k key =>
        parse_fail_path w k key t (loads_bad_comma t j u v c hl hs h1 h2)⟩,
   rfl, rfl, rfl, rfl, rfl, rfl, rfl, rfl, rfl, rfl⟩

/-- Witness for C9 at the comma of `[1,2]`: the `""` insertion, and the
decode failure of the repaired text. -/
theorem c9_spurious_empty_identifier_witness :
    isLowerAZ '2' = false ∧ ¬ '2' = '\x7b' ∧
    (∃ x y, repair (("[1".toList) ++ ',' :: '2' :: ("]".toList)) =
      x ++ ',' :: '\x22' :: '\x22' :: '2' :: y) ∧
    loads (("[1".toList) ++ ',' :: '2' :: ("]".toList)) =
      some (Json.arr [Json.num 1, Json.num 2]) ∧
    loads (repair (("[1".toList) ++ ',' :: '2' :: ("]".toList))) = none ∧
    runTemp 28 30 tempcKey (("[1".toList) ++ ',' :: '2' :: ("]".toList)) =
      ModeOut.parseFail :=
  ⟨by decide, by decide,
   c9_spurious_empty_identifier.1 ("[1".toList) ("]".toList) '2'
     (by decide) (by decide),
   rfl,
   (c9_spurious_empty_identifier.2.1
     (("[1".toList) ++ ',' :: '2' :: ("]".toList))
     (Json.arr [Json.num 1, Json.num 2]) ("[1".toList) ("]".toList) '2'
     rfl rfl (by decide) (by decide)).1,
   ((c9_spurious_empty_identifier.2.1
     (("[1".toList) ++ ',' :: '2' :: ("]".toList))
     (Json.arr [Json.num 1, Json.num 2]) ("[1".toList) ("]".toList) '2'
     rfl rfl (by decide) (by decide)).2 28 30 tempcKey).1⟩
